import Mathlib

/-!
# The one-time-pad codec and the server of `sarah-otp`

A shallow embedding of `go/otp/otp.go`, `go/otp/pem.go` and `go/server/server.go`, together
with the parts of the Go standard library they call (`encoding/pem`, `encoding/base64`,
`bytes`, `net`, `net/http`, as of Go 1.22), followed by theorems about them.

Conventions:
* a Go `[]byte` or `string` is a `List Byte`, where `Byte` is a natural number below 256;
* a Go `error` is its text, a `(value, error)` result is an `Except`; the text is a `String`
  in the codec and a `List Byte` in the server, where it takes in parts of the request;
* a loop whose trip count is not the length of a list gets a fuel argument; the callers pass a
  fuel that the loop cannot exhaust, and the lemmas of the second part show this.
-/

namespace Otp

/-! ## Bytes -/

deriving instance DecidableEq for Except

/-- A Go `byte`. -/
abbrev Byte := Fin 256

/-- The conversion `byte(x)` of an unsigned integer: the low eight bits. -/
def toByte (x : Nat) : Byte := ⟨x % 256, Nat.mod_lt x (by decide)⟩

/-- The bytes of an ASCII string literal. -/
def str (s : String) : List Byte := s.toList.map (fun c => toByte c.toNat)

/-- Go `a ^ b` on bytes. -/
def bxor (a b : Byte) : Byte :=
  ⟨a.val ^^^ b.val, Nat.xor_lt_two_pow (n := 8) a.isLt b.isLt⟩

/-- Go builtin `copy(dst, src)`: the value of `dst` afterwards. The first
`min (len dst) (len src)` elements are overwritten. -/
def copy (dst src : List Byte) : List Byte :=
  src.take dst.length ++ dst.drop src.length

/-! ## Package `bytes` -/

/-- Go `bytes.HasPrefix(s, p)`. -/
def hasPrefix (s p : List Byte) : Bool := p.isPrefixOf s

/-- Go `bytes.HasSuffix(s, p)`. -/
def hasSuffix (s p : List Byte) : Bool := p.isSuffixOf s

/-- Go `bytes.IndexByte(s, c)`, with `none` for Go's `-1`. -/
def indexByte (c : Byte) : List Byte → Option Nat
  | [] => none
  | x :: s => if x = c then some 0 else (indexByte c s).map (· + 1)

/-- Go `bytes.Index(s, sep)`: the index of the first instance of `sep` in `s`, with `none` for
Go's `-1`. -/
def bytesIndex (sep : List Byte) : List Byte → Option Nat
  | [] => if sep.isPrefixOf [] then some 0 else none
  | x :: s => if sep.isPrefixOf (x :: s) then some 0 else (bytesIndex sep s).map (· + 1)

/-- Go `bytes.Cut(s, sep)`: the text before and after the first instance of `sep`, `none` when
`sep` does not occur (Go's `found == false`). -/
def bytesCut (s sep : List Byte) : Option (List Byte × List Byte) :=
  match bytesIndex sep s with
  | some i => some (s.take i, s.drop (i + sep.length))
  | none => none

/-- Go `bytes.TrimRight(s, " \t")`. -/
def trimRightSpaceTab (s : List Byte) : List Byte :=
  s.rdropWhile (fun c => c = 32 || c = 9)

/-! ## Package `encoding/base64`, `StdEncoding` -/

/-- The alphabet `encodeStd`. -/
def encodeStd : List Byte :=
  str "ABCDEFGHIJKLMNOPQRSTUVWXYZabcdefghijklmnopqrstuvwxyz0123456789+/"

/-- The padding character `StdPadding`, `'='`. -/
def padChar : Byte := 61

/-- The table lookup `enc.encode[i]`. -/
def encTable (i : Nat) : Byte := encodeStd.getD i 0

/-- The table lookup `enc.decodeMap[c]`: the position of `c` in the alphabet, `0xff` for a
byte outside the alphabet. -/
def decodeMap (c : Byte) : Nat :=
  match indexByte c encodeStd with
  | some i => i
  | none => 0xff

/-- Method `(*Encoding).Encode` of `StdEncoding`: the bytes written to `dst`. Each group of three
source bytes gives four characters; a last group of one or two bytes is padded with `=`. -/
def stdEncode : List Byte → List Byte
  | [] => []
  | [a] =>
    let val := a.val <<< 16
    [encTable (val >>> 18 &&& 0x3F), encTable (val >>> 12 &&& 0x3F), padChar, padChar]
  | [a, b] =>
    let val := a.val <<< 16 ||| b.val <<< 8
    [encTable (val >>> 18 &&& 0x3F), encTable (val >>> 12 &&& 0x3F),
      encTable (val >>> 6 &&& 0x3F), padChar]
  | a :: b :: c :: t =>
    let val := a.val <<< 16 ||| b.val <<< 8 ||| c.val
    encTable (val >>> 18 &&& 0x3F) :: encTable (val >>> 12 &&& 0x3F) ::
      encTable (val >>> 6 &&& 0x3F) :: encTable (val &&& 0x3F) :: stdEncode t

/-- The result of `decodeQuantum`: the unread source `src[nsi:]`, the bytes stored in `dst`,
and whether an error is returned. -/
structure Quantum where
  rest : List Byte
  out : List Byte
  err : Bool
deriving DecidableEq, Repr

/-- The loop `for si < len(src) && (src[si] == '\n' || src[si] == '\r') { si++ }`. -/
def skipNewlines (src : List Byte) : List Byte :=
  src.dropWhile (fun c => c = 10 || c = 13)

/-- The end of `decodeQuantum`: the four 6-bit values of `dbuf` (those not filled are zero)
are packed into three bytes, the first `dlen - 1` of which are stored. -/
def quantumBytes (dbuf : List Nat) (dlen : Nat) : List Byte :=
  let val := dbuf.getD 0 0 <<< 18 ||| dbuf.getD 1 0 <<< 12 ||| dbuf.getD 2 0 <<< 6 |||
    dbuf.getD 3 0
  [toByte (val >>> 16), toByte (val >>> 8), toByte (val >>> 0)].take (dlen - 1)

/-- The loop `for j := 0; j < len(dbuf); j++` of `(*Encoding).decodeQuantum` for `StdEncoding`
(padded, not strict), on the unread source; `dbuf` holds the `j` values decoded so far. -/
def decodeQuantumLoop : List Byte → List Nat → Quantum
  | [], dbuf =>
    if dbuf.length = 4 then ⟨[], quantumBytes dbuf 4, false⟩
    else if dbuf.length = 0 then ⟨[], [], false⟩
    else ⟨[], [], true⟩
  | c :: src, dbuf =>
    if dbuf.length = 4 then ⟨c :: src, quantumBytes dbuf 4, false⟩
    else if decodeMap c ≠ 0xff then decodeQuantumLoop src (dbuf ++ [decodeMap c])
    else if c = 10 ∨ c = 13 then decodeQuantumLoop src dbuf
    else if c ≠ padChar then ⟨src, [], true⟩
    else if dbuf.length < 2 then ⟨src, [], true⟩
    else if dbuf.length = 2 then
      match skipNewlines src with
      | [] => ⟨[], [], true⟩
      | d :: s =>
        if d ≠ padChar then ⟨d :: s, [], true⟩
        else ⟨skipNewlines s, quantumBytes dbuf 2, decide (skipNewlines s ≠ [])⟩
    else ⟨skipNewlines src, quantumBytes dbuf dbuf.length, decide (skipNewlines src ≠ [])⟩

/-- Method `(*Encoding).decodeQuantum` on the unread source `src[si:]`. -/
def decodeQuantum (src : List Byte) : Quantum := decodeQuantumLoop src []

/-- The loop `for si < len(src)` of `(*Encoding).Decode`, which calls `decodeQuantum` until the
source is used up; `acc` is `dst[:n]`. The two loops before it in the Go source decode eight
or four alphabet characters at once and fall back to `decodeQuantum`; they store the same
bytes. `none` is a `CorruptInputError`. -/
def stdDecodeLoop : Nat → List Byte → List Byte → Option (List Byte)
  | _, [], acc => some acc
  | 0, _ :: _, _ => none
  | fuel + 1, c :: src, acc =>
    let q := decodeQuantum (c :: src)
    if q.err then none else stdDecodeLoop fuel q.rest (acc ++ q.out)

/-- Go `StdEncoding.Decode(dst, src)`: the decoded bytes `dst[:n]`, or `none` for an error. -/
def stdDecode (src : List Byte) : Option (List Byte) := stdDecodeLoop src.length src []

/-! ## Package `encoding/pem` -/

/-- The fields of `pem.Block` this program reads or writes. `Headers` is left nil by `encode`
and is not read by `decode`. -/
structure Block where
  Type_ : List Byte
  Bytes : List Byte
deriving DecidableEq, Repr

/-- The constant `pemStart`. -/
def pemStart : List Byte := str "\n-----BEGIN "

/-- The constant `pemEnd`. -/
def pemEnd : List Byte := str "\n-----END "

/-- The constant `pemEndOfLine`. -/
def pemEndOfLine : List Byte := str "-----"

/-- The constant `colon`. -/
def colon : List Byte := str ":"

/-- The constant `pemLineLength`. -/
def pemLineLength : Nat := 64

/-- Go `pem.getLine`: the first line of `data` without its line end and trailing blanks, and the
rest of `data` after the line end. -/
def getLine (data : List Byte) : List Byte × List Byte :=
  match indexByte 10 data with
  | none => (trimRightSpaceTab data, [])
  | some i =>
    let j := i + 1
    let i := if i > 0 ∧ data.getD (i - 1) 0 = 13 then i - 1 else i
    (trimRightSpaceTab (data.take i), data.drop j)

/-- Go `pem.removeSpacesAndTabs`. -/
def removeSpacesAndTabs (data : List Byte) : List Byte :=
  data.filter (fun b => !(b = 32 || b = 9))

/-- The header loop of `pem.Decode`: lines holding a colon are consumed as headers.
`none` is the `return nil, data` taken when the input ends inside the loop; otherwise the
result tells whether `p.Headers` is non-empty and gives the unread input. -/
def headerLoop : Nat → List Byte → Bool → Option (Bool × List Byte)
  | 0, _, _ => none
  | fuel + 1, rest, hasHeaders =>
    if rest.length = 0 then none
    else
      match bytesCut (getLine rest).1 colon with
      | none => some (hasHeaders, rest)
      | some _ => headerLoop fuel (getLine rest).2 true

/-- The outer loop of `pem.Decode(data)`; `rest` is the input not yet looked at. Every
`continue` of the Go source is the recursive call. -/
def pemDecodeLoop (data : List Byte) : Nat → List Byte → Option Block × List Byte
  | 0, _ => (none, data)
  | fuel + 1, rest =>
    let afterStart : Option (List Byte) :=
      if hasPrefix rest (pemStart.drop 1) then some (rest.drop (pemStart.length - 1))
      else
        match bytesCut rest pemStart with
        | some (_, after) => some after
        | none => none
    match afterStart with
    | none => (none, data)
    | some rest =>
      let typeLine := (getLine rest).1
      let rest := (getLine rest).2
      if !hasSuffix typeLine pemEndOfLine then pemDecodeLoop data fuel rest
      else
        let typeLine := typeLine.take (typeLine.length - pemEndOfLine.length)
        match headerLoop (rest.length + 1) rest false with
        | none => (none, data)
        | some (hasHeaders, rest) =>
          let ends : Option (Nat × Nat) :=
            if !hasHeaders && hasPrefix rest (pemEnd.drop 1) then some (0, pemEnd.length - 1)
            else
              match bytesIndex pemEnd rest with
              | some i => some (i, i + pemEnd.length)
              | none => none
          match ends with
          | none => pemDecodeLoop data fuel rest
          | some (endIndex, endTrailerIndex) =>
            let endTrailer := rest.drop endTrailerIndex
            let endTrailerLen := typeLine.length + pemEndOfLine.length
            if endTrailer.length < endTrailerLen then pemDecodeLoop data fuel rest
            else
              let restOfEndLine := endTrailer.drop endTrailerLen
              let endTrailer := endTrailer.take endTrailerLen
              if !hasPrefix endTrailer typeLine || !hasSuffix endTrailer pemEndOfLine then
                pemDecodeLoop data fuel rest
              else if (getLine restOfEndLine).1.length ≠ 0 then pemDecodeLoop data fuel rest
              else
                match stdDecode (removeSpacesAndTabs (rest.take endIndex)) with
                | none => pemDecodeLoop data fuel rest
                | some bytes =>
                  (some ⟨typeLine, bytes⟩,
                    (getLine (rest.drop (endIndex + pemEnd.length - 1))).2)

/-- Go `pem.Decode(data)`: the first PEM block of `data` and the input after it, or `none`
(Go's nil block) and all of `data`. -/
def pemDecode (data : List Byte) : Option Block × List Byte :=
  pemDecodeLoop data (data.length + 1) data

/-- The state of a `pem.lineBreaker`: `line` is `l.line[0:l.used]`, `out` is everything
written so far to the underlying writer `l.out`. -/
structure LineBreaker where
  line : List Byte
  out : List Byte
deriving DecidableEq, Repr

/-- Method `(*lineBreaker).Write(b)`. -/
def LineBreaker.Write : Nat → LineBreaker → List Byte → LineBreaker
  | 0, l, _ => l
  | fuel + 1, l, b =>
    if l.line.length + b.length < pemLineLength then ⟨l.line ++ b, l.out⟩
    else
      let excess := pemLineLength - l.line.length
      LineBreaker.Write fuel ⟨[], l.out ++ l.line ++ b.take excess ++ str "\n"⟩ (b.drop excess)

/-- Method `(*lineBreaker).Close()`: the content of the underlying writer afterwards. -/
def LineBreaker.Close (l : LineBreaker) : List Byte :=
  if l.line.length > 0 then l.out ++ l.line ++ str "\n" else l.out

/-- The loop `for len(p) >= 3` of `(*encoder).Write` of `encoding/base64` on a new encoder
(`nbuf == 0`) that writes to a line breaker: up to 768 bytes at a time are encoded into the
1024-byte buffer `e.out` and written out. The result is the writer and the one or two bytes
left for `e.buf`. -/
def encoderWriteLoop : Nat → LineBreaker → List Byte → LineBreaker × List Byte
  | 0, w, p => (w, p)
  | fuel + 1, w, p =>
    if p.length ≥ 3 then
      let nn := 1024 / 4 * 3
      let nn := if nn > p.length then p.length - p.length % 3 else nn
      let out := stdEncode (p.take nn)
      encoderWriteLoop fuel (LineBreaker.Write (out.length + 1) w (out.take (nn / 3 * 4)))
        (p.drop nn)
    else (w, p)

/-- Method `(*encoder).Close()` of `encoding/base64`: the bytes left in `e.buf` are encoded and
written. -/
def encoderClose (w : LineBreaker) (buf : List Byte) : LineBreaker :=
  if buf.length > 0 then LineBreaker.Write 5 w (stdEncode buf) else w

/-- Go `pem.Encode(out, b)` for a block without headers written to an empty `bytes.Buffer`: the
content of the buffer afterwards. Without headers the only errors are those of the writer,
and a `bytes.Buffer` returns none. -/
def pemEncode (b : Block) : Except String (List Byte) :=
  let out := pemStart.drop 1 ++ (b.Type_ ++ str "-----\n")
  let breaker : LineBreaker := ⟨[], out⟩
  let wp := encoderWriteLoop (b.Bytes.length + 1) breaker b.Bytes
  let breaker := encoderClose wp.1 wp.2
  let out := breaker.Close
  .ok (out ++ pemEnd.drop 1 ++ (b.Type_ ++ str "-----\n"))

/-! ## `go/otp/pem.go` -/

/-- Function `encode` of `pem.go`. -/
def encode (b : List Byte) : Except String (List Byte) :=
  match pemEncode ⟨str "OTP", b⟩ with
  | .error e => .error ("applying pem encoding: " ++ e)
  | .ok buff => .ok buff

/-- Function `decode` of `pem.go`. -/
def decode (b : List Byte) : Except String (List Byte) :=
  match pemDecode b with
  | (none, _) => .error "no PEM data to decode"
  | (some blk, rest) =>
    if rest.length ≠ 0 then .error "extra text after PEM data"
    else .ok blk.Bytes

/-! ## `go/otp/otp.go` -/

/-- Constant `MaxKeyLength`. -/
def MaxKeyLength : Int := 50000

/-- The loop `for i := 0; i < len(a) && i < len(b); i++ { c[i] = a[i] ^ b[i] }` of `xor`. -/
def xorLoop (a b : List Byte) : Nat → Nat → List Byte → List Byte
  | 0, _, c => c
  | fuel + 1, i, c =>
    if i < a.length ∧ i < b.length then
      xorLoop a b fuel (i + 1) (c.set i (bxor (a.getD i 0) (b.getD i 0)))
    else c

/-- Function `xor` of `otp.go`. -/
def xor (a b : List Byte) : List Byte :=
  let n := if b.length > a.length then b.length else a.length
  let c := xorLoop a b n 0 (List.replicate n 0)
  if n > a.length then c.take a.length ++ copy (c.drop a.length) (b.drop a.length)
  else if n > b.length then c.take b.length ++ copy (c.drop b.length) (a.drop b.length)
  else c

/-- Function `Encrypt` of `otp.go`. -/
def Encrypt (message key : List Byte) : Except String (List Byte) :=
  match decode key with
  | .error err => .error ("decoding key: " ++ err)
  | .ok k =>
    if message.length > k.length then .error "message must not be longer than key"
    else
      let m := message
      let c := xor m k
      match encode c with
      | .error err => .error ("encoding encrypted message: " ++ err)
      | .ok e => .ok e

/-- Function `Decrypt` of `otp.go`. -/
def Decrypt (cipher key : List Byte) : Except String (List Byte) :=
  match decode cipher with
  | .error err => .error ("decoding cipher text: " ++ err)
  | .ok c =>
    match decode key with
    | .error err => .error ("decoding key: " ++ err)
    | .ok k =>
      if c.length > k.length then .error "cipher text must not be longer than key"
      else .ok (xor c k)

/-- What one call `Read(p)` of an `io.Reader` does to a buffer of the given length: the bytes
it stores (copied to the front of `p`), the count `n` and the error it returns. -/
structure ReadResult where
  data : List Byte
  n : Int
  err : Option String

/-- An `io.Reader` as far as `GenerateKey` uses it: a single `Read` on a buffer of a given
length. -/
abbrev Reader := Nat → ReadResult

/-- The outcome of a call that may panic. -/
inductive Outcome (α : Type) where
  | returned (r : Except String α)
  | panicked
deriving DecidableEq

/-- Function `GenerateKey` of `otp.go`; `keyGenerator` is the package variable `KeyGenerator`,
`none` when it holds the nil interface (calling `Read` on it panics). -/
def GenerateKey (keyGenerator : Option Reader) (length : Int) : Outcome (List Byte) :=
  if length ≤ 0 then .returned (.error "key must have positive number of characters")
  else if length > MaxKeyLength then .returned (.error "key length too large")
  else
    let b : List Byte := List.replicate length.toNat 0
    match keyGenerator with
    | none => .panicked
    | some reader =>
      let r := reader b.length
      let b := copy b r.data
      match r.err with
      | some err => .returned (.error ("generating key: " ++ err))
      | none =>
        if r.n ≠ length then .returned (.error "could not create key of desired length")
        else .returned (encode b)

/-! ## Closed forms used in the proofs -/

/-- Line breaking as `pem.lineBreaker` does it: a newline is put out right after every 64th
character of a line; `n` is the number of characters already on the current line. -/
def breakLines : Nat → List Byte → List Byte
  | _, [] => []
  | n, c :: s => if n + 1 = 64 then c :: 10 :: breakLines 0 s else c :: breakLines (n + 1) s

/-- Lines of 64 characters joined by newlines: a newline is put out before a character that
would be the 65th of its line; `n` is the number of characters already on the current line. -/
def joinLines : Nat → List Byte → List Byte
  | _, [] => []
  | n, c :: s => if n = 64 then 10 :: c :: joinLines 1 s else c :: joinLines (n + 1) s

/-! ## The armored text format as the specification words it -/

/-- The text `s` cut into lines of 64 characters, the last line possibly shorter. -/
def lines64 : Nat → List Byte → List (List Byte)
  | 0, _ => []
  | fuel + 1, s => if s.length ≤ 64 then [s] else s.take 64 :: lines64 fuel (s.drop 64)

/-- The armored text of `b` in the words of the specification: `-----BEGIN OTP-----\n`, then
the base64 encoding of `b` wrapped into lines of 64 characters, then
`\n-----END OTP-----\n`. -/
def encodeSpec (b : List Byte) : List Byte :=
  str "-----BEGIN OTP-----\n" ++
    List.intercalate (str "\n") (lines64 ((stdEncode b).length + 1) (stdEncode b)) ++
    str "\n-----END OTP-----\n"

/-! ## `xor` with the run-time checks of Go -/

/-- Whether one of the two `copy` cases of the `switch` of `xor` is taken. -/
def xorCopies (a b : List Byte) : Bool :=
  let n := if b.length > a.length then b.length else a.length
  decide (n > a.length) || decide (n > b.length)

/-- Go index expression `s[i]` with its bounds check; `none` is the run-time panic. -/
def indexChecked (s : List Byte) (i : Nat) : Option Byte :=
  if i < s.length then some (s.getD i 0) else none

/-- Go slice expression `s[lo:]` with its bounds check; `none` is the run-time panic. -/
def sliceFromChecked (s : List Byte) (lo : Nat) : Option (List Byte) :=
  if lo ≤ s.length then some (s.drop lo) else none

/-- The loop of `xor` with the bounds checks of `c[i]`, `a[i]` and `b[i]`. -/
def xorLoopChecked (a b : List Byte) : Nat → Nat → List Byte → Option (List Byte)
  | 0, _, c => some c
  | fuel + 1, i, c =>
    if i < a.length ∧ i < b.length then
      match indexChecked a i, indexChecked b i, indexChecked c i with
      | some x, some y, some _ => xorLoopChecked a b fuel (i + 1) (c.set i (bxor x y))
      | _, _, _ => none
    else some c

/-- Function `xor` of `otp.go` with the bounds checks of every index and slice expression;
`none` is a run-time panic. -/
def xorChecked (a b : List Byte) : Option (List Byte) :=
  let n := if b.length > a.length then b.length else a.length
  match xorLoopChecked a b n 0 (List.replicate n 0) with
  | none => none
  | some c =>
    if n > a.length then
      match sliceFromChecked c a.length, sliceFromChecked b a.length with
      | some dst, some src => some (c.take a.length ++ copy dst src)
      | _, _ => none
    else if n > b.length then
      match sliceFromChecked c b.length, sliceFromChecked a b.length with
      | some dst, some src => some (c.take b.length ++ copy dst src)
      | _, _ => none
    else some c

/-- A Go result pair `([]byte, error)`, with `none` for nil. -/
abbrev ResultPair := Option (List Byte) × Option String

/-- Function `Encrypt` of `otp.go` with its result pair as Go returns it and with the checked
`xor`; `none` is a run-time panic. -/
def EncryptChecked (message key : List Byte) : Option ResultPair :=
  match decode key with
  | .error err => some (none, some ("decoding key: " ++ err))
  | .ok k =>
    if message.length > k.length then some (none, some "message must not be longer than key")
    else
      match xorChecked message k with
      | none => none
      | some c =>
        match encode c with
        | .error err => some (none, some ("encoding encrypted message: " ++ err))
        | .ok e => some (some e, none)

/-- Function `Decrypt` of `otp.go` with its result pair as Go returns it and with the checked
`xor`; `none` is a run-time panic. -/
def DecryptChecked (cipher key : List Byte) : Option ResultPair :=
  match decode cipher with
  | .error err => some (none, some ("decoding cipher text: " ++ err))
  | .ok c =>
    match decode key with
    | .error err => some (none, some ("decoding key: " ++ err))
    | .ok k =>
      if c.length > k.length then some (none, some "cipher text must not be longer than key")
      else
        match xorChecked c k with
        | none => none
        | some m => some (some m, none)

/-! ## Go library functions used by `go/server/server.go` -/

/-- The verbs `%d` and `%v` of `fmt` for an `int`: its decimal text. -/
def formatInt (n : Int) : List Byte := str (toString n)

/-- Go `strings.Contains(s, substr)`. -/
def stringsContains (s substr : List Byte) : Bool := (bytesIndex substr s).isSome

/-- Go `bytealg.LastIndexByteString(s, c)`, with `none` for Go's `-1`. -/
def lastIndexByte (c : Byte) : List Byte → Option Nat
  | [] => none
  | x :: s =>
    match lastIndexByte c s with
    | some i => some (i + 1)
    | none => if x = c then some 0 else none

/-- Method `(*net.AddrError).Error`. -/
def addrError (addr why : List Byte) : List Byte :=
  if addr ≠ [] then str "address " ++ addr ++ str ": " ++ why else why

/-- Go `net.SplitHostPort(hostport)`: the host and the port, or the text of the
`*net.AddrError`. -/
def SplitHostPort (hostport : List Byte) : Except (List Byte) (List Byte × List Byte) :=
  match lastIndexByte 58 hostport with
  | none => .error (addrError hostport (str "missing port in address"))
  | some i =>
    let bracket : Except (List Byte) (List Byte × Nat × Nat) :=
      if hostport.getD 0 0 = 91 then
        match indexByte 93 hostport with
        | none => .error (addrError hostport (str "missing ']' in address"))
        | some e =>
          if e + 1 = hostport.length then
            .error (addrError hostport (str "missing port in address"))
          else if e + 1 = i then .ok ((hostport.take e).drop 1, 1, e + 1)
          else if hostport.getD (e + 1) 0 = 58 then
            .error (addrError hostport (str "too many colons in address"))
          else .error (addrError hostport (str "missing port in address"))
      else if (indexByte 58 (hostport.take i)).isSome then
        .error (addrError hostport (str "too many colons in address"))
      else .ok (hostport.take i, 0, 0)
    match bracket with
    | .error e => .error e
    | .ok (host, j, k) =>
      if (indexByte 91 (hostport.drop j)).isSome then
        .error (addrError hostport (str "unexpected '[' in address"))
      else if (indexByte 93 (hostport.drop k)).isSome then
        .error (addrError hostport (str "unexpected ']' in address"))
      else .ok (host, hostport.drop (i + 1))

/-- Go `http.StatusText(code)` for the status codes this program uses. -/
def StatusText (code : Nat) : List Byte :=
  if code = 307 then str "Temporary Redirect"
  else if code = 404 then str "Not Found"
  else if code = 405 then str "Method Not Allowed"
  else if code = 500 then str "Internal Server Error"
  else []

/-- Go `hexEscapeNonASCII` of `net/http`: every byte from `0x80` on is written as `%` and its
two hexadecimal digits. `http.Redirect` applies it to the URL of the `Location` header. -/
def hexEscapeNonASCII (s : List Byte) : List Byte :=
  s.flatMap fun b =>
    if b.val ≥ 128 then
      [37, (str "0123456789abcdef").getD (b.val / 16) 0,
        (str "0123456789abcdef").getD (b.val % 16) 0]
    else [b]

/-- Method `Header.Get(key)` of `net/http` for a key in canonical form: the first value
stored under the key, the empty string when there is none. -/
def headerGet (header : List (List Byte × List (List Byte))) (key : List Byte) : List Byte :=
  match header.lookup key with
  | some (v :: _) => v
  | _ => []

/-! ## `go/server/server.go` -/

/-- A `*log.Logger` that is not nil, known by its prefix. -/
structure Logger where
  name : List Byte
deriving DecidableEq, Repr

/-- Struct `Config`; `Log` is `none` for a nil logger. -/
structure Config where
  Log : Option Logger
  Version : List Byte
  HTTPPort : Int
  HTTPSPort : Int
  TLSCertFile : List Byte
  TLSKeyFile : List Byte
deriving DecidableEq, Repr

/-- The two handler functions that `NewServer` registers. -/
inductive HandlerFunc where
  | handleHTTPS
  | redirectToHTTPS
deriving DecidableEq, Repr

/-- The `http.Server` values built by `NewServer`: the address, and the function registered
for the pattern `/` of the server's `http.ServeMux`. -/
structure HTTPServer where
  Addr : List Byte
  Handler : HandlerFunc
deriving DecidableEq, Repr

/-- Struct `Server`; the embedded `Config` is the parent structure. The two server pointers
and, in the methods that log, the logger are taken to be set, as in every `Server` that
`NewServer` returns. -/
structure Server extends Config where
  Data : List (List Byte × List Byte)
  httpsServer : HTTPServer
  httpServer : HTTPServer
  templateFiles : List (List Byte)
deriving DecidableEq, Repr

/-- The patterns `templateFileGlobs` of `templateFiles`. -/
def templateFileGlobs : List (List Byte) :=
  [str "resources/html/*.html", str "resources/*.js", str "resources/*.json",
    str "resources/*.css", str "resources/*.svg"]

/-- What the program sees of `filepath.Glob`: the result for each pattern. Glob ignores file
system errors, its only error is `ErrBadPattern` for a malformed pattern, and the five
patterns of `templateFiles` are well formed; `wellFormed` records that. -/
structure Glob where
  run : List Byte → Except (List Byte) (List (List Byte))
  wellFormed : ∀ p ∈ templateFileGlobs, ∃ m, run p = .ok m

/-- The loop of `templateFiles` over the patterns; `filenames ++ matches` is what the two
`copy` calls into the new slice `filenamesTmp` leave there. -/
def templateFilesLoop (glob : Glob) :
    List (List Byte) → List (List Byte) → Except (List Byte) (List (List Byte))
  | [], filenames => .ok filenames
  | g :: gs, filenames =>
    match glob.run g with
    | .error err => .error err
    | .ok matches_ => templateFilesLoop glob gs (filenames ++ matches_)

/-- Function `templateFiles`. -/
def templateFiles (glob : Glob) : Except (List Byte) (List (List Byte)) :=
  templateFilesLoop glob templateFileGlobs []

/-- Method `Config.NewServer`. -/
def Config.NewServer (glob : Glob) (cfg : Config) : Except (List Byte) Server :=
  if cfg.Log = none then .error (str "missing logger")
  else if cfg.HTTPPort ≤ 0 then .error (str "invalid HTTP port: " ++ formatInt cfg.HTTPPort)
  else if cfg.HTTPSPort ≤ 0 then .error (str "invalid HTTPS port: " ++ formatInt cfg.HTTPSPort)
  else
    let data := [(str "Version", cfg.Version), (str "Name", str "Sarah-OTP"),
      (str "ShortName", str "S-OTP"), (str "Description", str "a secure message-passing app"),
      (str "ThemeColor", str "purple"), (str "BackgroundColor", str "white")]
    let httpServer : HTTPServer := ⟨str ":" ++ formatInt cfg.HTTPPort, .redirectToHTTPS⟩
    let httpsServer : HTTPServer := ⟨str ":" ++ formatInt cfg.HTTPSPort, .handleHTTPS⟩
    match templateFiles glob with
    | .error err => .error (str "loading template file names: " ++ err)
    | .ok files =>
      .ok { toConfig := cfg, Data := data, httpsServer := httpsServer,
            httpServer := httpServer, templateFiles := files }

/-- Method `Server.httpsOnly`. -/
def Server.httpsOnly (s : Server) : Bool := s.HTTPPort = s.HTTPSPort

/-- The fields of an `http.Request` that the handlers read, and the raw query, which they
do not read. `Path` is `r.URL.Path`, `TLS` tells whether `r.TLS` is not nil. -/
structure Request where
  Method : List Byte
  Host : List Byte
  Path : List Byte
  RawQuery : List Byte
  Header : List (List Byte × List (List Byte))
  TLS : Bool
deriving DecidableEq, Repr

/-- Method `Server.hasSecHeader`. -/
def Server.hasSecHeader (_s : Server) (r : Request) : Bool :=
  r.Header.any fun h => hasPrefix h.1 (str "Sec-")

/-- What a handler does with the response writer and the logger:
`redirect url code` is `http.Redirect(w, r, url, code)`,
`error text code` is `http.Error(w, text, code)`,
`serverError err` is `s.handleError(w, err)`,
`template name` is `s.serveTemplate(w, r, name)`,
`file name` is `http.ServeFile(w, r, name)`. -/
inductive Action where
  | redirect (url : List Byte) (code : Nat)
  | error (text : List Byte) (code : Nat)
  | serverError (err : List Byte)
  | template (name : List Byte)
  | file (name : List Byte)
deriving DecidableEq, Repr

/-- The outcome of a handler: `gzip` tells whether the response is written through a gzip
writer, with the header `Content-Encoding: gzip`. -/
structure Response where
  gzip : Bool
  action : Action
deriving DecidableEq, Repr

/-- The status code an action writes; `none` where the template or the file server
decides it. -/
def Action.status : Action → Option Nat
  | .redirect _ code => some code
  | .error _ code => some code
  | .serverError _ => some 500
  | .template _ => none
  | .file _ => none

/-- The `Location` header an action sets: `http.Redirect` sets it to the URL with its
non-ASCII bytes escaped. -/
def Action.location : Action → Option (List Byte)
  | .redirect url _ => some (hexEscapeNonASCII url)
  | _ => none

/-- The body that `http.Error` writes: the text and a newline. -/
def Action.errorBody : Action → Option (List Byte)
  | .error text _ => some (text ++ str "\n")
  | .serverError err => some (err ++ str "\n")
  | _ => none

/-- The lines an action writes to the logger of the server. -/
def Action.logged : Action → List (List Byte)
  | .serverError err => [str "server error: " ++ err]
  | _ => []

/-- Method `Server.httpError`. -/
def Server.httpError (_s : Server) (statusCode : Nat) : Action :=
  .error (StatusText statusCode) statusCode

/-- Method `Server.handleError`. -/
def Server.handleError (_s : Server) (err : List Byte) : Action :=
  .serverError err

/-- Method `Server.redirectToHTTPS`. -/
def Server.redirectToHTTPS (s : Server) (r : Request) : Response :=
  let split : Except (List Byte) (List Byte) :=
    if stringsContains r.Host (str ":") then
      match SplitHostPort r.Host with
      | .error err => .error (str "could not redirect to https: " ++ err)
      | .ok (host, _) => .ok host
    else .ok r.Host
  match split with
  | .error err => ⟨false, s.handleError err⟩
  | .ok host =>
    let host := if s.HTTPSPort ≠ 443 ∧ !s.httpsOnly then host ++ s.httpsServer.Addr else host
    let httpsURI := str "https://" ++ host ++ r.Path
    ⟨false, .redirect httpsURI 307⟩

/-- Method `Server.handleHTTPSGet`. -/
def Server.handleHTTPSGet (s : Server) (r : Request) : Response :=
  let gzip := stringsContains (headerGet r.Header (str "Accept-Encoding")) (str "gzip")
  if r.Path = str "/" ∨ r.Path = str "/serviceWorker.js" ∨ r.Path = str "/manifest.json" ∨
      r.Path = str "/favicon.svg" ∨ r.Path = str "/network_check.html" then
    ⟨gzip, .template r.Path⟩
  else if r.Path = str "/wasm_exec.js" ∨ r.Path = str "/main.wasm" then
    ⟨gzip, .file (str "." ++ r.Path)⟩
  else if r.Path = str "/favicon.png" ∨ r.Path = str "/robots.txt" then
    ⟨gzip, .file (str "resources" ++ r.Path)⟩
  else ⟨gzip, s.httpError 404⟩

/-- Method `Server.handleHTTPS`. -/
def Server.handleHTTPS (s : Server) (r : Request) : Response :=
  if r.TLS = false ∧ (!s.httpsOnly || !s.hasSecHeader r) then s.redirectToHTTPS r
  else if r.Method = str "GET" then s.handleHTTPSGet r
  else ⟨false, s.httpError 405⟩

/-- A `context.Context` as far as `Stop` builds it: the context it is given, or a context
derived from a parent by `context.WithTimeout` with a duration in nanoseconds. -/
inductive Context where
  | given
  | withTimeout (parent : Context) (nanoseconds : Nat)
deriving DecidableEq, Repr

/-- What `Run` and `Stop` do, in the order they do it. -/
inductive Event where
  | shutdown (server : HTTPServer) (ctx : Context)
  | cancel (ctx : Context)
  | log (text : List Byte)
  | loadX509KeyPair (certFile keyFile : List Byte)
  | listenAndServe (server : HTTPServer)
  | listenAndServeTLS (server : HTTPServer) (certFile keyFile : List Byte)
  | send (err : Option (List Byte))
deriving DecidableEq, Repr

/-- The results of the library calls of `Run` and `Stop`: the error of `Shutdown` for a
server and context (`none` for nil), the error of `tls.LoadX509KeyPair`, and the error with
which `ListenAndServe` or `ListenAndServeTLS` returns for a server. -/
structure Net where
  shutdown : HTTPServer → Context → Option (List Byte)
  loadX509KeyPair : List Byte → List Byte → Option (List Byte)
  serve : HTTPServer → Option (List Byte)

/-- The constant `time.Second`, in nanoseconds. -/
def Second : Nat := 1000000000

/-- Method `Server.Stop`: the error it returns and what it does, in order. The deferred
`cancelFunc` runs last. -/
def Server.Stop (s : Server) (net : Net) (ctx : Context) : Option (List Byte) × List Event :=
  let stopDur := 5 * Second
  let ctx := Context.withTimeout ctx stopDur
  let httpsShutdownErr := net.shutdown s.httpsServer ctx
  let httpShutdownErr := net.shutdown s.httpServer ctx
  let calls := [Event.shutdown s.httpsServer ctx, Event.shutdown s.httpServer ctx]
  if httpsShutdownErr ≠ none then (httpsShutdownErr, calls ++ [.cancel ctx])
  else if httpShutdownErr ≠ none then (httpShutdownErr, calls ++ [.cancel ctx])
  else (none, calls ++ [.log (str "server stopped successfully"), .cancel ctx])

/-- Method `Server.runHTTPServer`, run to its end: what the task does, in order. -/
def Server.runHTTPServer (s : Server) (net : Net) : List Event :=
  if !s.httpsOnly then [.listenAndServe s.httpServer, .send (net.serve s.httpServer)]
  else []

/-- Method `Server.runHTTPSServer`, run to its end: what the task does, in order. -/
def Server.runHTTPSServer (s : Server) (net : Net) : List Event :=
  if s.httpsOnly then
    [.log (str "starting http server at at http://127.0.0.1" ++ s.httpsServer.Addr)] ++
    (if s.TLSCertFile.length ≠ 0 ∨ s.TLSKeyFile.length ≠ 0 then
      [.log (str ("Ignoring TLS_CERT_FILE/TLS_KEY_FILE variables since PORT was specified, " ++
        "using automated certificate management."))]
    else []) ++
    [.listenAndServe s.httpsServer, .send (net.serve s.httpsServer)]
  else
    [.log (str "starting https server at at https://127.0.0.1" ++ s.httpsServer.Addr),
      .loadX509KeyPair s.TLSCertFile s.TLSKeyFile] ++
    (match net.loadX509KeyPair s.TLSCertFile s.TLSKeyFile with
    | some err => [.log (str "Problem loading tls certificate: " ++ err), .send (some err)]
    | none =>
      [.listenAndServeTLS s.httpsServer s.TLSCertFile s.TLSKeyFile,
        .send (net.serve s.httpsServer)])

/-- The result of `Run`: the capacity of the channel `errC` and the two tasks it starts,
each given by what it does when run to its end. -/
structure Running where
  capacity : Nat
  httpTask : List Event
  httpsTask : List Event

/-- Method `Server.Run`. -/
def Server.Run (s : Server) (net : Net) : Running :=
  ⟨2, s.runHTTPServer net, s.runHTTPSServer net⟩

/-- The number of values a task sends to the channel. -/
def sends (task : List Event) : Nat :=
  (task.filter fun e => match e with | .send _ => true | _ => false).length


/-! ## Package `ui`: `otp.go` -/

/-- Go `strings.TrimRight(s, cutset)` for a cutset of the single ASCII byte `c`, which is
`trimRightByte(s, c)`: the last byte of `s` is removed as long as it is `c`. -/
def trimRightByte (s : List Byte) (c : Byte) : List Byte :=
  List.rdropWhile (fun b => decide (b = c)) s

/-- Function `decryptCipher` of `ui/otp.go`, on the package variables `decryptCipherText` and
`decryptKey`: the error text it logs when `Decrypt` fails, and otherwise the value it sets on
the element `#decrypted-message`. -/
def decryptCipher (decryptCipherText decryptKey : List Byte) : Except String (List Byte) :=
  match Decrypt decryptCipherText decryptKey with
  | .error err => .error ("could not decrypt cipher: " ++ err)
  | .ok message =>
    let trimmedMessage := trimRightByte message 0
    .ok trimmedMessage

/-! ## Package `main` of `cmd/server`: `flag.go` -/

/-- Type `mainFlags`. -/
structure mainFlags where
  versionFile : List Byte
  httpPort : Int
  httpsPort : Int
  tlsCertFile : List Byte
  tlsKeyFile : List Byte
deriving DecidableEq

/-- The digit loop of Go `strconv.Atoi`: `n = n*10 + int(ch - '0')`, failing at a byte that
is not a decimal digit. -/
def atoiDigits : List Byte → Nat → Option Nat
  | [], n => some n
  | ch :: s, n =>
    if 48 ≤ ch.val ∧ ch.val ≤ 57 then atoiDigits s (n * 10 + (ch.val - 48)) else none

/-- Go `strconv.Atoi(s)` for a 64-bit `int`, with `none` for an error: an optional sign, then
one or more decimal digits, and a value that fits the type. -/
def Atoi (s : List Byte) : Option Int :=
  if s.length = 0 then none
  else
    let neg := s[0]? = some 45
    let body := if s[0]? = some 45 ∨ s[0]? = some 43 then s.drop 1 else s
    if body.length < 1 then none
    else
      match atoiDigits body 0 with
      | none => none
      | some n =>
        if neg then (if n > 2 ^ 63 then none else some (-(n : Int)))
        else (if n ≥ 2 ^ 63 then none else some (n : Int))

/-- The closure `envValue` of `newFlagSet`. -/
def envValue (osLookupEnvFunc : List Byte → Option (List Byte)) (key defaultValue : List Byte) :
    List Byte :=
  match osLookupEnvFunc key with
  | some envValue => envValue
  | none => defaultValue

/-- The closure `envValueInt` of `newFlagSet`. -/
def envValueInt (osLookupEnvFunc : List Byte → Option (List Byte)) (key : List Byte)
    (defaultValue : Int) : Int :=
  let v1 := envValue osLookupEnvFunc key []
  match Atoi v1 with
  | none => defaultValue
  | some v2 => v2

/-- The variables the flag set of `newFlagSet` writes to: the fields of `m` and the local
`portOverride` of `newMainFlags`. -/
structure FlagVars where
  m : mainFlags
  portOverride : Int
deriving DecidableEq

/-- Method `mainFlags.newFlagSet`: the values of the variables once the six flags are
defined, each holding its default (the environment value, if any). -/
def newFlagSet (osLookupEnvFunc : List Byte → Option (List Byte)) : FlagVars :=
  { m :=
      { versionFile := envValue osLookupEnvFunc (str "VERSION_FILE") (str "version")
        httpPort := envValueInt osLookupEnvFunc (str "HTTP_PORT") 0
        httpsPort := envValueInt osLookupEnvFunc (str "HTTPS_PORT") 0
        tlsCertFile := envValue osLookupEnvFunc (str "TLS_CERT_FILE") []
        tlsKeyFile := envValue osLookupEnvFunc (str "TLS_KEY_FILE") [] }
    portOverride := envValueInt osLookupEnvFunc (str "PORT") 0 }

/-- The map `formal` of the flag set of `newFlagSet`: whether a flag named `name` is
defined. -/
def formal (name : List Byte) : Bool :=
  name = str "version-file" ∨ name = str "http-port" ∨ name = str "https-port" ∨
    name = str "port" ∨ name = str "tls-cert-file" ∨ name = str "tls-key-file"

/-- The call `flag.Value.Set(value)` for the defined flag `name`: the variables afterwards,
or `none` when `Set` returns an error. `parseInt` is Go
`strconv.ParseInt(s, 0, strconv.IntSize)`, which the integer flags use. -/
def setFlag (parseInt : List Byte → Option Int) (name value : List Byte) (v : FlagVars) :
    Option FlagVars :=
  if name = str "version-file" then some { v with m := { v.m with versionFile := value } }
  else if name = str "http-port" then
    (parseInt value).map fun n => { v with m := { v.m with httpPort := n } }
  else if name = str "https-port" then
    (parseInt value).map fun n => { v with m := { v.m with httpsPort := n } }
  else if name = str "port" then
    (parseInt value).map fun n => { v with portOverride := n }
  else if name = str "tls-cert-file" then
    some { v with m := { v.m with tlsCertFile := value } }
  else if name = str "tls-key-file" then
    some { v with m := { v.m with tlsKeyFile := value } }
  else some v

/-- The loop of Go `flag.FlagSet.parseOne` that looks for `=` in `name` from index 1 on: the
name before it and the value after it, if there is one. -/
def splitFlagValue (name : List Byte) : List Byte × Option (List Byte) :=
  match indexByte 61 (name.drop 1) with
  | none => (name, none)
  | some i => (name.take (i + 1), some (name.drop (i + 2)))

/-- Go `flag.FlagSet.Parse(arguments)` under `flag.ExitOnError`, for the flag set of
`newFlagSet` (none of its flags is boolean): the variables after the flags of `arguments`
are set, or the status the process exits with (0 after `-h` or `-help`, 2 after an error).
What is printed on the way is left out. -/
def parseFlags (parseInt : List Byte → Option Int) :
    List (List Byte) → FlagVars → Except Nat FlagVars
  | [], v => .ok v
  | s :: args, v =>
    if s.length < 2 ∨ s[0]? ≠ some 45 then .ok v
    else if s[1]? = some 45 ∧ s.length = 2 then .ok v
    else
      let numMinuses := if s[1]? = some 45 then 2 else 1
      let name := s.drop numMinuses
      if name.length = 0 ∨ name[0]? = some 45 ∨ name[0]? = some 61 then .error 2
      else
        match splitFlagValue name with
        | (name, value) =>
          if formal name = false then
            if name = str "help" ∨ name = str "h" then .error 0 else .error 2
          else
            match value with
            | some value =>
              match setFlag parseInt name value v with
              | none => .error 2
              | some v1 => parseFlags parseInt args v1
            | none =>
              match args with
              | [] => .error 2
              | value :: args1 =>
                match setFlag parseInt name value v with
                | none => .error 2
                | some v1 => parseFlags parseInt args1 v1

/-- Function `newMainFlags`: the flags it returns, or the status the process exits with
inside `fs.Parse`. `parseInt` is Go `strconv.ParseInt(s, 0, strconv.IntSize)`, with `none`
for an error. -/
def newMainFlags (parseInt : List Byte → Option Int) (osArgs : List (List Byte))
    (osLookupEnvFunc : List Byte → Option (List Byte)) : Except Nat mainFlags :=
  let osArgs := if osArgs.length = 0 then [[]] else osArgs
  let programArgs := osArgs.drop 1
  match parseFlags parseInt programArgs (newFlagSet osLookupEnvFunc) with
  | .error code => .error code
  | .ok v =>
    if v.portOverride ≠ 0 then
      .ok { v.m with httpsPort := v.portOverride, httpPort := v.portOverride }
    else .ok v.m

/-- The function `osLookupEnvFunc` of `TestNewMainFlagsPortOverride`: a lookup in the map
`envVars`. -/
def portOverrideEnv (key : List Byte) : Option (List Byte) :=
  if key = str "VERSION_FILE" then some (str "?")
  else if key = str "HTTP_PORT" then some (str "1")
  else if key = str "HTTPS_PORT" then some (str "2")
  else if key = str "PORT" then some (str "3")
  else none


/-! # Theorems -/

/-! ## Byte exclusive-or -/

theorem bxor_comm (a b : Byte) : bxor a b = bxor b a := by
  apply Fin.ext
  simp [bxor, Nat.xor_comm]

theorem bxor_bxor_cancel (a b : Byte) : bxor (bxor a b) b = a := by
  apply Fin.ext
  simp [bxor, Nat.xor_assoc]

theorem bxor_zero (a : Byte) : bxor a 0 = a := by
  apply Fin.ext
  simp [bxor]

theorem bxor_self (a : Byte) : bxor a a = 0 := by
  apply Fin.ext
  simp [bxor]

/-! ## `xor` -/

/-- The loop of `xor` run from index `i` with enough fuel: the positions from `i` up to the
shorter length receive the exclusive-or of the inputs, the others are untouched. -/
theorem xorLoop_spec (a b : List Byte) :
    ∀ (fuel i : Nat) (c : List Byte), min a.length b.length ≤ i + fuel →
      i ≤ min a.length b.length → c.length = max a.length b.length →
      xorLoop a b fuel i c =
        c.take i ++ ((List.zipWith bxor a b).drop i ++ c.drop (min a.length b.length)) := by
  intro fuel
  induction fuel with
  | zero =>
    intro i c h1 h2 h3
    have hi : i = min a.length b.length := by omega
    subst hi
    simp [xorLoop]
    rw [List.drop_eq_nil_of_le (by simp)]
    simp
  | succ n ih =>
    intro i c h1 h2 h3
    unfold xorLoop
    split
    · rename_i h
      rw [ih (i + 1) _ (by omega) (by omega) (by simpa using h3)]
      have hic : i < c.length := by omega
      have hz : i < (List.zipWith bxor a b).length := by simp; omega
      have hts : ∀ v : Byte, (c.set i v).take i = c.take i := by
        intro v
        rw [List.set_take, List.set_eq_of_length_le (by simp)]
      rw [List.take_succ, hts, List.getElem?_set_self (by simpa using hic),
        List.drop_set_of_lt _ _ (by omega), List.drop_eq_getElem_cons hz, List.getElem_zipWith]
      simp [List.getD_eq_getElem?_getD, List.getElem?_eq_getElem h.1,
        List.getElem?_eq_getElem h.2]
    · rename_i h
      have hi : i = min a.length b.length := by omega
      subst hi
      rw [List.drop_eq_nil_of_le (by simp)]
      simp

theorem copy_eq_of_length (dst src : List Byte) (h : dst.length = src.length) :
    copy dst src = src := by
  simp [copy, h]

/-- Closed form of `xor`: the pairwise exclusive-or over the common length, then the tail of
whichever input is longer. -/
theorem xor_eq (a b : List Byte) :
    xor a b = List.zipWith bxor a b ++ (b.drop a.length ++ a.drop b.length) := by
  unfold xor
  simp only []
  rw [xorLoop_spec a b _ 0 _ (by split <;> omega) (by omega) (by simp; split <;> omega)]
  simp only [List.take_zero, List.nil_append, List.drop_zero]
  have hz : (List.zipWith bxor a b).length = min a.length b.length := by simp
  by_cases h1 : b.length > a.length
  · simp only [h1, if_true]
    have hm : min a.length b.length = a.length := by omega
    rw [List.take_append_of_le_length (by omega), List.take_of_length_le (by omega),
      List.drop_append_of_le_length (by omega),
      List.drop_of_length_le (l := List.zipWith bxor a b) (by omega),
      copy_eq_of_length _ _ (by simp; omega), List.drop_of_length_le (l := a) (by omega)]
    simp
  · simp only [h1, if_false]
    by_cases h2 : a.length > b.length
    · simp only [h2, if_true, gt_iff_lt, lt_self_iff_false, if_false]
      have hm : min a.length b.length = b.length := by omega
      rw [List.take_append_of_le_length (by omega), List.take_of_length_le (by omega),
        List.drop_append_of_le_length (by omega),
        List.drop_of_length_le (l := List.zipWith bxor a b) (by omega),
        copy_eq_of_length _ _ (by simp; omega), List.drop_of_length_le (l := b) (by omega)]
      simp
    · simp only [h2, if_false, gt_iff_lt, lt_self_iff_false]
      have hm : min a.length b.length = a.length := by omega
      rw [List.drop_of_length_le (l := List.replicate _ _) (by simp; omega),
        List.drop_of_length_le (l := a) (by omega), List.drop_of_length_le (l := b) (by omega)]
      simp

theorem xor_length (a b : List Byte) : (xor a b).length = max a.length b.length := by
  rw [xor_eq]
  simp
  omega

theorem xor_getElem?_both (a b : List Byte) (i : Nat) (x y : Byte)
    (hx : a[i]? = some x) (hy : b[i]? = some y) : (xor a b)[i]? = some (bxor x y) := by
  rw [xor_eq]
  have hi : i < a.length := (List.getElem?_eq_some_iff.1 hx).1
  have hj : i < b.length := (List.getElem?_eq_some_iff.1 hy).1
  rw [List.getElem?_append_left (by simp; omega), List.getElem?_zipWith, hx, hy]

theorem xor_getElem?_right (a b : List Byte) (i : Nat) (h : a.length ≤ i) :
    (xor a b)[i]? = b[i]? := by
  rw [xor_eq]
  by_cases hb : a.length ≤ b.length
  · rw [List.drop_of_length_le (l := a) hb, List.append_nil,
      List.getElem?_append_right (by simp; omega)]
    simp
    congr 1
    omega
  · rw [List.getElem?_eq_none (by simp; omega), List.getElem?_eq_none (by omega)]

theorem xor_getElem?_left (a b : List Byte) (i : Nat) (h : b.length ≤ i) :
    (xor a b)[i]? = a[i]? := by
  rw [xor_eq]
  by_cases hb : b.length ≤ a.length
  · rw [List.drop_of_length_le (l := b) hb, List.nil_append,
      List.getElem?_append_right (by simp; omega)]
    simp
    congr 1
    omega
  · rw [List.getElem?_eq_none (by simp; omega), List.getElem?_eq_none (by omega)]

theorem xor_nil_right (a : List Byte) : xor a [] = a := by
  rw [xor_eq]
  simp

theorem xor_comm_aux (a b : List Byte) : xor a b = xor b a := by
  rw [xor_eq, xor_eq, List.zipWith_comm_of_comm bxor bxor_comm a b]
  by_cases h : a.length ≤ b.length
  · by_cases h2 : b.length ≤ a.length
    · simp [List.drop_of_length_le h, List.drop_of_length_le h2]
    · simp [List.drop_of_length_le h]
  · simp [List.drop_of_length_le (show b.length ≤ a.length by omega)]

/-! ## Base64 -/

theorem pack3 (a b c : Nat) (hb : b < 256) (hc : c < 256) :
    a <<< 16 ||| b <<< 8 ||| c = a * 65536 + b * 256 + c := by
  have h1 : a <<< 16 ||| b <<< 8 = 2 ^ 8 * (a * 256 + b) := by
    rw [Nat.shiftLeft_eq, Nat.shiftLeft_eq]
    have := Nat.mul_add_lt_is_or (i := 16) (b := b * 2 ^ 8) (by omega) a
    rw [show a * 2 ^ 16 = 2 ^ 16 * a by omega, ← this]
    omega
  rw [h1, ← Nat.mul_add_lt_is_or (by omega)]
  omega

theorem pack4 (a b c d : Nat) (hb : b < 64) (hc : c < 64) (hd : d < 64) :
    a <<< 18 ||| b <<< 12 ||| c <<< 6 ||| d = a * 262144 + b * 4096 + c * 64 + d := by
  have h1 : a <<< 18 ||| b <<< 12 = 2 ^ 12 * (a * 64 + b) := by
    rw [Nat.shiftLeft_eq, Nat.shiftLeft_eq]
    have := Nat.mul_add_lt_is_or (i := 18) (b := b * 2 ^ 12) (by omega) a
    rw [show a * 2 ^ 18 = 2 ^ 18 * a by omega, ← this]
    omega
  have h2 : 2 ^ 12 * (a * 64 + b) ||| c <<< 6 = 2 ^ 6 * (a * 4096 + b * 64 + c) := by
    rw [Nat.shiftLeft_eq]
    have := Nat.mul_add_lt_is_or (i := 12) (b := c * 2 ^ 6) (by omega) (a * 64 + b)
    rw [← this]
    omega
  rw [h1, h2, ← Nat.mul_add_lt_is_or (by omega)]
  omega

theorem and_63 (x : Nat) : x &&& 0x3F = x % 64 := Nat.and_pow_two_sub_one_eq_mod x 6

theorem decodeMap_encTable : ∀ i : Fin 64, decodeMap (encTable i.val) = i.val := by decide

theorem encTable_ne : ∀ i : Fin 64, encTable i.val ≠ 10 ∧ encTable i.val ≠ 13 ∧
    encTable i.val ≠ 61 ∧ encTable i.val ≠ 45 ∧ encTable i.val ≠ 32 ∧ encTable i.val ≠ 9 ∧
    encTable i.val ≠ 58 := by decide



theorem toByte_val (x : Byte) : toByte x.val = x := by
  apply Fin.ext
  simp [toByte, Nat.mod_eq_of_lt x.isLt]

/-- The sextets of a three-byte group, repacked by `decodeQuantum`, give the three bytes. -/
theorem quantumBytes_three (a b c : Byte) :
    quantumBytes
      [(a.val <<< 16 ||| b.val <<< 8 ||| c.val) >>> 18 &&& 0x3F,
       (a.val <<< 16 ||| b.val <<< 8 ||| c.val) >>> 12 &&& 0x3F,
       (a.val <<< 16 ||| b.val <<< 8 ||| c.val) >>> 6 &&& 0x3F,
       (a.val <<< 16 ||| b.val <<< 8 ||| c.val) &&& 0x3F] 4 = [a, b, c] := by
  have ha := a.isLt
  have hb := b.isLt
  have hc := c.isLt
  simp only [quantumBytes, List.getD_cons_zero, List.getD_cons_succ, and_63,
    Nat.shiftRight_eq_div_pow, pack3 _ _ _ hb hc]
  rw [pack4 _ _ _ _ (Nat.mod_lt _ (by decide)) (Nat.mod_lt _ (by decide))
    (Nat.mod_lt _ (by decide))]
  simp only [List.take, Nat.reduceSub]
  refine congrArg₂ _ ?_ (congrArg₂ _ ?_ (congrArg₂ _ ?_ rfl)) <;>
    (apply Fin.ext; simp only [toByte]; omega)

theorem quantumBytes_two (a b : Byte) :
    quantumBytes
      [(a.val <<< 16 ||| b.val <<< 8) >>> 18 &&& 0x3F,
       (a.val <<< 16 ||| b.val <<< 8) >>> 12 &&& 0x3F,
       (a.val <<< 16 ||| b.val <<< 8) >>> 6 &&& 0x3F] 3 = [a, b] := by
  have ha := a.isLt
  have hb := b.isLt
  have h0 : a.val <<< 16 ||| b.val <<< 8 = a.val * 65536 + b.val * 256 := by
    have := pack3 a.val b.val 0 hb (by decide)
    simpa using this
  simp only [quantumBytes, List.getD_cons_zero, List.getD_cons_succ, and_63,
    Nat.shiftRight_eq_div_pow, h0, List.getD_nil]
  rw [pack4 _ _ _ _ (Nat.mod_lt _ (by decide)) (Nat.mod_lt _ (by decide)) (by decide)]
  simp only [List.take, Nat.reduceSub]
  refine congrArg₂ _ ?_ (congrArg₂ _ ?_ rfl) <;>
    (apply Fin.ext; simp only [toByte]; omega)

theorem quantumBytes_one (a : Byte) :
    quantumBytes [(a.val <<< 16) >>> 18 &&& 0x3F, (a.val <<< 16) >>> 12 &&& 0x3F] 2 = [a] := by
  have ha := a.isLt
  have h0 : a.val <<< 16 = a.val * 65536 := Nat.shiftLeft_eq _ _
  simp only [quantumBytes, List.getD_cons_zero, List.getD_cons_succ, and_63,
    Nat.shiftRight_eq_div_pow, h0, List.getD_nil]
  rw [pack4 _ _ _ _ (Nat.mod_lt _ (by decide)) (by decide) (by decide)]
  simp only [List.take, Nat.reduceSub]
  refine congrArg₂ _ ?_ rfl
  apply Fin.ext
  simp only [toByte]
  omega



theorem and_63_lt (x : Nat) : x &&& 0x3F < 64 := by
  rw [and_63]
  exact Nat.mod_lt _ (by decide)

theorem decodeMap_enc (s : Nat) (hs : s < 64) : decodeMap (encTable s) = s :=
  decodeMap_encTable ⟨s, hs⟩

theorem decodeQuantumLoop_char (s : Nat) (hs : s < 64) (src : List Byte) (dbuf : List Nat)
    (h : dbuf.length < 4) :
    decodeQuantumLoop (encTable s :: src) dbuf = decodeQuantumLoop src (dbuf ++ [s]) := by
  rw [decodeQuantumLoop, if_neg (by omega), decodeMap_enc s hs, if_pos (by omega)]

theorem decodeQuantumLoop_newline (src : List Byte) (dbuf : List Nat) (h : dbuf.length < 4) :
    decodeQuantumLoop (10 :: src) dbuf = decodeQuantumLoop src dbuf := by
  rw [decodeQuantumLoop, if_neg (by omega), if_neg (by decide), if_pos (by decide)]

theorem decodeQuantumLoop_full (src : List Byte) (dbuf : List Nat) (h : dbuf.length = 4) :
    decodeQuantumLoop src dbuf = ⟨src, quantumBytes dbuf 4, false⟩ := by
  cases src with
  | nil => rw [decodeQuantumLoop, if_pos h]
  | cons c src => rw [decodeQuantumLoop, if_pos h]

theorem decodeQuantum_four (s0 s1 s2 s3 : Nat) (h0 : s0 < 64) (h1 : s1 < 64) (h2 : s2 < 64)
    (h3 : s3 < 64) (src : List Byte) :
    decodeQuantum (encTable s0 :: encTable s1 :: encTable s2 :: encTable s3 :: src) =
      ⟨src, quantumBytes [s0, s1, s2, s3] 4, false⟩ := by
  rw [decodeQuantum, decodeQuantumLoop_char s0 h0 _ _ (by simp),
    decodeQuantumLoop_char s1 h1 _ _ (by simp), decodeQuantumLoop_char s2 h2 _ _ (by simp),
    decodeQuantumLoop_char s3 h3 _ _ (by simp), decodeQuantumLoop_full _ _ (by simp)]
  rfl

theorem decodeQuantum_pad1 (s0 s1 s2 : Nat) (h0 : s0 < 64) (h1 : s1 < 64) (h2 : s2 < 64) :
    decodeQuantum [encTable s0, encTable s1, encTable s2, padChar] =
      ⟨[], quantumBytes [s0, s1, s2] 3, false⟩ := by
  rw [decodeQuantum, decodeQuantumLoop_char s0 h0 _ _ (by simp),
    decodeQuantumLoop_char s1 h1 _ _ (by simp), decodeQuantumLoop_char s2 h2 _ _ (by simp)]
  rfl

theorem decodeQuantum_pad2 (s0 s1 : Nat) (h0 : s0 < 64) (h1 : s1 < 64) :
    decodeQuantum [encTable s0, encTable s1, padChar, padChar] =
      ⟨[], quantumBytes [s0, s1] 2, false⟩ := by
  rw [decodeQuantum, decodeQuantumLoop_char s0 h0 _ _ (by simp),
    decodeQuantumLoop_char s1 h1 _ _ (by simp)]
  rfl

theorem decodeQuantum_newline (src : List Byte) :
    decodeQuantum (10 :: src) = decodeQuantum src := by
  rw [decodeQuantum, decodeQuantumLoop_newline _ _ (by simp), decodeQuantum]



theorem joinLines_four (n : Nat) (hn : n % 4 = 0) (hle : n ≤ 64) (e0 e1 e2 e3 : Byte)
    (s : List Byte) :
    joinLines n (e0 :: e1 :: e2 :: e3 :: s) =
      if n = 64 then 10 :: e0 :: e1 :: e2 :: e3 :: joinLines 4 s
      else e0 :: e1 :: e2 :: e3 :: joinLines (n + 4) s := by
  by_cases h : n = 64
  · subst h
    simp [joinLines]
  · have h1 : n + 1 ≠ 64 := by omega
    have h2 : n + 1 + 1 ≠ 64 := by omega
    have h3 : n + 1 + 1 + 1 ≠ 64 := by omega
    simp [joinLines, h, h1, h2, h3]

theorem stdDecodeLoop_step (fuel : Nat) (c : Byte) (src acc rest out : List Byte)
    (hq : decodeQuantum (c :: src) = ⟨rest, out, false⟩) :
    stdDecodeLoop (fuel + 1) (c :: src) acc = stdDecodeLoop fuel rest (acc ++ out) := by
  rw [stdDecodeLoop]
  simp [hq]

/-- Decoding undoes encoding, also when the encoded text is broken into lines of 64. -/
theorem stdDecodeLoop_joinLines (b : List Byte) :
    ∀ (n fuel : Nat) (acc : List Byte), n % 4 = 0 → n ≤ 64 →
      (joinLines n (stdEncode b)).length ≤ fuel →
      stdDecodeLoop fuel (joinLines n (stdEncode b)) acc = some (acc ++ b) := by
  induction b using stdEncode.induct with
  | case1 =>
    intro n fuel acc _ _ _
    simp [stdEncode, joinLines, stdDecodeLoop]
  | case2 a =>
    intro n fuel acc hn hle hf
    simp only [stdEncode] at hf ⊢
    rw [joinLines_four n hn hle] at hf ⊢
    simp only [joinLines] at hf ⊢
    have hq := decodeQuantum_pad2 _ _ (and_63_lt ((a.val <<< 16) >>> 18))
      (and_63_lt ((a.val <<< 16) >>> 12))
    rw [quantumBytes_one] at hq
    by_cases h : n = 64
    · simp only [h, if_true] at hf ⊢
      obtain ⟨f, rfl⟩ : ∃ f, fuel = f + 1 := ⟨fuel - 1, by simp at hf; omega⟩
      rw [stdDecodeLoop_step f _ _ acc [] [a] (by rw [decodeQuantum_newline]; exact hq)]
      simp [stdDecodeLoop]
    · simp only [h, if_false] at hf ⊢
      obtain ⟨f, rfl⟩ : ∃ f, fuel = f + 1 := ⟨fuel - 1, by simp at hf; omega⟩
      rw [stdDecodeLoop_step f _ _ acc [] [a] hq]
      simp [stdDecodeLoop]
  | case3 a b =>
    intro n fuel acc hn hle hf
    simp only [stdEncode] at hf ⊢
    rw [joinLines_four n hn hle] at hf ⊢
    simp only [joinLines] at hf ⊢
    have hq := decodeQuantum_pad1 _ _ _ (and_63_lt ((a.val <<< 16 ||| b.val <<< 8) >>> 18))
      (and_63_lt ((a.val <<< 16 ||| b.val <<< 8) >>> 12))
      (and_63_lt ((a.val <<< 16 ||| b.val <<< 8) >>> 6))
    rw [quantumBytes_two] at hq
    by_cases h : n = 64
    · simp only [h, if_true] at hf ⊢
      obtain ⟨f, rfl⟩ : ∃ f, fuel = f + 1 := ⟨fuel - 1, by simp at hf; omega⟩
      rw [stdDecodeLoop_step f _ _ acc [] [a, b] (by rw [decodeQuantum_newline]; exact hq)]
      simp [stdDecodeLoop]
    · simp only [h, if_false] at hf ⊢
      obtain ⟨f, rfl⟩ : ∃ f, fuel = f + 1 := ⟨fuel - 1, by simp at hf; omega⟩
      rw [stdDecodeLoop_step f _ _ acc [] [a, b] hq]
      simp [stdDecodeLoop]
  | case4 a b c t ih =>
    intro n fuel acc hn hle hf
    simp only [stdEncode] at hf ⊢
    rw [joinLines_four n hn hle] at hf ⊢
    have hq := fun src => decodeQuantum_four _ _ _ _
      (and_63_lt ((a.val <<< 16 ||| b.val <<< 8 ||| c.val) >>> 18))
      (and_63_lt ((a.val <<< 16 ||| b.val <<< 8 ||| c.val) >>> 12))
      (and_63_lt ((a.val <<< 16 ||| b.val <<< 8 ||| c.val) >>> 6))
      (and_63_lt (a.val <<< 16 ||| b.val <<< 8 ||| c.val)) src
    rw [quantumBytes_three] at hq
    by_cases h : n = 64
    · simp only [h, if_true] at hf ⊢
      obtain ⟨f, rfl⟩ : ∃ f, fuel = f + 1 := ⟨fuel - 1, by simp at hf; omega⟩
      rw [stdDecodeLoop_step f _ _ acc _ [a, b, c] (by rw [decodeQuantum_newline]; exact hq _),
        ih 4 f _ (by decide) (by decide) (by simp at hf; omega)]
      simp
    · simp only [h, if_false] at hf ⊢
      obtain ⟨f, rfl⟩ : ∃ f, fuel = f + 1 := ⟨fuel - 1, by simp at hf; omega⟩
      rw [stdDecodeLoop_step f _ _ acc _ [a, b, c] (hq _),
        ih (n + 4) f _ (by omega) (by omega) (by simp at hf; omega)]
      simp

theorem stdDecode_joinLines (b : List Byte) :
    stdDecode (joinLines 0 (stdEncode b)) = some b := by
  rw [stdDecode, stdDecodeLoop_joinLines b 0 _ [] (by decide) (by decide) (le_refl _)]
  simp

/-! ## `pem.Encode` -/

theorem stdEncode_length (b : List Byte) : (stdEncode b).length = (b.length + 2) / 3 * 4 := by
  induction b using stdEncode.induct with
  | case1 => simp [stdEncode]
  | case2 a => simp [stdEncode]
  | case3 a b => simp [stdEncode]
  | case4 a b c t ih =>
    simp only [stdEncode, List.length_cons, ih]
    omega

theorem stdEncode_append (x y : List Byte) (h : x.length % 3 = 0) :
    stdEncode (x ++ y) = stdEncode x ++ stdEncode y := by
  induction x using stdEncode.induct with
  | case1 => simp [stdEncode]
  | case2 a => simp at h
  | case3 a b => simp at h
  | case4 a b c t ih =>
    have ht : t.length % 3 = 0 := by
      simp only [List.length_cons] at h
      omega
    simp only [List.cons_append, stdEncode, List.append_eq, ih ht]

theorem breakLines_short (n : Nat) (s : List Byte) (h : n + s.length < 64) :
    breakLines n s = s := by
  induction s generalizing n with
  | nil => rfl
  | cons c s ih =>
    simp only [List.length_cons] at h
    rw [breakLines, if_neg (by omega), ih (n + 1) (by omega)]

theorem breakLines_fill (n : Nat) (s t : List Byte) (hs : s ≠ []) (h : n + s.length = 64) :
    breakLines n (s ++ t) = s ++ 10 :: breakLines 0 t := by
  induction s generalizing n with
  | nil => exact absurd rfl hs
  | cons c s ih =>
    simp only [List.length_cons] at h
    by_cases hn : n + 1 = 64
    · have : s = [] := List.length_eq_zero.1 (by omega)
      subst this
      simp [breakLines, hn]
    · have hs2 : s ≠ [] := by
        intro h0
        subst h0
        simp at h
        omega
      rw [List.cons_append, breakLines, if_neg hn, ih (n + 1) hs2 (by omega)]
      rfl

theorem breakLines_append (n : Nat) (s t : List Byte) (hn : n < 64) :
    breakLines n (s ++ t) = breakLines n s ++ breakLines ((n + s.length) % 64) t := by
  induction s generalizing n with
  | nil => simp [breakLines, Nat.mod_eq_of_lt hn]
  | cons c s ih =>
    by_cases h : n + 1 = 64
    · rw [List.cons_append, breakLines, if_pos h, breakLines, if_pos h, ih 0 (by decide)]
      simp only [List.length_cons, List.cons_append]
      congr 4
      omega
    · rw [List.cons_append, breakLines, if_neg h, breakLines, if_neg h, ih (n + 1) (by omega)]
      simp only [List.length_cons, List.cons_append]
      congr 3
      omega

/-- Invariant of the line breaker: after the text `s` has been written through it, the
underlying writer and the pending line together hold `s` broken into lines, and the pending
line has `s.length % 64` characters. -/
theorem LineBreaker.Write_spec (fuel : Nat) :
    ∀ (l : LineBreaker) (hdr s b : List Byte), b.length < fuel →
      l.out ++ l.line = hdr ++ breakLines 0 s → l.line.length = s.length % 64 →
      (LineBreaker.Write fuel l b).out ++ (LineBreaker.Write fuel l b).line =
          hdr ++ breakLines 0 (s ++ b) ∧
        (LineBreaker.Write fuel l b).line.length = (s ++ b).length % 64 := by
  induction fuel with
  | zero => intro l hdr s b h; omega
  | succ f ih =>
    intro l hdr s b hf h1 h2
    have hlt : s.length % 64 < 64 := Nat.mod_lt _ (by decide)
    rw [LineBreaker.Write]
    by_cases hc : l.line.length + b.length < pemLineLength
    · rw [if_pos hc]
      simp only [pemLineLength] at hc
      refine ⟨?_, ?_⟩
      · show l.out ++ (l.line ++ b) = _
        rw [← List.append_assoc, h1, breakLines_append 0 s b (by decide), Nat.zero_add,
          ← h2, breakLines_short _ _ hc, List.append_assoc]
      · simp only [List.length_append, h2]
        rw [h2] at hc
        omega
    · rw [if_neg hc]
      simp only [pemLineLength] at hc ⊢
      have hex : (b.take (64 - l.line.length)).length = 64 - l.line.length := by
        rw [List.length_take]
        omega
      have hne : b.take (64 - l.line.length) ≠ [] := by
        intro h0
        rw [h0] at hex
        simp at hex
        omega
      have hb : b = b.take (64 - l.line.length) ++ b.drop (64 - l.line.length) :=
        (List.take_append_drop _ _).symm
      have key := ih ⟨[], l.out ++ l.line ++ b.take (64 - l.line.length) ++ str "\n"⟩ hdr
        (s ++ b.take (64 - l.line.length)) (b.drop (64 - l.line.length))
        (by rw [List.length_drop]; omega)
        (by
          rw [breakLines_append 0 s _ (by decide), Nat.zero_add, ← h2, List.append_nil,
            ← List.append_assoc, ← h1]
          have := breakLines_fill l.line.length (b.take (64 - l.line.length)) [] hne
            (by rw [hex]; omega)
          rw [List.append_nil] at this
          rw [this]
          simp [breakLines, str, toByte])
        (by
          simp only [List.length_nil, List.length_append, hex]
          omega)
      rw [List.append_assoc s, ← hb] at key
      exact key



/-- Invariant of the chunked base64 writer: after the loop the line breaker has received the
encoding of the largest prefix of `p` whose length is a multiple of three, and the rest of
`p` is left for the buffer. -/
theorem encoderWriteLoop_spec (fuel : Nat) :
    ∀ (w : LineBreaker) (hdr s p : List Byte), p.length < fuel →
      w.out ++ w.line = hdr ++ breakLines 0 s → w.line.length = s.length % 64 →
      (encoderWriteLoop fuel w p).1.out ++ (encoderWriteLoop fuel w p).1.line =
          hdr ++ breakLines 0 (s ++ stdEncode (p.take (p.length - p.length % 3))) ∧
        (encoderWriteLoop fuel w p).1.line.length =
          (s ++ stdEncode (p.take (p.length - p.length % 3))).length % 64 ∧
        (encoderWriteLoop fuel w p).2 = p.drop (p.length - p.length % 3) := by
  induction fuel with
  | zero => intro w hdr s p h; omega
  | succ f ih =>
    intro w hdr s p hf h1 h2
    rw [encoderWriteLoop]
    by_cases hp : p.length ≥ 3
    · rw [if_pos hp]
      simp only []
      generalize hnn : (if 1024 / 4 * 3 > p.length then p.length - p.length % 3
        else 1024 / 4 * 3) = nn
      have hnn3 : nn % 3 = 0 := by
        rw [← hnn]
        split <;> omega
      have hnnle : nn ≤ p.length - p.length % 3 := by
        rw [← hnn]
        split <;> omega
      have hnnpos : 0 < nn := by
        rw [← hnn]
        split <;> omega
      have hlen : (stdEncode (p.take nn)).length = nn / 3 * 4 := by
        rw [stdEncode_length, List.length_take]
        omega
      rw [List.take_of_length_le (le_of_eq hlen)]
      obtain ⟨k1, k2⟩ := LineBreaker.Write_spec ((stdEncode (p.take nn)).length + 1) w hdr s
        (stdEncode (p.take nn)) (by omega) h1 h2
      obtain ⟨r1, r2, r3⟩ := ih _ hdr (s ++ stdEncode (p.take nn)) (p.drop nn)
        (by rw [List.length_drop]; omega) k1 k2
      have hd : (p.drop nn).length - (p.drop nn).length % 3 = p.length - p.length % 3 - nn := by
        rw [List.length_drop]
        omega
      have he : stdEncode (p.take nn) ++
          stdEncode ((p.drop nn).take ((p.drop nn).length - (p.drop nn).length % 3)) =
          stdEncode (p.take (p.length - p.length % 3)) := by
        rw [← stdEncode_append _ _ (by rw [List.length_take]; omega), hd]
        congr 1
        have := List.take_add p nn (p.length - p.length % 3 - nn)
        rw [show nn + (p.length - p.length % 3 - nn) = p.length - p.length % 3 by omega] at this
        exact this.symm
      rw [List.append_assoc, he] at r1 r2
      refine ⟨r1, r2, ?_⟩
      rw [r3, hd, List.drop_drop]
      congr 1
      omega
    · rw [if_neg hp]
      have h0 : p.length - p.length % 3 = 0 := by omega
      simp only [h0, List.take_zero, List.drop_zero, stdEncode, List.append_nil]
      exact ⟨h1, h2, trivial⟩

theorem stdEncode_drop_length (p : List Byte) :
    (stdEncode (p.drop (p.length - p.length % 3))).length < 5 := by
  rw [stdEncode_length, List.length_drop]
  omega

/-- Closed form of `pem.Encode`: the BEGIN line, the base64 text in lines of 64 characters
each ended by a newline, and the END line. -/
theorem pemEncode_eq (L b : List Byte) :
    pemEncode ⟨L, b⟩ = .ok (pemStart.drop 1 ++ (L ++ str "-----\n") ++
      (breakLines 0 (stdEncode b) ++
        (if (stdEncode b).length % 64 > 0 then str "\n" else [])) ++
      pemEnd.drop 1 ++ (L ++ str "-----\n")) := by
  unfold pemEncode
  simp only []
  obtain ⟨r1, r2, r3⟩ := encoderWriteLoop_spec (b.length + 1)
    ⟨[], pemStart.drop 1 ++ (L ++ str "-----\n")⟩ (pemStart.drop 1 ++ (L ++ str "-----\n")) [] b
    (by omega) (by simp [breakLines]) (by simp)
  rw [List.nil_append] at r1 r2
  have hsplit : stdEncode (b.take (b.length - b.length % 3)) ++
      stdEncode (b.drop (b.length - b.length % 3)) = stdEncode b := by
    rw [← stdEncode_append _ _ (by rw [List.length_take]; omega), List.take_append_drop]
  have hclose : (encoderClose (encoderWriteLoop (b.length + 1)
        ⟨[], pemStart.drop 1 ++ (L ++ str "-----\n")⟩ b).1
        (encoderWriteLoop (b.length + 1) ⟨[], pemStart.drop 1 ++ (L ++ str "-----\n")⟩ b).2).out ++
      (encoderClose (encoderWriteLoop (b.length + 1)
        ⟨[], pemStart.drop 1 ++ (L ++ str "-----\n")⟩ b).1
        (encoderWriteLoop (b.length + 1) ⟨[], pemStart.drop 1 ++ (L ++ str "-----\n")⟩ b).2).line =
        pemStart.drop 1 ++ (L ++ str "-----\n") ++ breakLines 0 (stdEncode b) ∧
      (encoderClose (encoderWriteLoop (b.length + 1)
        ⟨[], pemStart.drop 1 ++ (L ++ str "-----\n")⟩ b).1
        (encoderWriteLoop (b.length + 1) ⟨[], pemStart.drop 1 ++ (L ++ str "-----\n")⟩ b).2).line.length
        = (stdEncode b).length % 64 := by
    rw [encoderClose, r3]
    by_cases hb : (b.drop (b.length - b.length % 3)).length > 0
    · rw [if_pos hb]
      have := LineBreaker.Write_spec 5 _ _ _ (stdEncode (b.drop (b.length - b.length % 3)))
        (stdEncode_drop_length b) r1 r2
      rw [hsplit] at this
      exact this
    · rw [if_neg hb]
      have h0 : b.drop (b.length - b.length % 3) = [] := List.length_eq_zero.1 (by omega)
      rw [h0] at hsplit
      simp only [stdEncode, List.append_nil] at hsplit
      rw [hsplit] at r1 r2
      exact ⟨r1, r2⟩
  obtain ⟨c1, c2⟩ := hclose
  rw [LineBreaker.Close]
  by_cases hl : (stdEncode b).length % 64 > 0
  · rw [if_pos (by rw [c2]; exact hl), if_pos hl, c1]
    simp only [List.append_assoc]
  · rw [if_neg (by rw [c2]; exact hl), if_neg hl]
    have hnil : (encoderClose (encoderWriteLoop (b.length + 1)
        ⟨[], pemStart.drop 1 ++ (L ++ str "-----\n")⟩ b).1
        (encoderWriteLoop (b.length + 1) ⟨[], pemStart.drop 1 ++ (L ++ str "-----\n")⟩ b).2).line
        = [] := List.length_eq_zero.1 (by omega)
    rw [hnil, List.append_nil] at c1
    rw [c1]
    simp only [List.append_assoc, List.append_nil]

/-! ## `pem.Decode` -/

theorem indexByte_append (c : Byte) (pre post : List Byte) (h : c ∉ pre) :
    indexByte c (pre ++ c :: post) = some pre.length := by
  induction pre with
  | nil => simp [indexByte]
  | cons x pre ih =>
    have hx : x ≠ c := fun e => h (by simp [e])
    have hp : c ∉ pre := fun e => h (by simp [e])
    simp [indexByte, hx, ih hp]

theorem indexByte_append_le (c : Byte) (x y : List Byte) :
    ∃ i, indexByte c (x ++ c :: y) = some i ∧ i ≤ x.length := by
  induction x with
  | nil => exact ⟨0, by simp [indexByte], le_refl _⟩
  | cons a x ih =>
    obtain ⟨i, hi, hle⟩ := ih
    by_cases ha : a = c
    · exact ⟨0, by simp [indexByte, ha], Nat.zero_le _⟩
    · exact ⟨i + 1, by simp [indexByte, ha, hi], by simp; omega⟩

theorem indexByte_lt (c : Byte) (d : List Byte) (i : Nat) (h : indexByte c d = some i) :
    i < d.length := by
  induction d generalizing i with
  | nil => simp [indexByte] at h
  | cons a d ih =>
    simp only [indexByte] at h
    split at h
    · simp at h
      subst h
      simp
    · cases hd : indexByte c d with
      | none => simp [hd] at h
      | some k =>
        simp [hd] at h
        subst h
        have := ih k hd
        simp
        omega

theorem trimRightSpaceTab_subset (s : List Byte) : ∀ c ∈ trimRightSpaceTab s, c ∈ s := by
  intro c hc
  have : (trimRightSpaceTab s) <+: s := by
    unfold trimRightSpaceTab
    exact List.rdropWhile_prefix _ _
  exact this.subset hc

theorem trimRightSpaceTab_length_le (s : List Byte) : (trimRightSpaceTab s).length ≤ s.length := by
  have : (trimRightSpaceTab s) <+: s := by
    unfold trimRightSpaceTab
    exact List.rdropWhile_prefix _ _
  exact this.length_le

/-- A line that does not end in a carriage return, a space or a tab is returned as it is. -/
theorem getLine_eq (pre post : List Byte) (h : (10 : Byte) ∉ pre)
    (hl : ∀ init z, pre = init ++ [z] → z ≠ 13 ∧ z ≠ 32 ∧ z ≠ 9) :
    getLine (pre ++ 10 :: post) = (pre, post) := by
  unfold getLine
  rw [indexByte_append 10 pre post h]
  simp only []
  rcases List.eq_nil_or_concat pre with h0 | ⟨init, z, h0⟩
  · subst h0
    simp [trimRightSpaceTab]
  · rw [List.concat_eq_append] at h0
    obtain ⟨z13, z32, z9⟩ := hl init z h0
    subst h0
    have hg : (init ++ [z] ++ 10 :: post).getD ((init ++ [z]).length - 1) 0 = z := by
      rw [List.getD_eq_getElem?_getD, List.append_assoc,
        List.getElem?_append_right (by simp)]
      simp
    rw [hg, if_neg (by simp [z13])]
    simp only [List.take_left, List.drop_left, Prod.mk.injEq]
    refine ⟨?_, ?_⟩
    · unfold trimRightSpaceTab
      rw [List.rdropWhile_concat_neg]
      simp [z32, z9]
    · rw [show (init ++ [z]).length + 1 = (init ++ [z] ++ [10]).length by simp,
        show init ++ [z] ++ 10 :: post = (init ++ [z] ++ [10]) ++ post by simp, List.drop_left]

theorem getLine_snd (pre post : List Byte) (h : (10 : Byte) ∉ pre) :
    (getLine (pre ++ 10 :: post)).2 = post := by
  unfold getLine
  rw [indexByte_append 10 pre post h]
  simp only []
  rw [show pre.length + 1 = (pre ++ [10]).length by simp,
    show pre ++ 10 :: post = (pre ++ [10]) ++ post by simp, List.drop_left]

/-- Every character of the first line comes from the text before the first newline. -/
theorem getLine_fst_mem (x y : List Byte) :
    ∀ c ∈ (getLine (x ++ 10 :: y)).1, c ∈ x := by
  intro c hc
  unfold getLine at hc
  obtain ⟨i, hi, hle⟩ := indexByte_append_le 10 x y
  rw [hi] at hc
  simp only [] at hc
  have h1 := trimRightSpaceTab_subset _ c hc
  have h2 : c ∈ (x ++ 10 :: y).take i := by
    split at h1
    · exact (List.take_subset_take_left _ (Nat.sub_le i 1)) h1
    · exact h1
  rw [List.take_append_of_le_length hle] at h2
  exact List.mem_of_mem_take h2

/-- The rest returned by `getLine` is shorter than a non-empty input. -/
theorem getLine_snd_length (d : List Byte) (h : d ≠ []) :
    (getLine d).2.length < d.length := by
  unfold getLine
  cases hi : indexByte 10 d with
  | none =>
    simp
    exact List.length_pos.2 h
  | some i =>
    simp only [List.length_drop]
    have := indexByte_lt 10 d i hi
    omega



theorem bytesCut_colon_none (l : List Byte) (h : (58 : Byte) ∉ l) : bytesCut l colon = none := by
  have hi : bytesIndex colon l = none := by
    induction l with
    | nil => decide
    | cons x l ih =>
      have hx : (58 : Byte) ≠ x := fun e => h (by simp [e])
      have hp : (58 : Byte) ∉ l := fun e => h (by simp [e])
      have hpre : colon.isPrefixOf (x :: l) = false := by
        rw [show colon = [58] by decide]
        simp [List.isPrefixOf, hx]
      simp [bytesIndex, hpre, ih hp]
  simp [bytesCut, hi]

/-- The first instance of a pattern whose second byte does not occur before it. -/
theorem bytesIndex_append (a b : Byte) (sep x post : List Byte) (hab : a ≠ b) (hx : b ∉ x) :
    bytesIndex (a :: b :: sep) (x ++ (a :: b :: sep) ++ post) = some x.length := by
  induction x with
  | nil =>
    have hp : (a :: b :: sep).isPrefixOf (a :: (b :: sep ++ post)) = true := by
      rw [List.isPrefixOf_iff_prefix]
      exact ⟨post, by simp⟩
    show bytesIndex (a :: b :: sep) (a :: (b :: sep ++ post)) = some 0
    rw [bytesIndex, if_pos hp]
  | cons c x ih =>
    have hbc : b ≠ c := fun e => hx (by simp [e])
    have hbx : b ∉ x := fun e => hx (by simp [e])
    have hp : (a :: b :: sep).isPrefixOf (c :: (x ++ (a :: b :: sep) ++ post)) = false := by
      cases x with
      | nil => simp [List.isPrefixOf, hab.symm]
      | cons d x =>
        have hbd : b ≠ d := fun e => hbx (by simp [e])
        simp [List.isPrefixOf, hbd]
    show bytesIndex (a :: b :: sep) (c :: (x ++ (a :: b :: sep) ++ post)) = _
    rw [bytesIndex, hp, ih hbx]
    simp

theorem hasPrefix_append (p s : List Byte) : hasPrefix (p ++ s) p = true := by
  unfold hasPrefix
  rw [List.isPrefixOf_iff_prefix]
  exact List.prefix_append p s

theorem hasSuffix_append (p s : List Byte) : hasSuffix (p ++ s) s = true := by
  unfold hasSuffix
  rw [List.isSuffixOf_iff_suffix]
  exact List.suffix_append p s

theorem hasPrefix_cons_ne (a c : Byte) (p s : List Byte) (h : a ≠ c) :
    hasPrefix (c :: s) (a :: p) = false := by
  simp [hasPrefix, List.isPrefixOf, h]

theorem removeSpacesAndTabs_eq (x : List Byte) (h : ∀ c ∈ x, c ≠ 32 ∧ c ≠ 9) :
    removeSpacesAndTabs x = x := by
  unfold removeSpacesAndTabs
  rw [List.filter_eq_self]
  intro c hc
  simp [(h c hc).1, (h c hc).2]

theorem headerLoop_no_colon (fuel : Nat) (x y : List Byte) (hx : ∀ c ∈ x, c ≠ 58) :
    headerLoop (fuel + 1) (x ++ 10 :: y) false = some (false, x ++ 10 :: y) := by
  rw [headerLoop, if_neg (by simp)]
  have hc : bytesCut (getLine (x ++ 10 :: y)).1 colon = none := by
    apply bytesCut_colon_none
    intro hm
    exact hx 58 (getLine_fst_mem x y 58 hm) rfl
  rw [hc]

theorem pemEnd_eq : pemEnd = 10 :: 45 :: str "----END " := by decide

theorem pemEnd_drop_eq : pemEnd.drop 1 = 45 :: str "----END " := by decide

theorem pemEndOfLine_eq : pemEndOfLine = str "----" ++ [45] := by decide

theorem not_mem_pemEndOfLine : (10 : Byte) ∉ pemEndOfLine := by decide

/-- One pass of `pem.Decode` over a block with a non-empty body: after the BEGIN line of
label `L` comes the text `x`, which holds no dash, colon, space or tab and which base64
decodes to `bytes`, then the END line of label `L`, then `tail`. The block is returned with
`tail` as the rest. -/
theorem pemDecodeLoop_block (data L x bytes tail : List Byte) (fuel : Nat)
    (hL : (10 : Byte) ∉ L) (hx : x ≠ [])
    (hx2 : ∀ c ∈ x, c ≠ 45 ∧ c ≠ 58 ∧ c ≠ 32 ∧ c ≠ 9)
    (hd : stdDecode x = some bytes) :
    pemDecodeLoop data (fuel + 1)
      (pemStart.drop 1 ++ (L ++ pemEndOfLine ++ 10 :: (x ++ pemEnd ++
        (L ++ pemEndOfLine ++ 10 :: tail)))) = (some ⟨L, bytes⟩, tail) := by
  generalize hR : x ++ pemEnd ++ (L ++ pemEndOfLine ++ 10 :: tail) = R
  have hR2 : R = x ++ 10 :: (pemEnd.drop 1 ++ (L ++ pemEndOfLine ++ 10 :: tail)) := by
    rw [← hR, pemEnd_eq]
    simp
  have hR3 : R = x ++ (10 :: 45 :: str "----END ") ++ (L ++ pemEndOfLine ++ 10 :: tail) := by
    rw [← hR, pemEnd_eq]
  have f1 := hasPrefix_append (pemStart.drop 1) (L ++ pemEndOfLine ++ 10 :: R)
  have f2 : (pemStart.drop 1 ++ (L ++ pemEndOfLine ++ 10 :: R)).drop (pemStart.length - 1) =
      L ++ pemEndOfLine ++ 10 :: R := by
    rw [show pemStart.length - 1 = (pemStart.drop 1).length by decide, List.drop_left]
  have f3 : getLine (L ++ pemEndOfLine ++ 10 :: R) = (L ++ pemEndOfLine, R) := by
    apply getLine_eq
    · intro hm
      rcases List.mem_append.1 hm with h | h
      · exact hL h
      · exact not_mem_pemEndOfLine h
    · intro init z hz
      rw [pemEndOfLine_eq, ← List.append_assoc] at hz
      have := (List.append_inj' hz (by simp)).2
      simp at this
      subst this
      decide
  have f4 := hasSuffix_append L pemEndOfLine
  have f5 : (L ++ pemEndOfLine).take ((L ++ pemEndOfLine).length - pemEndOfLine.length) = L := by
    rw [List.length_append, Nat.add_sub_cancel, List.take_left]
  have f6 : headerLoop (R.length + 1) R false = some (false, R) := by
    rw [hR2]
    exact headerLoop_no_colon _ _ _ (fun c hc => (hx2 c hc).2.1)
  have f7 : hasPrefix R (pemEnd.drop 1) = false := by
    rw [hR2, pemEnd_drop_eq]
    cases x with
    | nil => exact absurd rfl hx
    | cons c x =>
      exact hasPrefix_cons_ne _ _ _ _ (fun e => (hx2 c (by simp)).1 e.symm)
  have f8 : bytesIndex pemEnd R = some x.length := by
    rw [hR3, pemEnd_eq]
    exact bytesIndex_append 10 45 _ x _ (by decide) (fun hm => (hx2 45 hm).1 rfl)
  have f9 : R.drop (x.length + pemEnd.length) = L ++ pemEndOfLine ++ 10 :: tail := by
    rw [← hR, show x.length + pemEnd.length = (x ++ pemEnd).length by simp, List.drop_left]
  have f10 : ¬ ((L ++ pemEndOfLine ++ 10 :: tail).length < L.length + pemEndOfLine.length) := by
    simp
  have f11 : (L ++ pemEndOfLine ++ 10 :: tail).drop (L.length + pemEndOfLine.length) =
      10 :: tail := by
    rw [show L.length + pemEndOfLine.length = (L ++ pemEndOfLine).length by simp, List.drop_left]
  have f12 : (L ++ pemEndOfLine ++ 10 :: tail).take (L.length + pemEndOfLine.length) =
      L ++ pemEndOfLine := by
    rw [show L.length + pemEndOfLine.length = (L ++ pemEndOfLine).length by simp, List.take_left]
  have f13 := hasPrefix_append L pemEndOfLine
  have f14 : (getLine (10 :: tail)).1 = [] := by
    have := getLine_eq [] tail (by simp) (by simp)
    simp at this
    rw [this]
  have f15 : R.take x.length = x := by
    rw [← hR, List.append_assoc, List.take_left]
  have f16 := removeSpacesAndTabs_eq x (fun c hc => (hx2 c hc).2.2)
  have f17 : (getLine (R.drop (x.length + pemEnd.length - 1))).2 = tail := by
    have e : R.drop (x.length + pemEnd.length - 1) = (32 :: L ++ pemEndOfLine) ++ 10 :: tail := by
      rw [← hR, List.append_assoc, show x.length + pemEnd.length - 1 = x.length + 9 by
        rw [show pemEnd.length = 10 by decide]; rfl, List.drop_append,
        show pemEnd = [10, 45, 45, 45, 45, 45, 69, 78, 68, 32] by decide]
      simp
    rw [e]
    apply getLine_snd
    intro hm
    rcases List.mem_append.1 hm with h | h
    · rcases List.mem_cons.1 h with h | h
      · exact absurd h (by decide)
      · exact hL h
    · exact not_mem_pemEndOfLine h
  rw [pemDecodeLoop]
  simp only [f1, f2, f3, f4, f5, f6, f7, f8, f9, f10, f11, f12, f13, f14, f15, f16, f17, hd,
    if_true, if_false, Bool.not_true, Bool.false_eq_true, Bool.not_false, Bool.and_false,
    Bool.true_and, List.length_nil, ne_eq, not_true_eq_false, Bool.or_self]



/-- One pass of `pem.Decode` over a block with an empty body: the END line of label `L`
follows the BEGIN line at once. The label must not hold a colon, or the END line would be
taken for a header. -/
theorem pemDecodeLoop_empty_block (data L tail : List Byte) (fuel : Nat)
    (hL : (10 : Byte) ∉ L) (hc : (58 : Byte) ∉ L) :
    pemDecodeLoop data (fuel + 1)
      (pemStart.drop 1 ++ (L ++ pemEndOfLine ++ 10 :: (pemEnd.drop 1 ++
        (L ++ pemEndOfLine ++ 10 :: tail)))) = (some ⟨L, []⟩, tail) := by
  generalize hR : pemEnd.drop 1 ++ (L ++ pemEndOfLine ++ 10 :: tail) = R
  have hR2 : R = (pemEnd.drop 1 ++ (L ++ pemEndOfLine)) ++ 10 :: tail := by
    rw [← hR]
    simp
  have hnl : (10 : Byte) ∉ L ++ pemEndOfLine := by
    intro hm
    rcases List.mem_append.1 hm with h | h
    · exact hL h
    · exact not_mem_pemEndOfLine h
  have f1 := hasPrefix_append (pemStart.drop 1) (L ++ pemEndOfLine ++ 10 :: R)
  have f2 : (pemStart.drop 1 ++ (L ++ pemEndOfLine ++ 10 :: R)).drop (pemStart.length - 1) =
      L ++ pemEndOfLine ++ 10 :: R := by
    rw [show pemStart.length - 1 = (pemStart.drop 1).length by decide, List.drop_left]
  have f3 : getLine (L ++ pemEndOfLine ++ 10 :: R) = (L ++ pemEndOfLine, R) := by
    apply getLine_eq _ _ hnl
    intro init z hz
    rw [pemEndOfLine_eq, ← List.append_assoc] at hz
    have := (List.append_inj' hz (by simp)).2
    simp at this
    subst this
    decide
  have f4 := hasSuffix_append L pemEndOfLine
  have f5 : (L ++ pemEndOfLine).take ((L ++ pemEndOfLine).length - pemEndOfLine.length) = L := by
    rw [List.length_append, Nat.add_sub_cancel, List.take_left]
  have f6 : headerLoop (R.length + 1) R false = some (false, R) := by
    rw [hR2]
    apply headerLoop_no_colon
    intro c hm e
    subst e
    rcases List.mem_append.1 hm with h | h
    · exact absurd h (by decide)
    · rcases List.mem_append.1 h with h | h
      · exact hc h
      · exact absurd h (by decide)
  have f7 : hasPrefix R (pemEnd.drop 1) = true := by
    rw [← hR]
    exact hasPrefix_append _ _
  have f9 : R.drop (pemEnd.length - 1) = L ++ pemEndOfLine ++ 10 :: tail := by
    rw [← hR, show pemEnd.length - 1 = (pemEnd.drop 1).length by decide, List.drop_left]
  have f10 : ¬ ((L ++ pemEndOfLine ++ 10 :: tail).length < L.length + pemEndOfLine.length) := by
    simp
  have f11 : (L ++ pemEndOfLine ++ 10 :: tail).drop (L.length + pemEndOfLine.length) =
      10 :: tail := by
    rw [show L.length + pemEndOfLine.length = (L ++ pemEndOfLine).length by simp, List.drop_left]
  have f12 : (L ++ pemEndOfLine ++ 10 :: tail).take (L.length + pemEndOfLine.length) =
      L ++ pemEndOfLine := by
    rw [show L.length + pemEndOfLine.length = (L ++ pemEndOfLine).length by simp, List.take_left]
  have f13 := hasPrefix_append L pemEndOfLine
  have f14 : (getLine (10 :: tail)).1 = [] := by
    have := getLine_eq [] tail (by simp) (by simp)
    simp at this
    rw [this]
  have f15 : stdDecode (removeSpacesAndTabs (R.take 0)) = some [] := by
    simp [removeSpacesAndTabs, stdDecode, stdDecodeLoop]
  have f17 : (getLine (R.drop (0 + pemEnd.length - 1))).2 = tail := by
    rw [Nat.zero_add, f9]
    exact getLine_snd _ _ hnl
  rw [pemDecodeLoop]
  simp only [f1, f2, f3, f4, f5, f6, f7, f9, f10, f11, f12, f13, f14, f15, f17,
    if_true, if_false, Bool.not_true, Bool.false_eq_true, Bool.not_false, Bool.and_false,
    Bool.true_and, List.length_nil, ne_eq, not_true_eq_false, Bool.or_self, Bool.and_self]

/-! ### The text produced by `pem.Encode` -/

theorem breakLines_joinLines (s : List Byte) :
    ∀ n, n ≤ 63 → (0 < n ∨ s ≠ []) →
      breakLines n s ++ (if (n + s.length) % 64 > 0 then [10] else []) =
        joinLines n s ++ [10] := by
  induction s with
  | nil =>
    intro n hn h
    have h0 : 0 < n := by
      rcases h with h | h
      · exact h
      · exact absurd rfl h
    simp [breakLines, joinLines]
    omega
  | cons c s ih =>
    intro n hn _
    have hn64 : ¬ n = 64 := by omega
    by_cases h : n + 1 = 64
    · rw [breakLines, if_pos h, joinLines, if_neg hn64, h]
      cases s with
      | nil =>
        simp [breakLines, joinLines]
        omega
      | cons d s =>
        have := ih 0 (by omega) (Or.inr (by simp))
        rw [joinLines, if_pos rfl]
        rw [joinLines, if_neg (show ¬ 0 = 64 by decide)] at this
        simp only [List.cons_append, List.length_cons] at this ⊢
        have e : (n + (s.length + 1 + 1)) % 64 = (0 + (s.length + 1)) % 64 := by omega
        simp only [e, this]
    · rw [breakLines, if_neg h, joinLines, if_neg hn64]
      have := ih (n + 1) (by omega) (Or.inl (by omega))
      simp only [List.cons_append, List.length_cons]
      have e : (n + (s.length + 1)) % 64 = (n + 1 + s.length) % 64 := by omega
      simp only [e, this]



theorem stdEncode_mem (b : List Byte) :
    ∀ c ∈ stdEncode b, c = padChar ∨ ∃ i : Fin 64, c = encTable i.val := by
  induction b using stdEncode.induct with
  | case1 => simp [stdEncode]
  | case2 a =>
    intro c hc
    simp only [stdEncode, List.mem_cons, List.mem_nil_iff, or_false] at hc
    rcases hc with h | h | h | h
    · exact Or.inr ⟨⟨_, and_63_lt _⟩, h⟩
    · exact Or.inr ⟨⟨_, and_63_lt _⟩, h⟩
    · exact Or.inl h
    · exact Or.inl h
  | case3 a b =>
    intro c hc
    simp only [stdEncode, List.mem_cons, List.mem_nil_iff, or_false] at hc
    rcases hc with h | h | h | h
    · exact Or.inr ⟨⟨_, and_63_lt _⟩, h⟩
    · exact Or.inr ⟨⟨_, and_63_lt _⟩, h⟩
    · exact Or.inr ⟨⟨_, and_63_lt _⟩, h⟩
    · exact Or.inl h
  | case4 a b c t ih =>
    intro x hx
    simp only [stdEncode, List.mem_cons] at hx
    rcases hx with h | h | h | h | h
    · exact Or.inr ⟨⟨_, and_63_lt _⟩, h⟩
    · exact Or.inr ⟨⟨_, and_63_lt _⟩, h⟩
    · exact Or.inr ⟨⟨_, and_63_lt _⟩, h⟩
    · exact Or.inr ⟨⟨_, and_63_lt _⟩, h⟩
    · exact ih x h

theorem joinLines_mem (s : List Byte) : ∀ n, ∀ c ∈ joinLines n s, c = 10 ∨ c ∈ s := by
  induction s with
  | nil => intro n c hc; simp [joinLines] at hc
  | cons a s ih =>
    intro n c hc
    rw [joinLines] at hc
    split at hc
    · simp only [List.mem_cons] at hc
      rcases hc with h | h | h
      · exact Or.inl h
      · exact Or.inr (by simp [h])
      · rcases ih _ c h with h | h
        · exact Or.inl h
        · exact Or.inr (by simp [h])
    · simp only [List.mem_cons] at hc
      rcases hc with h | h
      · exact Or.inr (by simp [h])
      · rcases ih _ c h with h | h
        · exact Or.inl h
        · exact Or.inr (by simp [h])

/-- The base64 text of a PEM body holds no dash, colon, space or tab. -/
theorem joinLines_stdEncode_mem (b : List Byte) (n : Nat) :
    ∀ c ∈ joinLines n (stdEncode b), c ≠ 45 ∧ c ≠ 58 ∧ c ≠ 32 ∧ c ≠ 9 := by
  intro c hc
  rcases joinLines_mem _ n c hc with h | h
  · subst h
    decide
  · rcases stdEncode_mem b c h with h | ⟨i, h⟩
    · subst h
      decide
    · subst h
      have := encTable_ne i
      exact ⟨this.2.2.2.1, this.2.2.2.2.2.2, this.2.2.2.2.1, this.2.2.2.2.2.1⟩

theorem stdEncode_ne_nil (b : List Byte) (h : b ≠ []) : stdEncode b ≠ [] := by
  intro h0
  have := congrArg List.length h0
  rw [stdEncode_length] at this
  have hb : 0 < b.length := List.length_pos.2 h
  simp at this
  omega

theorem joinLines_ne_nil (s : List Byte) (n : Nat) (h : s ≠ []) : joinLines n s ≠ [] := by
  cases s with
  | nil => exact absurd rfl h
  | cons c s =>
    rw [joinLines]
    split <;> simp

/-- The text of `pem.Encode` for a non-empty body: the base64 lines are joined by newlines
and followed by one more. -/
theorem pemEncode_eq_of_ne_nil (L b : List Byte) (hb : b ≠ []) :
    pemEncode ⟨L, b⟩ = .ok (pemStart.drop 1 ++ (L ++ pemEndOfLine ++ 10 ::
      (joinLines 0 (stdEncode b) ++ pemEnd ++ (L ++ pemEndOfLine ++ [10])))) := by
  rw [pemEncode_eq]
  have := breakLines_joinLines (stdEncode b) 0 (by decide) (Or.inr (stdEncode_ne_nil b hb))
  rw [Nat.zero_add] at this
  rw [show str "\n" = [10] by decide, this, pemEnd_eq,
    show str "-----\n" = pemEndOfLine ++ [10] by decide]
  simp [pemEnd_drop_eq]

theorem pemEncode_nil (L : List Byte) :
    pemEncode ⟨L, []⟩ = .ok (pemStart.drop 1 ++ (L ++ pemEndOfLine ++ 10 ::
      (pemEnd.drop 1 ++ (L ++ pemEndOfLine ++ [10])))) := by
  rw [pemEncode_eq, show str "-----\n" = pemEndOfLine ++ [10] by decide]
  simp [stdEncode, breakLines]

/-- Go `pem.Decode` undoes `pem.Encode` for every label without a newline, provided the label
holds no colon or the body is not empty; what follows the block is returned as the rest. -/
theorem pemDecode_pemEncode (L b tail t : List Byte) (hL : (10 : Byte) ∉ L)
    (hc : (58 : Byte) ∉ L ∨ b ≠ []) (ht : pemEncode ⟨L, b⟩ = .ok t) :
    pemDecode (t ++ tail) = (some ⟨L, b⟩, tail) := by
  by_cases hb : b = []
  · subst hb
    rw [pemEncode_nil] at ht
    injection ht with ht
    subst ht
    have hc2 : (58 : Byte) ∉ L := by
      rcases hc with h | h
      · exact h
      · exact absurd rfl h
    rw [pemDecode]
    have := pemDecodeLoop_empty_block
      ((pemStart.drop 1 ++ (L ++ pemEndOfLine ++ 10 ::
        (pemEnd.drop 1 ++ (L ++ pemEndOfLine ++ [10])))) ++ tail) L tail
      ((pemStart.drop 1 ++ (L ++ pemEndOfLine ++ 10 ::
        (pemEnd.drop 1 ++ (L ++ pemEndOfLine ++ [10])))) ++ tail).length hL hc2
    simp only [List.append_assoc, List.cons_append, List.nil_append] at this ⊢
    exact this
  · rw [pemEncode_eq_of_ne_nil L b hb] at ht
    injection ht with ht
    subst ht
    rw [pemDecode]
    have := pemDecodeLoop_block
      ((pemStart.drop 1 ++ (L ++ pemEndOfLine ++ 10 ::
        (joinLines 0 (stdEncode b) ++ pemEnd ++ (L ++ pemEndOfLine ++ [10])))) ++ tail)
      L (joinLines 0 (stdEncode b)) b tail
      ((pemStart.drop 1 ++ (L ++ pemEndOfLine ++ 10 ::
        (joinLines 0 (stdEncode b) ++ pemEnd ++ (L ++ pemEndOfLine ++ [10])))) ++ tail).length
      hL (joinLines_ne_nil _ _ (stdEncode_ne_nil b hb)) (joinLines_stdEncode_mem b 0)
      (stdDecode_joinLines b)
    simp only [List.append_assoc, List.cons_append, List.nil_append] at this ⊢
    exact this

/-! ## `encode` and `decode` -/

theorem encode_eq_pemEncode (b : List Byte) : encode b = pemEncode ⟨str "OTP", b⟩ := by
  unfold encode
  rw [pemEncode_eq]

theorem encode_ok (b : List Byte) : ∃ t, encode b = .ok t := by
  rw [encode_eq_pemEncode, pemEncode_eq]
  exact ⟨_, rfl⟩

/-- What `decode` returns on the text of a block followed by `tail`. -/
theorem decode_pemEncode_append (L b tail t : List Byte) (hL : (10 : Byte) ∉ L)
    (hc : (58 : Byte) ∉ L ∨ b ≠ []) (ht : pemEncode ⟨L, b⟩ = .ok t) :
    decode (t ++ tail) =
      if tail.length ≠ 0 then .error "extra text after PEM data" else .ok b := by
  unfold decode
  rw [pemDecode_pemEncode L b tail t hL hc ht]

theorem decode_encode (b t : List Byte) (ht : encode b = .ok t) : decode t = .ok b := by
  rw [encode_eq_pemEncode] at ht
  have := decode_pemEncode_append (str "OTP") b [] t (by decide) (Or.inl (by decide)) ht
  simpa using this

/-! ## `xor`, continued -/

theorem xor_nil_left (b : List Byte) : xor [] b = b := by
  rw [xor_eq]
  simp

theorem xor_cons_cons (x y : Byte) (a b : List Byte) :
    xor (x :: a) (y :: b) = bxor x y :: xor a b := by
  rw [xor_eq, xor_eq]
  simp

theorem xor_self (k : List Byte) : xor k k = List.replicate k.length 0 := by
  induction k with
  | nil => rw [xor_nil_left]; rfl
  | cons y k ih => rw [xor_cons_cons, ih, bxor_self]; rfl

/-- Applying the key twice gives the message back, padded with zero bytes to the length of
the key. -/
theorem xor_xor_cancel (m : List Byte) :
    ∀ k : List Byte, m.length ≤ k.length →
      xor (xor m k) k = m ++ List.replicate (k.length - m.length) 0 := by
  induction m with
  | nil =>
    intro k _
    rw [xor_nil_left, xor_self]
    simp
  | cons x m ih =>
    intro k hk
    cases k with
    | nil => simp at hk
    | cons y k =>
      simp only [List.length_cons, Nat.add_le_add_iff_right] at hk
      rw [xor_cons_cons, xor_cons_cons, bxor_bxor_cancel, ih k hk]
      simp

/-! ## The claims -/

/-- C1. Round trip: for every message `m` and key bytes `k` with
`len(m) <= len(k) <= 50000`, `Encrypt(m, encode(k))` succeeds with an armored cipher `c`, and
`Decrypt(c, encode(k))` succeeds and returns `m` followed by `len(k) - len(m)` zero bytes. -/
theorem C1_roundtrip (m k : List Byte) (h1 : m.length ≤ k.length) (_h2 : k.length ≤ 50000) :
    ∃ K c, encode k = .ok K ∧ Encrypt m K = .ok c ∧
      Decrypt c K = .ok (m ++ List.replicate (k.length - m.length) 0) := by
  obtain ⟨K, hK⟩ := encode_ok k
  obtain ⟨c, hc⟩ := encode_ok (xor m k)
  have hdK := decode_encode k K hK
  have hdc := decode_encode (xor m k) c hc
  refine ⟨K, c, hK, ?_, ?_⟩
  · unfold Encrypt
    rw [hdK]
    simp only []
    rw [if_neg (by omega), hc]
  · unfold Decrypt
    rw [hdc, hdK]
    simp only []
    rw [if_neg (by rw [xor_length]; omega), xor_xor_cancel m k h1]

/-- Instance of C1: the message `"CAT"` under the key bytes 1, 2, 3, 4, 5. -/
theorem C1_roundtrip_witness :
    ∃ K c, encode [1, 2, 3, 4, 5] = .ok K ∧ Encrypt (str "CAT") K = .ok c ∧
      Decrypt c K = .ok (str "CAT" ++
        List.replicate (([1, 2, 3, 4, 5] : List Byte).length - (str "CAT").length) 0) :=
  C1_roundtrip (str "CAT") [1, 2, 3, 4, 5] (by decide) (by decide)

/-- C2. Armor round trip: for every byte sequence `b`, the empty one included, `encode(b)`
succeeds and `decode(encode(b))` succeeds and returns exactly `b`. -/
theorem C2_armor_roundtrip (b : List Byte) : ∃ t, encode b = .ok t ∧ decode t = .ok b := by
  obtain ⟨t, ht⟩ := encode_ok b
  exact ⟨t, ht, decode_encode b t ht⟩



/-- C3. `Encrypt(m, K)`: when `decode(K)` fails, the error is `"decoding key: "` followed by
the error of `decode`; when `decode(K) = k` and `m` is longer than `k`, the error is
`"message must not be longer than key"`; otherwise the result is `encode(c)` for a `c` of the
length of `k` with `c[i] = m[i] XOR k[i]` for `i < len(m)` and `c[i] = k[i]` from `len(m)` on.
`"CAT"` under the key bytes 01 02 03 04 05 gives the cipher bytes 42 43 57 04 05. -/
theorem C3_encrypt_result (m K : List Byte) :
    (∀ e, decode K = .error e → Encrypt m K = .error ("decoding key: " ++ e)) ∧
    (∀ k, decode K = .ok k → m.length > k.length →
      Encrypt m K = .error "message must not be longer than key") ∧
    (∀ k, decode K = .ok k → m.length ≤ k.length →
      ∃ x t, encode x = .ok t ∧ Encrypt m K = .ok t ∧ x.length = k.length ∧
        (∀ (i : Nat) (a b : Byte), m[i]? = some a → k[i]? = some b → x[i]? = some (bxor a b)) ∧
        (∀ i : Nat, m.length ≤ i → x[i]? = k[i]?)) ∧
    (∃ K5 t, encode [0x01, 0x02, 0x03, 0x04, 0x05] = .ok K5 ∧
      encode [0x42, 0x43, 0x57, 0x04, 0x05] = .ok t ∧ Encrypt (str "CAT") K5 = .ok t) := by
  refine ⟨?_, ?_, ?_, ?_⟩
  · intro e he
    unfold Encrypt
    rw [he]
  · intro k hk hlen
    unfold Encrypt
    rw [hk]
    simp only []
    rw [if_pos hlen]
  · intro k hk hlen
    obtain ⟨t, ht⟩ := encode_ok (xor m k)
    refine ⟨xor m k, t, ht, ?_, ?_, ?_, ?_⟩
    · unfold Encrypt
      rw [hk]
      simp only []
      rw [if_neg (by omega), ht]
    · rw [xor_length]
      omega
    · intro i x y hx hy
      exact xor_getElem?_both m k i x y hx hy
    · intro i hi
      exact xor_getElem?_right m k i hi
  · exact ⟨str "-----BEGIN OTP-----\nAQIDBAU=\n-----END OTP-----\n",
      str "-----BEGIN OTP-----\nQkNXBAU=\n-----END OTP-----\n", by decide, by decide, by decide⟩

/-- Instance of C3: the three cases at the key text of the bytes 1..5, at a text that is not
a PEM block, and at a message longer than the key. -/
theorem C3_encrypt_result_witness :
    Encrypt (str "CAT") (str "no key") = .error ("decoding key: " ++ "no PEM data to decode") ∧
    Encrypt (str "CATASTROPHE") (str "-----BEGIN OTP-----\nAQIDBAU=\n-----END OTP-----\n") =
      .error "message must not be longer than key" ∧
    (∃ x t, encode x = .ok t ∧
      Encrypt (str "CAT") (str "-----BEGIN OTP-----\nAQIDBAU=\n-----END OTP-----\n") = .ok t ∧
      x.length = ([1, 2, 3, 4, 5] : List Byte).length ∧
      (∀ (i : Nat) (a b : Byte), (str "CAT")[i]? = some a → ([1, 2, 3, 4, 5] : List Byte)[i]? = some b →
        x[i]? = some (bxor a b)) ∧
      (∀ i : Nat, (str "CAT").length ≤ i → x[i]? = ([1, 2, 3, 4, 5] : List Byte)[i]?)) :=
  ⟨(C3_encrypt_result (str "CAT") (str "no key")).1 _ (by decide),
   (C3_encrypt_result (str "CATASTROPHE")
      (str "-----BEGIN OTP-----\nAQIDBAU=\n-----END OTP-----\n")).2.1 [1, 2, 3, 4, 5]
      (by decide) (by decide),
   (C3_encrypt_result (str "CAT")
      (str "-----BEGIN OTP-----\nAQIDBAU=\n-----END OTP-----\n")).2.2.1 [1, 2, 3, 4, 5]
      (by decide) (by decide)⟩

/-- C4. `Decrypt(C, K)`: when `decode(C)` fails the error is `"decoding cipher text: "`
followed by the error of `decode`, whatever `K` is; else when `decode(K)` fails the error is
`"decoding key: "` followed by that error; else, for `c = decode(C)` and `k = decode(K)`, the
error `"cipher text must not be longer than key"` is returned exactly when `len(c) > len(k)`,
and otherwise the result is the raw `xor(c, k)`, whose length is `len(k)`. -/
theorem C4_decrypt_result (C K : List Byte) :
    (∀ e, decode C = .error e → Decrypt C K = .error ("decoding cipher text: " ++ e)) ∧
    (∀ c e, decode C = .ok c → decode K = .error e →
      Decrypt C K = .error ("decoding key: " ++ e)) ∧
    (∀ c k, decode C = .ok c → decode K = .ok k →
      (Decrypt C K = .error "cipher text must not be longer than key" ↔ c.length > k.length) ∧
      (c.length ≤ k.length → Decrypt C K = .ok (xor c k) ∧ (xor c k).length = k.length)) := by
  refine ⟨?_, ?_, ?_⟩
  · intro e he
    unfold Decrypt
    rw [he]
  · intro c e hc he
    unfold Decrypt
    rw [hc, he]
  · intro c k hc hk
    unfold Decrypt
    rw [hc, hk]
    simp only []
    by_cases h : c.length > k.length
    · rw [if_pos h]
      exact ⟨⟨fun _ => h, fun _ => rfl⟩, fun hle => absurd h (by omega)⟩
    · rw [if_neg h]
      refine ⟨⟨fun he => ?_, fun hlt => absurd hlt h⟩, fun _ => ⟨rfl, ?_⟩⟩
      · cases he
      · rw [xor_length]
        omega

/-- Instance of C4: a cipher that is not a PEM block, a key that is not one, a cipher longer
than the key, and the cipher 42 43 57 04 05 under the key bytes 1..5. -/
theorem C4_decrypt_result_witness :
    Decrypt (str "no cipher") (str "-----BEGIN OTP-----\nAQIDBAU=\n-----END OTP-----\n") =
      .error ("decoding cipher text: " ++ "no PEM data to decode") ∧
    Decrypt (str "-----BEGIN OTP-----\nQkNXBAU=\n-----END OTP-----\n") (str "no key") =
      .error ("decoding key: " ++ "no PEM data to decode") ∧
    ((Decrypt (str "-----BEGIN OTP-----\nQkNXBAU=\n-----END OTP-----\n")
        (str "-----BEGIN OTP-----\nAQIDBAU=\n-----END OTP-----\n") =
        .error "cipher text must not be longer than key" ↔
      ([0x42, 0x43, 0x57, 0x04, 0x05] : List Byte).length >
        ([1, 2, 3, 4, 5] : List Byte).length) ∧
     (([0x42, 0x43, 0x57, 0x04, 0x05] : List Byte).length ≤
        ([1, 2, 3, 4, 5] : List Byte).length →
      Decrypt (str "-----BEGIN OTP-----\nQkNXBAU=\n-----END OTP-----\n")
        (str "-----BEGIN OTP-----\nAQIDBAU=\n-----END OTP-----\n") =
        .ok (xor [0x42, 0x43, 0x57, 0x04, 0x05] [1, 2, 3, 4, 5]) ∧
      (xor [0x42, 0x43, 0x57, 0x04, 0x05] [1, 2, 3, 4, 5]).length =
        ([1, 2, 3, 4, 5] : List Byte).length)) :=
  ⟨(C4_decrypt_result (str "no cipher")
      (str "-----BEGIN OTP-----\nAQIDBAU=\n-----END OTP-----\n")).1 _ (by decide),
   (C4_decrypt_result (str "-----BEGIN OTP-----\nQkNXBAU=\n-----END OTP-----\n")
      (str "no key")).2.1 [0x42, 0x43, 0x57, 0x04, 0x05] _ (by decide) (by decide),
   (C4_decrypt_result (str "-----BEGIN OTP-----\nQkNXBAU=\n-----END OTP-----\n")
      (str "-----BEGIN OTP-----\nAQIDBAU=\n-----END OTP-----\n")).2.2
      [0x42, 0x43, 0x57, 0x04, 0x05] [1, 2, 3, 4, 5] (by decide) (by decide)⟩

/-- C5. `xor` meets its reference definition: the result has length
`max(len(a), len(b))`; where both inputs have a byte, the result has their exclusive-or; from
the end of the shorter input on, the result has the bytes of the longer input unchanged. In
particular `xor(a, []) = a` and `xor([], [])` is empty. -/
theorem C5_xor_reference (a b : List Byte) :
    (xor a b).length = max a.length b.length ∧
    (∀ (i : Nat) (x y : Byte), a[i]? = some x → b[i]? = some y →
      (xor a b)[i]? = some (bxor x y)) ∧
    (∀ i : Nat, min a.length b.length ≤ i → i < max a.length b.length →
      (xor a b)[i]? = (if a.length < b.length then b else a)[i]?) ∧
    xor a [] = a ∧ xor [] [] = [] := by
  refine ⟨xor_length a b, xor_getElem?_both a b, ?_, xor_nil_right a, xor_nil_right []⟩
  intro i hi _
  by_cases h : a.length < b.length
  · rw [if_pos h]
    exact xor_getElem?_right a b i (by omega)
  · rw [if_neg h]
    exact xor_getElem?_left a b i (by omega)

/-- Instance of C5: the first case of `TestXor`, at the positions 1 and 3. -/
theorem C5_xor_reference_witness :
    (xor [0x0f, 0xff, 0x02] [0xf0, 0x00, 0x02, 0x03, 0x04])[1]? = some (bxor 0xff 0x00) ∧
    (xor [0x0f, 0xff, 0x02] [0xf0, 0x00, 0x02, 0x03, 0x04])[3]? =
      (if ([0x0f, 0xff, 0x02] : List Byte).length <
          ([0xf0, 0x00, 0x02, 0x03, 0x04] : List Byte).length
        then [0xf0, 0x00, 0x02, 0x03, 0x04] else ([0x0f, 0xff, 0x02] : List Byte))[3]? :=
  ⟨(C5_xor_reference [0x0f, 0xff, 0x02] [0xf0, 0x00, 0x02, 0x03, 0x04]).2.1 1 0xff 0x00
      (by decide) (by decide),
   (C5_xor_reference [0x0f, 0xff, 0x02] [0xf0, 0x00, 0x02, 0x03, 0x04]).2.2.1 3
      (by decide) (by decide)⟩

/-- C6. `xor` is commutative: `xor(a, b) = xor(b, a)` for all byte sequences `a` and `b`, of
equal or unequal length. -/
theorem C6_xor_comm (a b : List Byte) : xor a b = xor b a :=
  xor_comm_aux a b

/-- C7. `GenerateKey(length)` succeeds exactly when `1 <= length <= 50000` and the read of a
`length`-byte buffer from the key source reports no error and `length` bytes. For
`length <= 0` or `length > 50000` it returns an error whatever the key source is, also when
none is installed. It returns an error when the source reports one, even along with a full
count. On success the result is `encode(b)` for the `length` bytes `b` of the buffer, which
`decode` gives back. `GenerateKey(0)`, `GenerateKey(-1)` and `GenerateKey(50001)` fail, and
`GenerateKey(50000)` succeeds with a body of 50000 bytes. -/
theorem C7_generateKey (keyGenerator : Option Reader) (length : Int) :
    ((∃ t, GenerateKey keyGenerator length = .returned (.ok t)) ↔
      (1 ≤ length ∧ length ≤ 50000 ∧ ∃ r, keyGenerator = some r ∧
        (r length.toNat).err = none ∧ (r length.toNat).n = length)) ∧
    ((length ≤ 0 ∨ length > 50000) →
      ∃ e, ∀ kg : Option Reader, GenerateKey kg length = .returned (.error e)) ∧
    (∀ r e, keyGenerator = some r → 1 ≤ length → length ≤ 50000 →
      (r length.toNat).err = some e →
      GenerateKey keyGenerator length = .returned (.error ("generating key: " ++ e))) ∧
    (∀ t, GenerateKey keyGenerator length = .returned (.ok t) →
      ∃ r, keyGenerator = some r ∧
        encode (copy (List.replicate length.toNat 0) (r length.toNat).data) = .ok t ∧
        decode t = .ok (copy (List.replicate length.toNat 0) (r length.toNat).data) ∧
        ((copy (List.replicate length.toNat 0) (r length.toNat).data).length : Int) = length) ∧
    (∃ e, GenerateKey none 0 = .returned (.error e)) ∧
    (∃ e, GenerateKey none (-1) = .returned (.error e)) ∧
    (∃ e, GenerateKey none 50001 = .returned (.error e)) ∧
    (∀ r : Reader, (r 50000).err = none → (r 50000).n = 50000 →
      ∃ t b, GenerateKey (some r) 50000 = .returned (.ok t) ∧ decode t = .ok b ∧
        b.length = 50000) := by
  have hcopy : ∀ (n : Nat) (d : List Byte), (copy (List.replicate n 0) d).length = n := by
    intro n d
    simp [copy]
    omega
  have hsucc : ∀ (kg : Option Reader) (len : Int) (t : List Byte),
      GenerateKey kg len = .returned (.ok t) →
      1 ≤ len ∧ len ≤ 50000 ∧ ∃ r, kg = some r ∧ (r len.toNat).err = none ∧
        (r len.toNat).n = len ∧
        encode (copy (List.replicate len.toNat 0) (r len.toNat).data) = .ok t := by
    intro kg len t h
    unfold GenerateKey at h
    split at h
    · cases h
    · split at h
      · cases h
      · rename_i h1 h2
        simp only [MaxKeyLength] at h2
        cases kg with
        | none => cases h
        | some r =>
          simp only [List.length_replicate] at h
          cases he : (r len.toNat).err with
          | some e =>
            rw [he] at h
            cases h
          | none =>
            rw [he] at h
            simp only [] at h
            split at h
            · cases h
            · rename_i hn
              injection h with h
              exact ⟨by omega, by omega, r, rfl, he, by simpa using hn, h⟩
  refine ⟨⟨?_, ?_⟩, ?_, ?_, ?_, ⟨_, rfl⟩, ⟨_, rfl⟩, ⟨_, rfl⟩, ?_⟩
  · rintro ⟨t, ht⟩
    obtain ⟨h1, h2, r, hr, he, hn, _⟩ := hsucc _ _ t ht
    exact ⟨h1, h2, r, hr, he, hn⟩
  · rintro ⟨h1, h2, r, hr, he, hn⟩
    obtain ⟨t, ht⟩ := encode_ok (copy (List.replicate length.toNat 0) (r length.toNat).data)
    refine ⟨t, ?_⟩
    subst hr
    unfold GenerateKey
    rw [if_neg (by omega), if_neg (by simp only [MaxKeyLength]; omega)]
    simp only [List.length_replicate, he]
    rw [if_neg (by simp [hn]), ht]
  · intro h
    rcases h with h | h
    · refine ⟨"key must have positive number of characters", fun kg => ?_⟩
      unfold GenerateKey
      rw [if_pos h]
    · refine ⟨"key length too large", fun kg => ?_⟩
      unfold GenerateKey
      rw [if_neg (by omega), if_pos (by simp only [MaxKeyLength]; omega)]
  · intro r e hr h1 h2 he
    subst hr
    unfold GenerateKey
    rw [if_neg (by omega), if_neg (by simp only [MaxKeyLength]; omega)]
    simp only [List.length_replicate, he]
  · intro t ht
    obtain ⟨h1, h2, r, hr, he, hn, henc⟩ := hsucc _ _ t ht
    refine ⟨r, hr, henc, decode_encode _ _ henc, ?_⟩
    rw [hcopy]
    omega
  · intro r he hn
    obtain ⟨t, ht⟩ := encode_ok (copy (List.replicate (50000 : Int).toNat 0)
      (r (50000 : Int).toNat).data)
    refine ⟨t, _, ?_, decode_encode _ _ ht, ?_⟩
    · unfold GenerateKey
      rw [if_neg (by decide), if_neg (by decide)]
      simp only [List.length_replicate]
      rw [show (50000 : Int).toNat = 50000 from rfl] at ht ⊢
      simp only [he]
      rw [if_neg (by simp [hn]), ht]
    · rw [hcopy]
      rfl

/-- Instance of C7: a source that fills a 5-byte buffer, and the `errorReader` of the tests,
which reports a full count together with an error. -/
theorem C7_generateKey_witness :
    (∃ t, GenerateKey (some (fun _ => ⟨[1, 2, 3, 4, 5], 5, none⟩)) 5 = .returned (.ok t)) ∧
    GenerateKey (some (fun n => ⟨[], n, some "errorReader returns an error when read"⟩)) 10 =
      .returned (.error ("generating key: " ++ "errorReader returns an error when read")) :=
  ⟨(C7_generateKey (some (fun _ => ⟨[1, 2, 3, 4, 5], 5, none⟩)) 5).1.2
      ⟨by decide, by decide, _, rfl, rfl, rfl⟩,
   (C7_generateKey
      (some (fun n => ⟨[], n, some "errorReader returns an error when read"⟩)) 10).2.2.1
      _ _ rfl (by decide) (by decide) rfl⟩

/-! ## The armored text format -/

theorem joinLines_append_short (u v : List Byte) :
    ∀ n, n + u.length ≤ 64 → joinLines n (u ++ v) = u ++ joinLines (n + u.length) v := by
  induction u with
  | nil => intro n _; rfl
  | cons c u ih =>
    intro n h
    simp only [List.length_cons] at h
    rw [List.cons_append, joinLines, if_neg (by omega), ih (n + 1) (by omega),
      show n + 1 + u.length = n + (u.length + 1) by omega]
    rfl

theorem joinLines_short (s : List Byte) (n : Nat) (h : n + s.length ≤ 64) :
    joinLines n s = s := by
  have := joinLines_append_short s [] n h
  simpa [joinLines] using this

theorem joinLines_long (s : List Byte) (h : 64 < s.length) :
    joinLines 0 s = s.take 64 ++ 10 :: joinLines 0 (s.drop 64) := by
  have h1 := joinLines_append_short (s.take 64) (s.drop 64) 0
    (by rw [List.length_take]; omega)
  rw [List.take_append_drop, List.length_take, Nat.zero_add,
    Nat.min_eq_left (Nat.le_of_lt h)] at h1
  rw [h1]
  cases hd : s.drop 64 with
  | nil =>
    have := congrArg List.length hd
    rw [List.length_drop] at this
    simp at this
    omega
  | cons c r =>
    rw [joinLines, if_pos rfl, joinLines, if_neg (by decide)]

/-- The text `joinLines 0 s` is the text cut into lines of 64 characters with a newline between them. -/
theorem joinLines_eq_intercalate (fuel : Nat) :
    ∀ s : List Byte, s.length < fuel →
      joinLines 0 s = List.intercalate (str "\n") (lines64 fuel s) := by
  induction fuel with
  | zero => intro s h; omega
  | succ f ih =>
    intro s h
    rw [lines64]
    by_cases hs : s.length ≤ 64
    · rw [if_pos hs, joinLines_short s 0 (by omega)]
      simp [List.intercalate]
    · rw [if_neg hs, joinLines_long s (by omega), ih (s.drop 64) (by rw [List.length_drop]; omega)]
      obtain ⟨g, rfl⟩ : ∃ g, f = g + 1 := ⟨f - 1, by omega⟩
      rw [lines64]
      split <;> simp [List.intercalate, str, toByte]

/-- Closed form of `encode`: for a non-empty `b` the text the specification describes; for
the empty `b` the BEGIN line followed at once by the END line. -/
theorem encode_eq (b : List Byte) :
    encode b = .ok (if b = [] then str "-----BEGIN OTP-----\n-----END OTP-----\n"
      else encodeSpec b) := by
  rw [encode_eq_pemEncode]
  by_cases hb : b = []
  · subst hb
    rw [if_pos rfl]
    decide
  · rw [if_neg hb, pemEncode_eq_of_ne_nil _ b hb, encodeSpec,
      ← joinLines_eq_intercalate _ _ (Nat.lt_succ_self _),
      show str "-----BEGIN OTP-----\n" = pemStart.drop 1 ++ (str "OTP" ++ pemEndOfLine ++ [10])
        by decide,
      show str "\n-----END OTP-----\n" = pemEnd ++ (str "OTP" ++ pemEndOfLine ++ [10])
        by decide]
    simp

/-- C8, as stated, fails at the empty byte sequence: the specified text has an empty line
between the BEGIN and END lines, the text of `encode` has none. -/
theorem C8_counterexample :
    encode [] = .ok (str "-----BEGIN OTP-----\n-----END OTP-----\n") ∧
    encodeSpec [] = str "-----BEGIN OTP-----\n\n-----END OTP-----\n" ∧
    encode [] ≠ .ok (encodeSpec []) := by decide

/-- C8, amended. For every non-empty byte sequence `b`, `encode(b)` is the text
`-----BEGIN OTP-----\n`, the padded base64 encoding of `b` wrapped into lines of 64
characters, `\n-----END OTP-----\n`; for the empty `b` it is the BEGIN line followed at once
by the END line. `encode("HELLO")` is `-----BEGIN OTP-----\nSEVMTE8=\n-----END OTP-----\n`. -/
theorem C8_armored_format (b : List Byte) :
    (b ≠ [] → encode b = .ok (encodeSpec b)) ∧
    (b = [] → encode b = .ok (str "-----BEGIN OTP-----\n-----END OTP-----\n")) ∧
    encode (str "HELLO") = .ok (str "-----BEGIN OTP-----\nSEVMTE8=\n-----END OTP-----\n") := by
  refine ⟨fun hb => ?_, fun hb => ?_, by decide⟩
  · rw [encode_eq, if_neg hb]
  · rw [encode_eq, if_pos hb]

/-- Instance of C8: a body of 49 bytes, whose base64 text takes two lines. -/
theorem C8_armored_format_witness :
    encode (List.replicate 49 0) = .ok (encodeSpec (List.replicate 49 0)) ∧
    encode [] = .ok (str "-----BEGIN OTP-----\n-----END OTP-----\n") :=
  ⟨(C8_armored_format (List.replicate 49 0)).1 (by decide), (C8_armored_format []).2.1 rfl⟩

/-- C9, as stated, fails for a label that holds a colon when the body is empty: the END line
is then read as a header line and no block is found. -/
theorem C9_counterexample :
    pemEncode ⟨str "a:b", []⟩ = .ok (str "-----BEGIN a:b-----\n-----END a:b-----\n") ∧
    decode (str "-----BEGIN a:b-----\n-----END a:b-----\n") =
      .error "no PEM data to decode" := by decide

/-- C9, amended. `decode` ignores the label: for every label `L` without a newline and every
byte sequence `b`, where `b` is not empty or `L` holds no colon, `decode` applied to the block
that `pem.Encode` writes for label `L` and body `b` returns exactly `b`. The block labelled
`other-pem` with body `SEVMTE8=` decodes to `"HELLO"`. -/
theorem C9_decode_ignores_label (L b t : List Byte) (hL : (10 : Byte) ∉ L)
    (hc : (58 : Byte) ∉ L ∨ b ≠ []) (ht : pemEncode ⟨L, b⟩ = .ok t) :
    decode t = .ok b ∧
    decode (str "-----BEGIN other-pem-----\nSEVMTE8=\n-----END other-pem-----\n") =
      .ok (str "HELLO") := by
  refine ⟨?_, by decide⟩
  have := decode_pemEncode_append L b [] t hL hc ht
  simpa using this

/-- Instance of C9: the label `other-pem` and the body `"HELLO"`. -/
theorem C9_decode_ignores_label_witness :
    decode (str "-----BEGIN other-pem-----\nSEVMTE8=\n-----END other-pem-----\n") =
      .ok (str "HELLO") :=
  (C9_decode_ignores_label (str "other-pem") (str "HELLO")
    (str "-----BEGIN other-pem-----\nSEVMTE8=\n-----END other-pem-----\n")
    (by decide) (Or.inl (by decide)) (by decide)).1

/-! ## Inputs without a block -/

theorem bytesIndex_some (sep : List Byte) :
    ∀ (s : List Byte) (i : Nat), bytesIndex sep s = some i → sep <+: s.drop i := by
  intro s
  induction s with
  | nil =>
    intro i h
    rw [bytesIndex] at h
    split at h
    · rename_i hp
      injection h with h
      subst h
      exact List.isPrefixOf_iff_prefix.1 hp
    · cases h
  | cons x s ih =>
    intro i h
    rw [bytesIndex] at h
    split at h
    · rename_i hp
      injection h with h
      subst h
      exact List.isPrefixOf_iff_prefix.1 hp
    · cases hs : bytesIndex sep s with
      | none => simp [hs] at h
      | some k =>
        simp [hs] at h
        subst h
        exact ih k hs

theorem bytesIndex_some_occurs (sep s : List Byte) (i : Nat) (h : bytesIndex sep s = some i) :
    sep <:+: s :=
  (bytesIndex_some sep s i h).isInfix.trans (List.drop_suffix i s).isInfix

theorem getLine_snd_suffix (d : List Byte) : (getLine d).2 <:+ d := by
  unfold getLine
  split
  · exact List.nil_suffix
  · exact List.drop_suffix _ d

theorem headerLoop_suffix (fuel : Nat) :
    ∀ (rest : List Byte) (hh hh2 : Bool) (rest2 : List Byte),
      headerLoop fuel rest hh = some (hh2, rest2) → rest2 <:+ rest := by
  induction fuel with
  | zero => intro rest hh hh2 rest2 h; simp [headerLoop] at h
  | succ f ih =>
    intro rest hh hh2 rest2 h
    rw [headerLoop] at h
    split at h
    · cases h
    · split at h
      · injection h with h
        injection h with h1 h2
        subst h2
        exact List.suffix_refl _
      · exact (ih _ _ _ _ h).trans (getLine_snd_suffix rest)

/-- The search for the END line fails in a text that does not hold `-----END `. -/
theorem ends_none (rest : List Byte) (hh : Bool) (h : ¬ pemEnd.drop 1 <:+: rest) :
    (if (!hh && hasPrefix rest (pemEnd.drop 1)) = true then some (0, pemEnd.length - 1)
      else
        match bytesIndex pemEnd rest with
        | some i => some (i, i + pemEnd.length)
        | none => none) = none := by
  have h1 : hasPrefix rest (pemEnd.drop 1) = false := by
    cases hp : hasPrefix rest (pemEnd.drop 1) with
    | false => rfl
    | true =>
      unfold hasPrefix at hp
      exact absurd (List.isPrefixOf_iff_prefix.1 hp).isInfix h
  have h2 : bytesIndex pemEnd rest = none := by
    cases hi : bytesIndex pemEnd rest with
    | none => rfl
    | some i =>
      exact absurd ((List.drop_suffix 1 pemEnd).isInfix.trans
        (bytesIndex_some_occurs pemEnd rest i hi)) h
  rw [h1, h2]
  simp

/-- No block is found in an input that does not hold `-----END `. -/
theorem pemDecodeLoop_no_end (data : List Byte) (fuel : Nat) :
    ∀ rest : List Byte, ¬ pemEnd.drop 1 <:+: rest →
      pemDecodeLoop data fuel rest = (none, data) := by
  induction fuel with
  | zero => intro rest _; rfl
  | succ f ih =>
    intro rest h
    rw [pemDecodeLoop]
    simp only []
    split
    · rfl
    · rename_i rest1 heq
      have hs1 : rest1 <:+ rest := by
        split at heq
        · injection heq with heq
          subst heq
          exact List.drop_suffix _ _
        · split at heq
          · rename_i before after hcut
            injection heq with heq
            subst heq
            unfold bytesCut at hcut
            split at hcut
            · simp only [Option.some.injEq, Prod.mk.injEq] at hcut
              rw [← hcut.2]
              exact List.drop_suffix _ _
            · cases hcut
          · cases heq
      have h1 : ¬ pemEnd.drop 1 <:+: (getLine rest1).2 :=
        fun hi => h (hi.trans ((getLine_snd_suffix rest1).trans hs1).isInfix)
      split
      · exact ih _ h1
      · split
        · rfl
        · rename_i hh rest3 hhl
          have hs3 := headerLoop_suffix _ _ _ _ _ hhl
          have h3 : ¬ pemEnd.drop 1 <:+: rest3 := fun hi => h1 (hi.trans hs3.isInfix)
          rw [ends_none rest3 hh h3]
          exact ih _ h3

/-- No block is found in an input that does not hold `-----BEGIN `. -/
theorem pemDecodeLoop_no_begin (data : List Byte) (fuel : Nat) (rest : List Byte)
    (h : ¬ pemStart.drop 1 <:+: rest) : pemDecodeLoop data fuel rest = (none, data) := by
  cases fuel with
  | zero => rfl
  | succ f =>
    have h1 : hasPrefix rest (pemStart.drop 1) = false := by
      cases hp : hasPrefix rest (pemStart.drop 1) with
      | false => rfl
      | true =>
        unfold hasPrefix at hp
        exact absurd (List.isPrefixOf_iff_prefix.1 hp).isInfix h
    have h2 : bytesCut rest pemStart = none := by
      unfold bytesCut
      cases hi : bytesIndex pemStart rest with
      | none => rfl
      | some i =>
        exact absurd ((List.drop_suffix 1 pemStart).isInfix.trans
          (bytesIndex_some_occurs pemStart rest i hi)) h
    rw [pemDecodeLoop]
    simp only [h1, h2, Bool.false_eq_true, if_false]



/-- C10. `decode` fails with `"no PEM data to decode"` on every input in which `pem.Decode`
finds no block: so on every input that does not hold `-----BEGIN `, on every input that does
not hold `-----END ` (a block cut off before its END line), on the empty input and on
`---INVALID PEM---`. It fails with `"extra text after PEM data"` on every input made of the
text of a block followed by content that holds a byte other than space, tab, newline and
carriage return. -/
theorem C10_decode_failures :
    (∀ d, (pemDecode d).1 = none → decode d = .error "no PEM data to decode") ∧
    (∀ d, ¬ pemStart.drop 1 <:+: d → decode d = .error "no PEM data to decode") ∧
    (∀ d, ¬ pemEnd.drop 1 <:+: d → decode d = .error "no PEM data to decode") ∧
    decode [] = .error "no PEM data to decode" ∧
    decode (str "---INVALID PEM---") = .error "no PEM data to decode" ∧
    decode (str "-----BEGIN OTP-----\nSEVMTE8=\n") = .error "no PEM data to decode" ∧
    (∀ b t rest, encode b = .ok t →
      (∃ x ∈ rest, x ≠ (32 : Byte) ∧ x ≠ 9 ∧ x ≠ 10 ∧ x ≠ 13) →
      decode (t ++ rest) = .error "extra text after PEM data") ∧
    (∀ L b t rest, (10 : Byte) ∉ L → ((58 : Byte) ∉ L ∨ b ≠ []) → pemEncode ⟨L, b⟩ = .ok t →
      (∃ x ∈ rest, x ≠ (32 : Byte) ∧ x ≠ 9 ∧ x ≠ 10 ∧ x ≠ 13) →
      decode (t ++ rest) = .error "extra text after PEM data") ∧
    decode (str ("-----BEGIN OTP-----\nSEVMTE8=\n-----END OTP-----\n" ++
      "extra data which should not be in pem file\n")) =
      .error "extra text after PEM data" := by
  have hnone : ∀ d, (pemDecode d).1 = none → decode d = .error "no PEM data to decode" := by
    intro d h
    unfold decode
    split
    · rfl
    · rename_i blk rest heq
      rw [heq] at h
      cases h
  have hextra : ∀ L b t rest, (10 : Byte) ∉ L → ((58 : Byte) ∉ L ∨ b ≠ []) →
      pemEncode ⟨L, b⟩ = .ok t → (∃ x ∈ rest, x ≠ (32 : Byte) ∧ x ≠ 9 ∧ x ≠ 10 ∧ x ≠ 13) →
      decode (t ++ rest) = .error "extra text after PEM data" := by
    intro L b t rest hL hc ht hx
    rw [decode_pemEncode_append L b rest t hL hc ht, if_pos]
    obtain ⟨x, hx, _⟩ := hx
    intro h0
    rw [List.length_eq_zero.1 h0] at hx
    cases hx
  refine ⟨hnone, ?_, ?_, by decide, by decide, by decide, ?_, hextra, by decide⟩
  · intro d h
    apply hnone
    rw [pemDecode, pemDecodeLoop_no_begin d _ d h]
  · intro d h
    apply hnone
    rw [pemDecode, pemDecodeLoop_no_end d _ d h]
  · intro b t rest ht hx
    rw [encode_eq_pemEncode] at ht
    exact hextra (str "OTP") b t rest (by decide) (Or.inl (by decide)) ht hx

/-- Instance of C10: a text without a BEGIN line, a block cut off before its END line, and
the block of `"HELLO"` followed by one letter. -/
theorem C10_decode_failures_witness :
    decode (str "SEVMTE8=") = .error "no PEM data to decode" ∧
    decode (str "-----BEGIN OTP-----\nSEVMTE8=\n") = .error "no PEM data to decode" ∧
    decode (str "-----BEGIN OTP-----\nSEVMTE8=\n-----END OTP-----\n" ++ str "x") =
      .error "extra text after PEM data" :=
  ⟨C10_decode_failures.2.1 (str "SEVMTE8=") (by decide),
   C10_decode_failures.2.2.1 (str "-----BEGIN OTP-----\nSEVMTE8=\n") (by decide),
   C10_decode_failures.2.2.2.2.2.2.1 (str "HELLO")
     (str "-----BEGIN OTP-----\nSEVMTE8=\n-----END OTP-----\n") (str "x")
     (by decide) ⟨120, by decide, by decide⟩⟩

/-! ## The fuel of the loops is never used up -/

theorem skipNewlines_length_le (s : List Byte) : (skipNewlines s).length ≤ s.length := by
  unfold skipNewlines
  exact (List.dropWhile_suffix _).length_le

/-- The call `decodeQuantum` never gives back more input than it was given. -/
theorem decodeQuantumLoop_rest_length (src : List Byte) :
    ∀ dbuf : List Nat, (decodeQuantumLoop src dbuf).rest.length ≤ src.length := by
  induction src with
  | nil =>
    intro dbuf
    rw [decodeQuantumLoop]
    split
    · simp
    · split <;> simp
  | cons c src ih =>
    intro dbuf
    rw [decodeQuantumLoop]
    have hs := skipNewlines_length_le src
    split
    · simp
    · split
      · exact Nat.le_succ_of_le (ih _)
      · split
        · exact Nat.le_succ_of_le (ih _)
        · split
          · simp
          · split
            · simp
            · split
              · split
                · simp
                · rename_i d s hd
                  have h1 : (d :: s).length ≤ src.length := by rw [← hd]; exact hs
                  have h2 := skipNewlines_length_le s
                  simp only [List.length_cons] at h1 ⊢
                  split
                  · simp only [List.length_cons]
                    omega
                  · simp only []
                    omega
              · simp only [List.length_cons]
                omega

/-- On a non-empty input `decodeQuantum` uses up at least one byte. -/
theorem decodeQuantum_rest_length (c : Byte) (src : List Byte) :
    (decodeQuantum (c :: src)).rest.length ≤ src.length := by
  rw [decodeQuantum, decodeQuantumLoop]
  have hs := skipNewlines_length_le src
  rw [if_neg (by simp)]
  split
  · exact decodeQuantumLoop_rest_length src _
  · split
    · exact decodeQuantumLoop_rest_length src _
    · split
      · exact le_refl _
      · rw [if_pos (by simp)]

/-- The result of the decoding loop does not depend on the fuel, once the fuel is at least
the length of the input: `stdDecode` passes exactly that. -/
theorem stdDecodeLoop_fuel (f1 : Nat) :
    ∀ (f2 : Nat) (src acc : List Byte), src.length ≤ f1 → src.length ≤ f2 →
      stdDecodeLoop f1 src acc = stdDecodeLoop f2 src acc := by
  induction f1 with
  | zero =>
    intro f2 src acc h1 _
    have : src = [] := List.length_eq_zero.1 (by omega)
    subst this
    simp [stdDecodeLoop]
  | succ g1 ih =>
    intro f2 src acc h1 h2
    cases src with
    | nil => simp [stdDecodeLoop]
    | cons c s =>
      obtain ⟨g2, rfl⟩ : ∃ g2, f2 = g2 + 1 := ⟨f2 - 1, by simp at h2; omega⟩
      rw [stdDecodeLoop, stdDecodeLoop]
      split
      · rfl
      · have := decodeQuantum_rest_length c s
        simp only [List.length_cons] at h1 h2
        exact ih g2 _ _ (by omega) (by omega)

theorem headerLoop_fuel (f1 : Nat) :
    ∀ (f2 : Nat) (rest : List Byte) (hh : Bool), rest.length < f1 → rest.length < f2 →
      headerLoop f1 rest hh = headerLoop f2 rest hh := by
  induction f1 with
  | zero => intro f2 rest hh h; omega
  | succ g1 ih =>
    intro f2 rest hh h1 h2
    obtain ⟨g2, rfl⟩ : ∃ g2, f2 = g2 + 1 := ⟨f2 - 1, by omega⟩
    rw [headerLoop, headerLoop]
    split
    · rfl
    · rename_i hne
      split
      · rfl
      · have := getLine_snd_length rest (fun h0 => hne (by rw [h0]; rfl))
        exact ih g2 _ _ (by omega) (by omega)

theorem bytesIndex_add_le (sep : List Byte) :
    ∀ (s : List Byte) (i : Nat), bytesIndex sep s = some i → i + sep.length ≤ s.length := by
  intro s
  induction s with
  | nil =>
    intro i h
    rw [bytesIndex] at h
    split at h
    · rename_i hp
      injection h with h
      subst h
      have := (List.isPrefixOf_iff_prefix.1 hp).length_le
      omega
    · cases h
  | cons x s ih =>
    intro i h
    rw [bytesIndex] at h
    split at h
    · rename_i hp
      injection h with h
      subst h
      have := (List.isPrefixOf_iff_prefix.1 hp).length_le
      omega
    · cases hs : bytesIndex sep s with
      | none => simp [hs] at h
      | some k =>
        simp [hs] at h
        subst h
        have := ih k hs
        simp only [List.length_cons]
        omega

/-- The result of the outer loop of `pem.Decode` does not depend on the fuel, once the fuel
exceeds the length of the unread input: `pemDecode` passes one more than that. -/
theorem pemDecodeLoop_fuel (data : List Byte) (f1 : Nat) :
    ∀ (f2 : Nat) (rest : List Byte), rest.length < f1 → rest.length < f2 →
      pemDecodeLoop data f1 rest = pemDecodeLoop data f2 rest := by
  induction f1 with
  | zero => intro f2 rest h; omega
  | succ g1 ih =>
    intro f2 rest h1 h2
    obtain ⟨g2, rfl⟩ : ∃ g2, f2 = g2 + 1 := ⟨f2 - 1, by omega⟩
    have key : ∀ r : List Byte, r.length < rest.length →
        pemDecodeLoop data g1 r = pemDecodeLoop data g2 r :=
      fun r hr => ih g2 r (by omega) (by omega)
    rw [pemDecodeLoop, pemDecodeLoop]
    simp only []
    split
    · rfl
    · rename_i rest1 heq
      have hs1 : rest1.length < rest.length := by
        split at heq
        · rename_i hp
          injection heq with heq
          subst heq
          unfold hasPrefix at hp
          have := (List.isPrefixOf_iff_prefix.1 hp).length_le
          rw [List.length_drop]
          have h11 : (pemStart.drop 1).length = 11 := by decide
          have h12 : pemStart.length = 12 := by decide
          omega
        · split at heq
          · rename_i before after hcut
            injection heq with heq
            subst heq
            unfold bytesCut at hcut
            split at hcut
            · rename_i i hi
              simp only [Option.some.injEq, Prod.mk.injEq] at hcut
              rw [← hcut.2, List.length_drop]
              have := bytesIndex_add_le _ _ _ hi
              have h12 : pemStart.length = 12 := by decide
              omega
            · cases hcut
          · cases heq
      have hs2 : (getLine rest1).2.length < rest.length :=
        Nat.lt_of_le_of_lt (getLine_snd_suffix rest1).length_le hs1
      split
      · exact key _ hs2
      · split
        · rfl
        · rename_i hh rest3 hhl
          have hs3 : rest3.length < rest.length :=
            Nat.lt_of_le_of_lt (headerLoop_suffix _ _ _ _ _ hhl).length_le hs2
          split
          · exact key _ hs3
          · split
            · exact key _ hs3
            · split
              · exact key _ hs3
              · split
                · exact key _ hs3
                · split
                  · exact key _ hs3
                  · rfl

/-! ## `Encrypt` and the tail of the key -/

theorem Encrypt_ok (m K t : List Byte) (h : Encrypt m K = .ok t) :
    ∃ k, decode K = .ok k ∧ m.length ≤ k.length ∧ encode (xor m k) = .ok t := by
  unfold Encrypt at h
  cases hk : decode K with
  | error e =>
    rw [hk] at h
    cases h
  | ok k =>
    rw [hk] at h
    simp only [] at h
    split at h
    · cases h
    · rename_i hlen
      refine ⟨k, rfl, by omega, ?_⟩
      cases he : encode (xor m k) with
      | error e =>
        rw [he] at h
        cases h
      | ok e =>
        rw [he] at h
        exact h

theorem xorCopies_iff (a b : List Byte) :
    xorCopies a b = true ↔ a.length ≠ b.length := by
  unfold xorCopies
  simp only [Bool.or_eq_true, decide_eq_true_eq]
  split <;> omega

/-- C11, as stated, fails for a message shorter than the key: `"CAT"` under the key bytes
1, 2, 3, 4, 5 gives a ciphertext of five bytes, `xor` takes its `copy` case, and the last two
bytes of the ciphertext are the key bytes 4 and 5 unchanged. -/
theorem C11_counterexample :
    Encrypt (str "CAT") (str "-----BEGIN OTP-----\nAQIDBAU=\n-----END OTP-----\n") =
      .ok (str "-----BEGIN OTP-----\nQkNXBAU=\n-----END OTP-----\n") ∧
    decode (str "-----BEGIN OTP-----\nAQIDBAU=\n-----END OTP-----\n") = .ok [1, 2, 3, 4, 5] ∧
    decode (str "-----BEGIN OTP-----\nQkNXBAU=\n-----END OTP-----\n") =
      .ok [0x42, 0x43, 0x57, 4, 5] ∧
    ([0x42, 0x43, 0x57, 4, 5] : List Byte).length ≠ (str "CAT").length ∧
    xorCopies (str "CAT") [1, 2, 3, 4, 5] = true := by decide

/-- C11, amended. In every successful `Encrypt` call the decoded ciphertext has the length
of the key, which is at least the length of the message; it has the length of the message,
and `xor` takes none of its `copy` cases, exactly when the message is as long as the key.
The bytes before `len(m)` are message bytes XORed with key bytes, the bytes from `len(m)` on
are the key bytes copied unchanged. -/
theorem C11_encrypt_key_tail (m K t : List Byte) (h : Encrypt m K = .ok t) :
    ∃ k x, decode K = .ok k ∧ decode t = .ok x ∧ x = xor m k ∧
      x.length = k.length ∧ m.length ≤ k.length ∧
      (x.length = m.length ↔ m.length = k.length) ∧
      (xorCopies m k = false ↔ m.length = k.length) ∧
      (∀ (i : Nat) (a b : Byte), m[i]? = some a → k[i]? = some b →
        x[i]? = some (bxor a b)) ∧
      (∀ i : Nat, m.length ≤ i → x[i]? = k[i]?) := by
  obtain ⟨k, hk, hlen, henc⟩ := Encrypt_ok m K t h
  have hx : (xor m k).length = k.length := by
    rw [xor_length]
    omega
  refine ⟨k, xor m k, hk, decode_encode _ _ henc, rfl, hx, hlen, ?_, ?_,
    xor_getElem?_both m k, fun i hi => xor_getElem?_right m k i hi⟩
  · rw [hx]
    exact ⟨fun e => e.symm, fun e => e.symm⟩
  · have := xorCopies_iff m k
    cases hc : xorCopies m k with
    | false =>
      rw [hc] at this
      simp only [Bool.false_eq_true, false_iff, ne_eq, not_not] at this
      exact ⟨fun _ => this, fun _ => rfl⟩
    | true =>
      rw [hc] at this
      simp only [true_iff] at this
      exact ⟨fun e => Bool.noConfusion e, fun e => absurd e this⟩

/-- Instance of C11: `"CAT"` under the key bytes 1, 2, 3, 4, 5. -/
theorem C11_encrypt_key_tail_witness :
    ∃ k x, decode (str "-----BEGIN OTP-----\nAQIDBAU=\n-----END OTP-----\n") = .ok k ∧
      decode (str "-----BEGIN OTP-----\nQkNXBAU=\n-----END OTP-----\n") = .ok x ∧
      x = xor (str "CAT") k ∧ x.length = k.length ∧ (str "CAT").length ≤ k.length ∧
      (x.length = (str "CAT").length ↔ (str "CAT").length = k.length) ∧
      (xorCopies (str "CAT") k = false ↔ (str "CAT").length = k.length) ∧
      (∀ (i : Nat) (a b : Byte), (str "CAT")[i]? = some a → k[i]? = some b →
        x[i]? = some (bxor a b)) ∧
      (∀ i : Nat, (str "CAT").length ≤ i → x[i]? = k[i]?) :=
  C11_encrypt_key_tail (str "CAT") (str "-----BEGIN OTP-----\nAQIDBAU=\n-----END OTP-----\n")
    (str "-----BEGIN OTP-----\nQkNXBAU=\n-----END OTP-----\n") (by decide)

/-! ## No index of `xor` is out of range -/

theorem xorLoopChecked_eq (a b : List Byte) (fuel : Nat) :
    ∀ (i : Nat) (c : List Byte), c.length = max a.length b.length →
      xorLoopChecked a b fuel i c = some (xorLoop a b fuel i c) := by
  induction fuel with
  | zero => intro i c _; rfl
  | succ f ih =>
    intro i c hc
    rw [xorLoopChecked, xorLoop]
    by_cases h : i < a.length ∧ i < b.length
    · rw [if_pos h, if_pos h]
      have h1 : indexChecked a i = some (a.getD i 0) := by
        rw [indexChecked, if_pos h.1]
      have h2 : indexChecked b i = some (b.getD i 0) := by
        rw [indexChecked, if_pos h.2]
      have h3 : indexChecked c i = some (c.getD i 0) := by
        rw [indexChecked, if_pos (by omega)]
      rw [h1, h2, h3]
      exact ih _ _ (by simpa using hc)
    · rw [if_neg h, if_neg h]

theorem xorLoop_length (a b : List Byte) (fuel : Nat) :
    ∀ (i : Nat) (c : List Byte), (xorLoop a b fuel i c).length = c.length := by
  induction fuel with
  | zero => intro i c; rfl
  | succ f ih =>
    intro i c
    rw [xorLoop]
    split
    · rw [ih]
      simp
    · rfl

/-- Every index and slice expression of `xor` is in range: the checked `xor` never panics
and returns what `xor` returns. -/
theorem xorChecked_eq (a b : List Byte) : xorChecked a b = some (xor a b) := by
  unfold xorChecked xor
  simp only []
  generalize hn : (if b.length > a.length then b.length else a.length) = n
  have hmax : n = max a.length b.length := by
    rw [← hn]
    split <;> omega
  rw [xorLoopChecked_eq a b n 0 _ (by simp [hmax])]
  simp only []
  have hl : (xorLoop a b n 0 (List.replicate n 0)).length = n := by
    rw [xorLoop_length]
    simp
  by_cases h1 : n > a.length
  · rw [if_pos h1, if_pos h1, sliceFromChecked, if_pos (by omega), sliceFromChecked,
      if_pos (by omega)]
  · rw [if_neg h1, if_neg h1]
    by_cases h2 : n > b.length
    · rw [if_pos h2, if_pos h2, sliceFromChecked, if_pos (by omega), sliceFromChecked,
        if_pos (by omega)]
    · rw [if_neg h2, if_neg h2]

/-- C12. `Encrypt` and `Decrypt` never panic: every index and slice bound used by `xor` is
in range for all `a` and `b`, and every failure of `Encrypt` or `Decrypt` is returned as an
error value together with a nil result. -/
theorem C12_no_panic (a b : List Byte) :
    xorChecked a b = some (xor a b) ∧
    xorChecked [] [] = some [] ∧
    (∀ m K : List Byte,
      (∃ t, EncryptChecked m K = some (some t, none) ∧ Encrypt m K = .ok t) ∨
      (∃ e, EncryptChecked m K = some (none, some e) ∧ Encrypt m K = .error e)) ∧
    (∀ C K : List Byte,
      (∃ m, DecryptChecked C K = some (some m, none) ∧ Decrypt C K = .ok m) ∨
      (∃ e, DecryptChecked C K = some (none, some e) ∧ Decrypt C K = .error e)) := by
  refine ⟨xorChecked_eq a b, by decide, ?_, ?_⟩
  · intro m K
    unfold EncryptChecked Encrypt
    cases decode K with
    | error e => exact Or.inr ⟨_, rfl, rfl⟩
    | ok k =>
      simp only []
      split
      · exact Or.inr ⟨_, rfl, rfl⟩
      · rw [xorChecked_eq]
        simp only []
        cases encode (xor m k) with
        | error e => exact Or.inr ⟨_, rfl, rfl⟩
        | ok e => exact Or.inl ⟨_, rfl, rfl⟩
  · intro C K
    unfold DecryptChecked Decrypt
    cases decode C with
    | error e => exact Or.inr ⟨_, rfl, rfl⟩
    | ok c =>
      simp only []
      cases decode K with
      | error e => exact Or.inr ⟨_, rfl, rfl⟩
      | ok k =>
        simp only []
        split
        · exact Or.inr ⟨_, rfl, rfl⟩
        · rw [xorChecked_eq]
          exact Or.inl ⟨_, rfl, rfl⟩

/-! ## `Config.NewServer` -/

theorem templateFilesLoop_ok (glob : Glob) (gs : List (List Byte)) :
    ∀ acc : List (List Byte), (∀ p ∈ gs, ∃ m, glob.run p = .ok m) →
      ∃ files, templateFilesLoop glob gs acc = .ok files := by
  induction gs with
  | nil => intro acc _; exact ⟨acc, rfl⟩
  | cons g gs ih =>
    intro acc h
    obtain ⟨m, hm⟩ := h g (by simp)
    rw [templateFilesLoop, hm]
    exact ih _ (fun p hp => h p (by simp [hp]))

theorem templateFiles_ok (glob : Glob) : ∃ files, templateFiles glob = .ok files :=
  templateFilesLoop_ok glob _ [] glob.wellFormed

/-- The server that `NewServer` builds from a valid configuration. -/
theorem NewServer_ok (glob : Glob) (cfg : Config) (hl : cfg.Log ≠ none)
    (h1 : 0 < cfg.HTTPPort) (h2 : 0 < cfg.HTTPSPort) :
    ∃ data files, cfg.NewServer glob = .ok
      { toConfig := cfg, Data := data,
        httpsServer := ⟨str ":" ++ formatInt cfg.HTTPSPort, .handleHTTPS⟩,
        httpServer := ⟨str ":" ++ formatInt cfg.HTTPPort, .redirectToHTTPS⟩,
        templateFiles := files } := by
  obtain ⟨files, hf⟩ := templateFiles_ok glob
  unfold Config.NewServer
  rw [if_neg hl, if_neg (by omega), if_neg (by omega)]
  simp only [hf]
  exact ⟨_, _, rfl⟩

/-- C13. `Config.NewServer` fails if and only if the logger is nil, or `HTTPPort <= 0`, or
`HTTPSPort <= 0`; the checks are made in that order and the error names the first offending
field. A configuration with only one of the two ports set fails, and the ports 80/443 and
8001/8001 succeed with a logger, an HTTP server and an HTTPS server. -/
theorem C13_newServer (glob : Glob) (cfg : Config) :
    ((∃ e, cfg.NewServer glob = .error e) ↔
      (cfg.Log = none ∨ cfg.HTTPPort ≤ 0 ∨ cfg.HTTPSPort ≤ 0)) ∧
    (cfg.Log = none → cfg.NewServer glob = .error (str "missing logger")) ∧
    (cfg.Log ≠ none → cfg.HTTPPort ≤ 0 →
      cfg.NewServer glob = .error (str "invalid HTTP port: " ++ formatInt cfg.HTTPPort)) ∧
    (cfg.Log ≠ none → 0 < cfg.HTTPPort → cfg.HTTPSPort ≤ 0 →
      cfg.NewServer glob = .error (str "invalid HTTPS port: " ++ formatInt cfg.HTTPSPort)) ∧
    (∀ lg : Logger,
      (∃ e, Config.NewServer glob ⟨some lg, [], 80, 0, [], []⟩ = .error e) ∧
      (∃ e, Config.NewServer glob ⟨some lg, [], 0, 443, [], []⟩ = .error e) ∧
      (∃ s, Config.NewServer glob ⟨some lg, [], 80, 443, [], []⟩ = .ok s ∧
        s.Log = some lg ∧ s.httpServer.Addr = str ":80" ∧ s.httpsServer.Addr = str ":443") ∧
      (∃ s, Config.NewServer glob ⟨some lg, [], 8001, 8001, [], []⟩ = .ok s ∧
        s.Log = some lg ∧ s.httpServer.Addr = str ":8001" ∧
        s.httpsServer.Addr = str ":8001")) := by
  have e1 : cfg.Log = none → cfg.NewServer glob = .error (str "missing logger") := by
    intro h
    unfold Config.NewServer
    rw [if_pos h]
  have e2 : cfg.Log ≠ none → cfg.HTTPPort ≤ 0 →
      cfg.NewServer glob = .error (str "invalid HTTP port: " ++ formatInt cfg.HTTPPort) := by
    intro h h1
    unfold Config.NewServer
    rw [if_neg h, if_pos h1]
  have e3 : cfg.Log ≠ none → 0 < cfg.HTTPPort → cfg.HTTPSPort ≤ 0 →
      cfg.NewServer glob =
        .error (str "invalid HTTPS port: " ++ formatInt cfg.HTTPSPort) := by
    intro h h1 h2
    unfold Config.NewServer
    rw [if_neg h, if_neg (by omega), if_pos h2]
  refine ⟨⟨?_, ?_⟩, e1, e2, e3, ?_⟩
  · rintro ⟨e, he⟩
    by_contra hcon
    simp only [not_or, not_le] at hcon
    obtain ⟨data, files, hok⟩ := NewServer_ok glob cfg hcon.1 hcon.2.1 hcon.2.2
    rw [hok] at he
    cases he
  · intro h
    by_cases hl : cfg.Log = none
    · exact ⟨_, e1 hl⟩
    · by_cases h1 : cfg.HTTPPort ≤ 0
      · exact ⟨_, e2 hl h1⟩
      · have h2 : cfg.HTTPSPort ≤ 0 := by
          rcases h with h | h | h
          · exact absurd h hl
          · exact absurd h h1
          · exact h
        exact ⟨_, e3 hl (by omega) h2⟩
  · intro lg
    refine ⟨⟨_, rfl⟩, ⟨_, rfl⟩, ?_, ?_⟩
    · obtain ⟨data, files, hok⟩ := NewServer_ok glob ⟨some lg, [], 80, 443, [], []⟩
        (by simp) (show (0 : Int) < 80 by decide) (show (0 : Int) < 443 by decide)
      exact ⟨_, hok, rfl, show str ":" ++ formatInt 80 = str ":80" by decide,
        show str ":" ++ formatInt 443 = str ":443" by decide⟩
    · obtain ⟨data, files, hok⟩ := NewServer_ok glob ⟨some lg, [], 8001, 8001, [], []⟩
        (by simp) (show (0 : Int) < 8001 by decide) (show (0 : Int) < 8001 by decide)
      exact ⟨_, hok, rfl, show str ":" ++ formatInt 8001 = str ":8001" by decide,
        show str ":" ++ formatInt 8001 = str ":8001" by decide⟩

/-- Instance of C13: a file system without template files, and the configurations of
`TestNewServer` with the ports 80/0 and 80/443. -/
theorem C13_newServer_witness :
    Config.NewServer ⟨fun _ => .ok [], fun _ _ => ⟨[], rfl⟩⟩ ⟨none, [], 80, 443, [], []⟩ =
      .error (str "missing logger") ∧
    Config.NewServer ⟨fun _ => .ok [], fun _ _ => ⟨[], rfl⟩⟩
        ⟨some ⟨str "test"⟩, [], 80, 0, [], []⟩ =
      .error (str "invalid HTTPS port: " ++ formatInt 0) ∧
    ((∃ e, Config.NewServer ⟨fun _ => .ok [], fun _ _ => ⟨[], rfl⟩⟩
        ⟨some ⟨str "test"⟩, [], 80, 443, [], []⟩ = .error e) ↔
      ((some ⟨str "test"⟩ : Option Logger) = none ∨ (80 : Int) ≤ 0 ∨ (443 : Int) ≤ 0)) :=
  ⟨(C13_newServer ⟨fun _ => .ok [], fun _ _ => ⟨[], rfl⟩⟩
      ⟨none, [], 80, 443, [], []⟩).2.1 rfl,
   (C13_newServer ⟨fun _ => .ok [], fun _ _ => ⟨[], rfl⟩⟩
      ⟨some ⟨str "test"⟩, [], 80, 0, [], []⟩).2.2.2.1 (by simp) (by decide) (by decide),
   (C13_newServer ⟨fun _ => .ok [], fun _ _ => ⟨[], rfl⟩⟩
      ⟨some ⟨str "test"⟩, [], 80, 443, [], []⟩).1⟩

/-! ## The request handlers -/

theorem bytesIndex_singleton_isSome (c : Byte) (s : List Byte) :
    (bytesIndex [c] s).isSome = true ↔ c ∈ s := by
  induction s with
  | nil => simp [bytesIndex, List.isPrefixOf]
  | cons x s ih =>
    rw [bytesIndex]
    by_cases hx : c = x
    · subst hx
      simp [List.isPrefixOf]
    · have hp : ([c] : List Byte).isPrefixOf (x :: s) = false := by
        simp [List.isPrefixOf, hx]
      rw [hp]
      simp only [Bool.false_eq_true, if_false, Option.isSome_map', List.mem_cons, hx, false_or]
      exact ih

theorem stringsContains_colon (s : List Byte) :
    stringsContains s (str ":") = true ↔ (58 : Byte) ∈ s := by
  unfold stringsContains
  rw [show str ":" = [58] by decide]
  exact bytesIndex_singleton_isSome 58 s

theorem lastIndexByte_mem (c : Byte) (s : List Byte) (i : Nat)
    (h : lastIndexByte c s = some i) : c ∈ s := by
  induction s generalizing i with
  | nil => simp [lastIndexByte] at h
  | cons x s ih =>
    rw [lastIndexByte] at h
    cases hl : lastIndexByte c s with
    | some j => exact List.mem_cons_of_mem _ (ih j hl)
    | none =>
      rw [hl] at h
      simp only [] at h
      split at h
      · rename_i hx
        simp [hx]
      · cases h

theorem SplitHostPort_ok_mem (hostport h p : List Byte)
    (hs : SplitHostPort hostport = .ok (h, p)) : (58 : Byte) ∈ hostport := by
  unfold SplitHostPort at hs
  cases hl : lastIndexByte 58 hostport with
  | none =>
    rw [hl] at hs
    cases hs
  | some i => exact lastIndexByte_mem 58 hostport i hl

theorem hexEscapeNonASCII_ascii (s : List Byte) (h : ∀ b ∈ s, b.val < 128) :
    hexEscapeNonASCII s = s := by
  induction s with
  | nil => rfl
  | cons x s ih =>
    have hx : ¬ x.val ≥ 128 := by
      have := h x (by simp)
      omega
    have hs := ih (fun b hb => h b (by simp [hb]))
    unfold hexEscapeNonASCII at hs ⊢
    rw [List.flatMap_cons, if_neg hx, hs]
    rfl

/-- What `redirectToHTTPS` does for a host that it can use: a host without a colon, or a
host and port that `net.SplitHostPort` splits. -/
theorem redirectToHTTPS_eq (s : Server) (r : Request) (h : List Byte)
    (hHost : ((58 : Byte) ∉ r.Host ∧ h = r.Host) ∨ ∃ p, SplitHostPort r.Host = .ok (h, p)) :
    s.redirectToHTTPS r = ⟨false, .redirect (str "https://" ++
      (if s.HTTPSPort ≠ 443 ∧ s.HTTPPort ≠ s.HTTPSPort then h ++ s.httpsServer.Addr else h) ++
      r.Path) 307⟩ := by
  have hcond : (s.HTTPSPort ≠ 443 ∧ (!s.httpsOnly) = true) ↔
      (s.HTTPSPort ≠ 443 ∧ s.HTTPPort ≠ s.HTTPSPort) := by
    unfold Server.httpsOnly
    simp
  unfold Server.redirectToHTTPS
  rcases hHost with ⟨hno, rfl⟩ | ⟨p, hp⟩
  · have hc : stringsContains r.Host (str ":") = false := by
      cases hcc : stringsContains r.Host (str ":") with
      | false => rfl
      | true => exact absurd ((stringsContains_colon _).1 hcc) hno
    simp only [hc, Bool.false_eq_true, if_false, hcond]
  · have hc : stringsContains r.Host (str ":") = true :=
      (stringsContains_colon _).2 (SplitHostPort_ok_mem _ _ _ hp)
    simp only [hc, if_true, hp, hcond]

/-- C14. Redirect eligibility: `handleHTTPS` hands a request to `redirectToHTTPS` if and
only if the request has no TLS state and it is not the case that the server is in
single-port mode and some header name of the request begins with `Sec-`, whatever the method
and path. A request that arrived over TLS is never redirected. The header names `Accept`,
`DNT`, the empty name and `inSec-t` do not count, `Sec-Fetch-Mode:` does. -/
theorem C14_redirect_eligibility (s : Server) (r : Request) :
    ((r.TLS = false ∧ ¬ (s.httpsOnly = true ∧ s.hasSecHeader r = true)) →
      s.handleHTTPS r = s.redirectToHTTPS r) ∧
    (¬ (r.TLS = false ∧ ¬ (s.httpsOnly = true ∧ s.hasSecHeader r = true)) →
      s.handleHTTPS r =
        if r.Method = str "GET" then s.handleHTTPSGet r else ⟨false, s.httpError 405⟩) ∧
    (((∃ url code, (s.handleHTTPS r).action = .redirect url code) ∨
        (∃ e, (s.handleHTTPS r).action = .serverError e)) ↔
      (r.TLS = false ∧ ¬ (s.httpsOnly = true ∧ s.hasSecHeader r = true))) ∧
    (r.TLS = true → ∀ url code, (s.handleHTTPS r).action ≠ .redirect url code) ∧
    (s.httpsOnly = true ↔ s.HTTPPort = s.HTTPSPort) ∧
    (s.hasSecHeader r = true ↔ ∃ h ∈ r.Header, str "Sec-" <+: h.1) ∧
    s.hasSecHeader ⟨[], [], [], [], [(str "Accept", [])], false⟩ = false ∧
    s.hasSecHeader ⟨[], [], [], [], [(str "DNT", [])], false⟩ = false ∧
    s.hasSecHeader ⟨[], [], [], [], [(str "", [])], false⟩ = false ∧
    s.hasSecHeader ⟨[], [], [], [], [(str "inSec-t", [])], false⟩ = false ∧
    s.hasSecHeader ⟨[], [], [], [], [(str "sec-fetch-mode", [])], false⟩ = false ∧
    s.hasSecHeader ⟨[], [], [], [], [(str "Sec-Fetch-Mode:", [])], false⟩ = true := by
  have hc : (r.TLS = false ∧ (!s.httpsOnly || !s.hasSecHeader r) = true) ↔
      (r.TLS = false ∧ ¬ (s.httpsOnly = true ∧ s.hasSecHeader r = true)) := by
    cases s.httpsOnly <;> cases s.hasSecHeader r <;> simp
  have h1 : (r.TLS = false ∧ ¬ (s.httpsOnly = true ∧ s.hasSecHeader r = true)) →
      s.handleHTTPS r = s.redirectToHTTPS r := by
    intro h
    unfold Server.handleHTTPS
    rw [if_pos (hc.2 h)]
  have h2 : ¬ (r.TLS = false ∧ ¬ (s.httpsOnly = true ∧ s.hasSecHeader r = true)) →
      s.handleHTTPS r =
        if r.Method = str "GET" then s.handleHTTPSGet r else ⟨false, s.httpError 405⟩ := by
    intro h
    unfold Server.handleHTTPS
    rw [if_neg (fun hh => h (hc.1 hh))]
  have hred : ∀ r : Request, (∃ url code, (s.redirectToHTTPS r).action = .redirect url code) ∨
      (∃ e, (s.redirectToHTTPS r).action = .serverError e) := by
    intro r
    unfold Server.redirectToHTTPS
    simp only []
    split
    · exact Or.inr ⟨_, rfl⟩
    · exact Or.inl ⟨_, _, rfl⟩
  have hget : ∀ r : Request, (∀ url code, (s.handleHTTPSGet r).action ≠ .redirect url code) ∧
      (∀ e, (s.handleHTTPSGet r).action ≠ .serverError e) := by
    intro r
    unfold Server.handleHTTPSGet Server.httpError
    simp only []
    split
    · exact ⟨fun _ _ h => Action.noConfusion h, fun _ h => Action.noConfusion h⟩
    · split
      · exact ⟨fun _ _ h => Action.noConfusion h, fun _ h => Action.noConfusion h⟩
      · split
        · exact ⟨fun _ _ h => Action.noConfusion h, fun _ h => Action.noConfusion h⟩
        · exact ⟨fun _ _ h => Action.noConfusion h, fun _ h => Action.noConfusion h⟩
  have hother : ¬ (r.TLS = false ∧ ¬ (s.httpsOnly = true ∧ s.hasSecHeader r = true)) →
      (∀ url code, (s.handleHTTPS r).action ≠ .redirect url code) ∧
      (∀ e, (s.handleHTTPS r).action ≠ .serverError e) := by
    intro h
    rw [h2 h]
    split
    · exact hget r
    · unfold Server.httpError
      exact ⟨fun _ _ h => Action.noConfusion h, fun _ h => Action.noConfusion h⟩
  refine ⟨h1, h2, ⟨?_, ?_⟩, ?_, ?_, ?_, ?_, ?_, ?_, ?_, ?_, ?_⟩
  · intro h
    by_contra hcon
    obtain ⟨n1, n2⟩ := hother hcon
    rcases h with ⟨url, code, h⟩ | ⟨e, h⟩
    · exact n1 url code h
    · exact n2 e h
  · intro h
    rw [h1 h]
    exact hred r
  · intro htls
    exact (hother (fun h => by rw [htls] at h; exact Bool.noConfusion h.1)).1
  · unfold Server.httpsOnly
    simp
  · unfold Server.hasSecHeader hasPrefix
    simp only [List.any_eq_true, List.isPrefixOf_iff_prefix]
  · unfold Server.hasSecHeader
    decide
  · unfold Server.hasSecHeader
    decide
  · unfold Server.hasSecHeader
    decide
  · unfold Server.hasSecHeader
    decide
  · unfold Server.hasSecHeader
    decide
  · unfold Server.hasSecHeader
    decide



/-- Instance of C14: a server in single-port mode; a plain request without headers is
redirected, one with the header `Sec-Fetch-Mode` is not. -/
theorem C14_redirect_eligibility_witness :
    Server.handleHTTPS
        { Log := none, Version := [], HTTPPort := 8001, HTTPSPort := 8001, TLSCertFile := [],
          TLSKeyFile := [], Data := [], httpsServer := ⟨str ":8001", .handleHTTPS⟩,
          httpServer := ⟨str ":8001", .redirectToHTTPS⟩, templateFiles := [] }
        ⟨str "GET", str "example.com", str "/", [], [], false⟩ =
      Server.redirectToHTTPS
        { Log := none, Version := [], HTTPPort := 8001, HTTPSPort := 8001, TLSCertFile := [],
          TLSKeyFile := [], Data := [], httpsServer := ⟨str ":8001", .handleHTTPS⟩,
          httpServer := ⟨str ":8001", .redirectToHTTPS⟩, templateFiles := [] }
        ⟨str "GET", str "example.com", str "/", [], [], false⟩ ∧
    Server.handleHTTPS
        { Log := none, Version := [], HTTPPort := 8001, HTTPSPort := 8001, TLSCertFile := [],
          TLSKeyFile := [], Data := [], httpsServer := ⟨str ":8001", .handleHTTPS⟩,
          httpServer := ⟨str ":8001", .redirectToHTTPS⟩, templateFiles := [] }
        ⟨str "POST", str "example.com", str "/", [], [(str "Sec-Fetch-Mode", [])], false⟩ =
      (if str "POST" = str "GET" then
        Server.handleHTTPSGet
          { Log := none, Version := [], HTTPPort := 8001, HTTPSPort := 8001, TLSCertFile := [],
            TLSKeyFile := [], Data := [], httpsServer := ⟨str ":8001", .handleHTTPS⟩,
            httpServer := ⟨str ":8001", .redirectToHTTPS⟩, templateFiles := [] }
          ⟨str "POST", str "example.com", str "/", [], [(str "Sec-Fetch-Mode", [])], false⟩
      else ⟨false, Server.httpError
          { Log := none, Version := [], HTTPPort := 8001, HTTPSPort := 8001, TLSCertFile := [],
            TLSKeyFile := [], Data := [], httpsServer := ⟨str ":8001", .handleHTTPS⟩,
            httpServer := ⟨str ":8001", .redirectToHTTPS⟩, templateFiles := [] } 405⟩) :=
  ⟨(C14_redirect_eligibility _ _).1 (by decide), (C14_redirect_eligibility _ _).2.1 (by decide)⟩

/-- C15, as stated, fails for a path with a byte that is not ASCII: `http.Redirect` writes
such a byte into the `Location` header as `%` and two hexadecimal digits. For the host
`example.com:8000`, the ports 8000/8001 and the path `/é` (bytes 2f c3 a9) the header is
`https://example.com:8001/%c3%a9`. -/
theorem C15_counterexample :
    SplitHostPort (str "example.com:8000") = .ok (str "example.com", str "8000") ∧
    (Server.redirectToHTTPS
        { Log := some ⟨str "test"⟩, Version := [], HTTPPort := 8000, HTTPSPort := 8001,
          TLSCertFile := [], TLSKeyFile := [], Data := [],
          httpsServer := ⟨str ":8001", .handleHTTPS⟩,
          httpServer := ⟨str ":8000", .redirectToHTTPS⟩, templateFiles := [] }
        ⟨str "GET", str "example.com:8000", [0x2f, 0xc3, 0xa9], [], [], false⟩).action.location =
      some (str "https://example.com:8001/%c3%a9") ∧
    str "https://example.com:8001/%c3%a9" ≠
      str "https://" ++ str "example.com" ++ (str ":" ++ formatInt 8001) ++
        [0x2f, 0xc3, 0xa9] := by decide

/-- C15, amended. Redirect target: for every request whose Host is a host `h` without a
colon or a well-formed `h:p`, `redirectToHTTPS` calls `http.Redirect` with status 307 and
the URL `"https://" + h + s + path`, where `s` is `":"` and the decimal HTTPS port when
`HTTPSPort != 443` and the server is not in single-port mode, and empty otherwise. The
`Location` header is that URL with every non-ASCII byte written as `%` and two hexadecimal
digits, so the URL itself when it is ASCII. The port `p` and the query string are not
carried over. -/
theorem C15_redirect_target (s : Server) (r : Request) (h : List Byte)
    (hAddr : s.httpsServer.Addr = str ":" ++ formatInt s.HTTPSPort)
    (hHost : ((58 : Byte) ∉ r.Host ∧ h = r.Host) ∨ ∃ p, SplitHostPort r.Host = .ok (h, p)) :
    s.redirectToHTTPS r = ⟨false, .redirect (str "https://" ++ h ++
      (if s.HTTPSPort ≠ 443 ∧ s.httpsOnly = false then str ":" ++ formatInt s.HTTPSPort
        else []) ++ r.Path) 307⟩ ∧
    (s.redirectToHTTPS r).action.status = some 307 ∧
    (s.redirectToHTTPS r).action.location = some (hexEscapeNonASCII (str "https://" ++ h ++
      (if s.HTTPSPort ≠ 443 ∧ s.httpsOnly = false then str ":" ++ formatInt s.HTTPSPort
        else []) ++ r.Path)) ∧
    ((∀ b ∈ str "https://" ++ h ++
        (if s.HTTPSPort ≠ 443 ∧ s.httpsOnly = false then str ":" ++ formatInt s.HTTPSPort
          else []) ++ r.Path, b.val < 128) →
      (s.redirectToHTTPS r).action.location = some (str "https://" ++ h ++
        (if s.HTTPSPort ≠ 443 ∧ s.httpsOnly = false then str ":" ++ formatInt s.HTTPSPort
          else []) ++ r.Path)) ∧
    (∀ q, s.redirectToHTTPS { r with RawQuery := q } = s.redirectToHTTPS r) := by
  have hmain : s.redirectToHTTPS r = ⟨false, .redirect (str "https://" ++ h ++
      (if s.HTTPSPort ≠ 443 ∧ s.httpsOnly = false then str ":" ++ formatInt s.HTTPSPort
        else []) ++ r.Path) 307⟩ := by
    rw [redirectToHTTPS_eq s r h hHost, hAddr]
    have hcond : (s.HTTPSPort ≠ 443 ∧ s.httpsOnly = false) ↔
        (s.HTTPSPort ≠ 443 ∧ s.HTTPPort ≠ s.HTTPSPort) := by
      unfold Server.httpsOnly
      simp
    by_cases hc : s.HTTPSPort ≠ 443 ∧ s.HTTPPort ≠ s.HTTPSPort
    · rw [if_pos hc, if_pos (hcond.2 hc)]
      simp only [List.append_assoc]
    · rw [if_neg hc, if_neg (fun hh => hc (hcond.1 hh))]
      simp only [List.append_nil]
  refine ⟨hmain, ?_, ?_, ?_, ?_⟩
  · rw [hmain]
    rfl
  · rw [hmain]
    rfl
  · intro hascii
    rw [hmain]
    show some (hexEscapeNonASCII _) = _
    rw [hexEscapeNonASCII_ascii _ hascii]
  · intro q
    rfl

/-- Instance of C15: the last two cases of `TestRedirectToHTTPS`. -/
theorem C15_redirect_target_witness :
    Server.redirectToHTTPS
        { Log := some ⟨str "test"⟩, Version := [], HTTPPort := 8000, HTTPSPort := 8001,
          TLSCertFile := [], TLSKeyFile := [], Data := [],
          httpsServer := ⟨str ":" ++ formatInt 8001, .handleHTTPS⟩,
          httpServer := ⟨str ":8000", .redirectToHTTPS⟩, templateFiles := [] }
        ⟨str "GET", str "example.com:8000", str "/", [], [], false⟩ =
      ⟨false, .redirect (str "https://" ++ str "example.com" ++
        (if (8001 : Int) ≠ 443 ∧ Server.httpsOnly
            { Log := some ⟨str "test"⟩, Version := [], HTTPPort := 8000, HTTPSPort := 8001,
              TLSCertFile := [], TLSKeyFile := [], Data := [],
              httpsServer := ⟨str ":" ++ formatInt 8001, .handleHTTPS⟩,
              httpServer := ⟨str ":8000", .redirectToHTTPS⟩, templateFiles := [] } = false
          then str ":" ++ formatInt 8001 else []) ++ str "/") 307⟩ ∧
    (Server.redirectToHTTPS
        { Log := some ⟨str "test"⟩, Version := [], HTTPPort := 8000, HTTPSPort := 8001,
          TLSCertFile := [], TLSKeyFile := [], Data := [],
          httpsServer := ⟨str ":" ++ formatInt 8001, .handleHTTPS⟩,
          httpServer := ⟨str ":8000", .redirectToHTTPS⟩, templateFiles := [] }
        ⟨str "GET", str "example.com:8000", str "/", [], [], false⟩).action.location =
      some (str "https://example.com:8001/") ∧
    (Server.redirectToHTTPS
        { Log := some ⟨str "test"⟩, Version := [], HTTPPort := 8000, HTTPSPort := 443,
          TLSCertFile := [], TLSKeyFile := [], Data := [],
          httpsServer := ⟨str ":" ++ formatInt 443, .handleHTTPS⟩,
          httpServer := ⟨str ":8000", .redirectToHTTPS⟩, templateFiles := [] }
        ⟨str "GET", str "example.com:8000", str "/network_check.html", [], [],
          false⟩).action.location =
      some (str "https://example.com/network_check.html") :=
  ⟨(C15_redirect_target _ _ (str "example.com") rfl
      (Or.inr ⟨str "8000", by decide⟩)).1,
   ((C15_redirect_target _ _ (str "example.com") rfl
      (Or.inr ⟨str "8000", by decide⟩)).2.2.1).trans (by decide),
   ((C15_redirect_target _ _ (str "example.com") rfl
      (Or.inr ⟨str "8000", by decide⟩)).2.2.1).trans (by decide)⟩

/-- C16. Redirect failure: for every request whose Host contains a colon but cannot be
split into a host and a port, `redirectToHTTPS` of a server with a logger sends no redirect;
it logs the error and
answers with status 500 and a body that holds the error text, which begins
`could not redirect to https`. The host `example.com:8000:::` is such a host. -/
theorem C16_redirect_failure (s : Server) (r : Request) (e : List Byte)
    (_hlog : s.Log ≠ none) (hc : (58 : Byte) ∈ r.Host)
    (he : SplitHostPort r.Host = .error e) :
    s.redirectToHTTPS r = ⟨false, .serverError (str "could not redirect to https: " ++ e)⟩ ∧
    (s.redirectToHTTPS r).action.status = some 500 ∧
    (s.redirectToHTTPS r).action.location = none ∧
    (s.redirectToHTTPS r).action.errorBody =
      some (str "could not redirect to https: " ++ e ++ str "\n") ∧
    (s.redirectToHTTPS r).action.logged =
      [str "server error: " ++ (str "could not redirect to https: " ++ e)] ∧
    SplitHostPort (str "example.com:8000:::") =
      .error (str "address example.com:8000:::: too many colons in address") := by
  have hmain : s.redirectToHTTPS r =
      ⟨false, .serverError (str "could not redirect to https: " ++ e)⟩ := by
    unfold Server.redirectToHTTPS Server.handleError
    simp only [(stringsContains_colon _).2 hc, if_true, he]
  refine ⟨hmain, ?_, ?_, ?_, ?_, by decide⟩ <;> rw [hmain] <;> rfl

/-- Instance of C16: the second case of `TestRedirectToHTTPS`. -/
theorem C16_redirect_failure_witness :
    Server.redirectToHTTPS
        { Log := some ⟨str "test"⟩, Version := [], HTTPPort := 0, HTTPSPort := 0,
          TLSCertFile := [], TLSKeyFile := [], Data := [],
          httpsServer := ⟨str ":0", .handleHTTPS⟩,
          httpServer := ⟨str ":0", .redirectToHTTPS⟩, templateFiles := [] }
        ⟨str "GET", str "example.com:8000:::", str "/", [], [], false⟩ =
      ⟨false, .serverError (str "could not redirect to https: " ++
        str "address example.com:8000:::: too many colons in address")⟩ :=
  (C16_redirect_failure _ _ _ (by decide) (by decide) (by decide)).1

/-- C17. Method and path policy: for every request that `handleHTTPS` does not redirect, a
method other than GET yields 405 Method Not Allowed whatever the path, and a GET yields 404
Not Found unless the path is exactly one of the nine content paths, for which the request is
handed to the template or the file server. -/
theorem C17_method_and_path (s : Server) (r : Request)
    (hno : ¬ (r.TLS = false ∧ ¬ (s.httpsOnly = true ∧ s.hasSecHeader r = true))) :
    (r.Method ≠ str "GET" →
      s.handleHTTPS r = ⟨false, .error (str "Method Not Allowed") 405⟩ ∧
      (s.handleHTTPS r).action.status = some 405) ∧
    (r.Method = str "GET" →
      r.Path ∉ [str "/", str "/serviceWorker.js", str "/manifest.json", str "/favicon.svg",
        str "/network_check.html", str "/wasm_exec.js", str "/main.wasm", str "/favicon.png",
        str "/robots.txt"] →
      (s.handleHTTPS r).action = .error (str "Not Found") 404 ∧
      (s.handleHTTPS r).action.status = some 404) ∧
    (r.Method = str "GET" →
      r.Path ∈ [str "/", str "/serviceWorker.js", str "/manifest.json", str "/favicon.svg",
        str "/network_check.html", str "/wasm_exec.js", str "/main.wasm", str "/favicon.png",
        str "/robots.txt"] →
      (∃ name, (s.handleHTTPS r).action = .template name) ∨
      (∃ name, (s.handleHTTPS r).action = .file name)) := by
  have hc : ¬ (r.TLS = false ∧ (!s.httpsOnly || !s.hasSecHeader r) = true) := by
    intro h
    apply hno
    refine ⟨h.1, ?_⟩
    have h2 := h.2
    cases h3 : s.httpsOnly <;> cases h4 : s.hasSecHeader r <;> simp [h3, h4] at h2 ⊢
  refine ⟨?_, ?_, ?_⟩
  · intro hm
    have : s.handleHTTPS r = ⟨false, .error (str "Method Not Allowed") 405⟩ := by
      unfold Server.handleHTTPS Server.httpError
      rw [if_neg hc, if_neg hm]
      rfl
    rw [this]
    exact ⟨rfl, rfl⟩
  · intro hm hp
    simp only [List.mem_cons, List.mem_singleton, List.not_mem_nil, or_false, not_or] at hp
    obtain ⟨p1, p2, p3, p4, p5, p6, p7, p8, p9⟩ := hp
    have : (s.handleHTTPS r).action = .error (str "Not Found") 404 := by
      unfold Server.handleHTTPS Server.handleHTTPSGet Server.httpError
      rw [if_neg hc, if_pos hm]
      simp only []
      rw [if_neg (by tauto), if_neg (by tauto), if_neg (by tauto)]
      rfl
    rw [this]
    exact ⟨rfl, rfl⟩
  · intro hm hp
    simp only [List.mem_cons, List.mem_singleton, List.not_mem_nil, or_false] at hp
    unfold Server.handleHTTPS Server.handleHTTPSGet
    rw [if_neg hc, if_pos hm]
    simp only []
    split
    · exact Or.inl ⟨_, rfl⟩
    · split
      · exact Or.inr ⟨_, rfl⟩
      · split
        · exact Or.inr ⟨_, rfl⟩
        · rename_i n1 n2 n3
          exfalso
          tauto

/-- Instance of C17: over TLS, a POST to an unknown path gives 405 and a GET of
`/Manifest.json`, which differs in case from a content path, gives 404. -/
theorem C17_method_and_path_witness :
    Server.handleHTTPS
        { Log := some ⟨str "test"⟩, Version := [], HTTPPort := 80, HTTPSPort := 443,
          TLSCertFile := [], TLSKeyFile := [], Data := [],
          httpsServer := ⟨str ":443", .handleHTTPS⟩,
          httpServer := ⟨str ":80", .redirectToHTTPS⟩, templateFiles := [] }
        ⟨str "POST", str "example.com", str "/unknown", [], [], true⟩ =
      ⟨false, .error (str "Method Not Allowed") 405⟩ ∧
    (Server.handleHTTPS
        { Log := some ⟨str "test"⟩, Version := [], HTTPPort := 80, HTTPSPort := 443,
          TLSCertFile := [], TLSKeyFile := [], Data := [],
          httpsServer := ⟨str ":443", .handleHTTPS⟩,
          httpServer := ⟨str ":80", .redirectToHTTPS⟩, templateFiles := [] }
        ⟨str "GET", str "example.com", str "/Manifest.json", [], [], true⟩).action =
      .error (str "Not Found") 404 :=
  ⟨((C17_method_and_path _ _ (by decide)).1 (by decide)).1,
   ((C17_method_and_path _ _ (by decide)).2.1 (by decide) (by decide)).1⟩

/-! ## `Stop` and `Run` -/

/-- C18. `Stop` of a server with a logger shuts down both servers under one context with a
timeout of 5 seconds, the
HTTPS server first, and the HTTP server also when the HTTPS shutdown fails. It returns the
HTTPS shutdown error if there is one, otherwise the HTTP shutdown error if there is one,
otherwise nil, and it logs `server stopped successfully` if and only if both shutdowns
returned no error. -/
theorem C18_stop (s : Server) (net : Net) (ctx : Context) (_hlog : s.Log ≠ none) :
    (s.Stop net ctx).2.take 2 =
      [.shutdown s.httpsServer (.withTimeout ctx 5000000000),
        .shutdown s.httpServer (.withTimeout ctx 5000000000)] ∧
    (∀ e ∈ (s.Stop net ctx).2.drop 2, ∀ srv c, e ≠ .shutdown srv c) ∧
    (s.Stop net ctx).1 =
      (match net.shutdown s.httpsServer (.withTimeout ctx 5000000000) with
      | some err => some err
      | none => net.shutdown s.httpServer (.withTimeout ctx 5000000000)) ∧
    (Event.log (str "server stopped successfully") ∈ (s.Stop net ctx).2 ↔
      net.shutdown s.httpsServer (.withTimeout ctx 5000000000) = none ∧
      net.shutdown s.httpServer (.withTimeout ctx 5000000000) = none) ∧
    ((s.Stop net ctx).1 = none ↔
      Event.log (str "server stopped successfully") ∈ (s.Stop net ctx).2) := by
  unfold Server.Stop
  simp only [show 5 * Second = 5000000000 from rfl]
  cases h1 : net.shutdown s.httpsServer (.withTimeout ctx 5000000000) with
  | some e1 => simp
  | none =>
    cases h2 : net.shutdown s.httpServer (.withTimeout ctx 5000000000) with
    | some e2 => simp
    | none => simp

/-- Instance of C18: the HTTPS shutdown times out and the HTTP shutdown succeeds. -/
theorem C18_stop_witness :
    Event.cancel (.withTimeout .given 5000000000) ≠
      Event.shutdown ⟨str ":80", .redirectToHTTPS⟩ (.withTimeout .given 5000000000) ∧
    (Server.Stop
        { Log := some ⟨str "test"⟩, Version := [], HTTPPort := 80, HTTPSPort := 443,
          TLSCertFile := [], TLSKeyFile := [], Data := [],
          httpsServer := ⟨str ":443", .handleHTTPS⟩,
          httpServer := ⟨str ":80", .redirectToHTTPS⟩, templateFiles := [] }
        ⟨fun srv _ => if srv.Addr = str ":443" then some (str "context deadline exceeded")
            else none,
          fun _ _ => none, fun _ => none⟩ .given).1 =
      some (str "context deadline exceeded") :=
  ⟨(C18_stop
      { Log := some ⟨str "test"⟩, Version := [], HTTPPort := 80, HTTPSPort := 443,
        TLSCertFile := [], TLSKeyFile := [], Data := [],
        httpsServer := ⟨str ":443", .handleHTTPS⟩,
        httpServer := ⟨str ":80", .redirectToHTTPS⟩, templateFiles := [] }
      ⟨fun srv _ => if srv.Addr = str ":443" then some (str "context deadline exceeded")
          else none,
        fun _ _ => none, fun _ => none⟩ .given (by decide)).2.1
      (.cancel (.withTimeout .given 5000000000)) (by decide) _ _,
   ((C18_stop _ _ _ (by decide)).2.2.1).trans (by decide)⟩

/-- C19. Listener results: each task started by `Run` on a server with a logger, run to its
end, sends at most one value to the channel. The HTTPS task sends exactly one: in dual-port mode, when loading the
key pair fails, the value is the load error and the TLS listener is not started; in
single-port mode the key pair is not loaded and a plain listener is started. The HTTP task
sends one value in dual-port mode and none in single-port mode, where the HTTP listener is
not started. So at most 2 values are sent, which is the capacity of the channel. -/
theorem C19_listener_results (s : Server) (net : Net) (_hlog : s.Log ≠ none) :
    sends (s.Run net).httpTask ≤ 1 ∧ sends (s.Run net).httpsTask = 1 ∧
    (s.httpsOnly = false → ∀ err, net.loadX509KeyPair s.TLSCertFile s.TLSKeyFile = some err →
      (s.Run net).httpsTask.filter (fun e => match e with | .log _ => false | _ => true) =
        [.loadX509KeyPair s.TLSCertFile s.TLSKeyFile, .send (some err)]) ∧
    (s.httpsOnly = false → net.loadX509KeyPair s.TLSCertFile s.TLSKeyFile = none →
      (s.Run net).httpsTask.filter (fun e => match e with | .log _ => false | _ => true) =
        [.loadX509KeyPair s.TLSCertFile s.TLSKeyFile,
          .listenAndServeTLS s.httpsServer s.TLSCertFile s.TLSKeyFile,
          .send (net.serve s.httpsServer)]) ∧
    (s.httpsOnly = true →
      (s.Run net).httpsTask.filter (fun e => match e with | .log _ => false | _ => true) =
        [.listenAndServe s.httpsServer, .send (net.serve s.httpsServer)]) ∧
    (s.httpsOnly = false →
      (s.Run net).httpTask = [.listenAndServe s.httpServer, .send (net.serve s.httpServer)] ∧
      sends (s.Run net).httpTask = 1) ∧
    (s.httpsOnly = true → (s.Run net).httpTask = [] ∧ sends (s.Run net).httpTask = 0) ∧
    (s.Run net).capacity = 2 ∧
    sends (s.Run net).httpTask + sends (s.Run net).httpsTask ≤ (s.Run net).capacity := by
  unfold Server.Run Server.runHTTPServer Server.runHTTPSServer sends
  cases ho : s.httpsOnly with
  | true =>
    simp
    split <;> simp
  | false =>
    cases hl : net.loadX509KeyPair s.TLSCertFile s.TLSKeyFile with
    | some err => simp
    | none => simp

/-- Instance of C19: a dual-port server whose key pair does not load, and a single-port
server. -/
theorem C19_listener_results_witness :
    (Server.Run
        { Log := some ⟨str "test"⟩, Version := [], HTTPPort := 80, HTTPSPort := 443,
          TLSCertFile := str "cert", TLSKeyFile := str "key", Data := [],
          httpsServer := ⟨str ":443", .handleHTTPS⟩,
          httpServer := ⟨str ":80", .redirectToHTTPS⟩, templateFiles := [] }
        ⟨fun _ _ => none, fun _ _ => some (str "no such file"),
          fun _ => some (str "closed")⟩).httpsTask.filter
        (fun e => match e with | .log _ => false | _ => true) =
      [.loadX509KeyPair (str "cert") (str "key"), .send (some (str "no such file"))] ∧
    (Server.Run
        { Log := some ⟨str "test"⟩, Version := [], HTTPPort := 8001, HTTPSPort := 8001,
          TLSCertFile := [], TLSKeyFile := [], Data := [],
          httpsServer := ⟨str ":8001", .handleHTTPS⟩,
          httpServer := ⟨str ":8001", .redirectToHTTPS⟩, templateFiles := [] }
        ⟨fun _ _ => none, fun _ _ => none, fun _ => some (str "closed")⟩).httpTask = [] :=
  ⟨(C19_listener_results _ _ (by decide)).2.2.1 (by decide) (str "no such file") rfl,
   ((C19_listener_results _ _ (by decide)).2.2.2.2.2.2.1 (by decide)).1⟩

/-- C20. Every server returned by `Config.NewServer` carries the given configuration
unchanged and has the HTTP server address `":" + HTTPPort` and the HTTPS server address
`":" + HTTPSPort`, in decimal. So `httpsOnly()` on that server is true exactly when
`cfg.HTTPPort == cfg.HTTPSPort`, true for 8001/8001 and false for 80/443, and the port that
`redirectToHTTPS` appends is the configured HTTPS port. -/
theorem C20_newServer_invariant (glob : Glob) (cfg : Config) (s : Server)
    (h : cfg.NewServer glob = .ok s) :
    s.toConfig = cfg ∧
    s.httpServer.Addr = str ":" ++ formatInt cfg.HTTPPort ∧
    s.httpsServer.Addr = str ":" ++ formatInt cfg.HTTPSPort ∧
    (s.httpsOnly = true ↔ cfg.HTTPPort = cfg.HTTPSPort) ∧
    (∀ r : Request, (58 : Byte) ∉ r.Host →
      s.redirectToHTTPS r = ⟨false, .redirect (str "https://" ++ r.Host ++
        (if cfg.HTTPSPort ≠ 443 ∧ cfg.HTTPPort ≠ cfg.HTTPSPort then
          str ":" ++ formatInt cfg.HTTPSPort else []) ++ r.Path) 307⟩) ∧
    (∀ lg : Logger, ∀ s1, Config.NewServer glob ⟨some lg, [], 8001, 8001, [], []⟩ = .ok s1 →
      s1.httpsOnly = true) ∧
    (∀ lg : Logger, ∀ s2, Config.NewServer glob ⟨some lg, [], 80, 443, [], []⟩ = .ok s2 →
      s2.httpsOnly = false) := by
  have key : ∀ (cfg : Config) (s : Server), cfg.NewServer glob = .ok s →
      s.toConfig = cfg ∧ s.httpServer.Addr = str ":" ++ formatInt cfg.HTTPPort ∧
      s.httpsServer.Addr = str ":" ++ formatInt cfg.HTTPSPort := by
    intro cfg s h
    have hl : cfg.Log ≠ none := by
      intro h0
      unfold Config.NewServer at h
      rw [if_pos h0] at h
      cases h
    have h1 : 0 < cfg.HTTPPort := by
      by_contra hc
      unfold Config.NewServer at h
      rw [if_neg hl, if_pos (by omega)] at h
      cases h
    have h2 : 0 < cfg.HTTPSPort := by
      by_contra hc
      unfold Config.NewServer at h
      rw [if_neg hl, if_neg (by omega), if_pos (by omega)] at h
      cases h
    obtain ⟨data, files, hok⟩ := NewServer_ok glob cfg hl h1 h2
    rw [hok] at h
    injection h with h
    subst h
    exact ⟨rfl, rfl, rfl⟩
  obtain ⟨k1, k2, k3⟩ := key cfg s h
  have hport : s.HTTPPort = cfg.HTTPPort := by rw [← k1]
  have hsport : s.HTTPSPort = cfg.HTTPSPort := by rw [← k1]
  refine ⟨k1, k2, k3, ?_, ?_, ?_, ?_⟩
  · unfold Server.httpsOnly
    rw [hport, hsport]
    simp
  · intro r hr
    rw [redirectToHTTPS_eq s r r.Host (Or.inl ⟨hr, rfl⟩), k3, hport, hsport]
    by_cases hc : cfg.HTTPSPort ≠ 443 ∧ cfg.HTTPPort ≠ cfg.HTTPSPort
    · rw [if_pos hc, if_pos hc]
      simp only [List.append_assoc]
    · rw [if_neg hc, if_neg hc]
      simp only [List.append_nil]
  · intro lg s1 h1
    obtain ⟨j1, _, _⟩ := key _ s1 h1
    unfold Server.httpsOnly
    rw [j1]
    rfl
  · intro lg s2 h2
    obtain ⟨j1, _, _⟩ := key _ s2 h2
    unfold Server.httpsOnly
    rw [j1]
    rfl

/-- Instance of C20: the server built for the ports 80/443 from a file system without
template files. -/
theorem C20_newServer_invariant_witness :
    Server.toConfig
        { Log := some ⟨str "test"⟩, Version := [], HTTPPort := 80, HTTPSPort := 443,
          TLSCertFile := [], TLSKeyFile := [],
          Data := [(str "Version", []), (str "Name", str "Sarah-OTP"),
            (str "ShortName", str "S-OTP"),
            (str "Description", str "a secure message-passing app"),
            (str "ThemeColor", str "purple"), (str "BackgroundColor", str "white")],
          httpsServer := ⟨str ":" ++ formatInt 443, .handleHTTPS⟩,
          httpServer := ⟨str ":" ++ formatInt 80, .redirectToHTTPS⟩, templateFiles := [] } =
      ⟨some ⟨str "test"⟩, [], 80, 443, [], []⟩ :=
  (C20_newServer_invariant ⟨fun _ => .ok [], fun _ _ => ⟨[], rfl⟩⟩
    ⟨some ⟨str "test"⟩, [], 80, 443, [], []⟩ _ rfl).1


/-! ## Text after the block, key recovery, trimming, the port override -/

/-- With a key that is the armoured `k`, `Encrypt` returns the armoured `xor m k`. -/
theorem Encrypt_encode (m k K : List Byte) (hK : encode k = .ok K) (h : m.length ≤ k.length) :
    Encrypt m K = encode (xor m k) := by
  obtain ⟨t, ht⟩ := encode_ok (xor m k)
  unfold Encrypt
  rw [decode_encode k K hK]
  simp only []
  rw [if_neg (by omega), ht]

/-- Combining `m` twice from the left gives back a `k` that is at least as long. -/
theorem xor_xor_left (m : List Byte) :
    ∀ k : List Byte, m.length ≤ k.length → xor m (xor m k) = k := by
  induction m with
  | nil =>
    intro k _
    rw [xor_nil_left, xor_nil_left]
  | cons a m ih =>
    intro k hk
    cases k with
    | nil => simp at hk
    | cons b k =>
      rw [xor_cons_cons, xor_cons_cons, ih k (by simpa using hk), bxor_comm a b, bxor_comm a,
        bxor_bxor_cancel]

/-- For `m` no longer than `x`, `xor m x` is the combined prefix followed by the rest of `x`. -/
theorem xor_of_le (m x : List Byte) (h : m.length ≤ x.length) :
    xor m x = List.zipWith bxor m x ++ x.drop m.length := by
  rw [xor_eq, List.drop_of_length_le h, List.append_nil]

/-- Trailing copies of `c` do not change what `trimRightByte` returns. -/
theorem trimRightByte_append_replicate (m : List Byte) (c : Byte) (n : Nat) :
    trimRightByte (m ++ List.replicate n c) c = trimRightByte m c := by
  induction n with
  | zero => simp
  | succ n ih =>
    rw [List.replicate_succ', ← List.append_assoc]
    unfold trimRightByte at ih ⊢
    rw [List.rdropWhile_concat_pos _ _ _ (by simp), ih]

/-- Trimming returns the whole of `m` exactly when `m` does not end with `c`. -/
theorem trimRightByte_eq_self (m : List Byte) (c : Byte) :
    trimRightByte m c = m ↔ m.getLast? ≠ some c := by
  unfold trimRightByte
  rw [List.rdropWhile_eq_self_iff]
  constructor
  · intro h hl
    have hne : m ≠ [] := by
      intro e
      rw [e] at hl
      simp at hl
    rw [List.getLast?_eq_getLast _ hne] at hl
    exact h hne (by simpa using hl)
  · intro h hne hp
    apply h
    rw [List.getLast?_eq_getLast _ hne]
    simpa using hp

/-- What `newMainFlags` returns when the flags parse and the override is not zero: both
ports are the override. -/
theorem newMainFlags_override (parseInt : List Byte → Option Int) (osArgs : List (List Byte))
    (env : List Byte → Option (List Byte)) (v : FlagVars)
    (h : parseFlags parseInt ((if osArgs.length = 0 then [[]] else osArgs).drop 1)
      (newFlagSet env) = .ok v) (hp : v.portOverride ≠ 0) :
    newMainFlags parseInt osArgs env =
      .ok { v.m with httpsPort := v.portOverride, httpPort := v.portOverride } := by
  unfold newMainFlags
  simp only []
  rw [h]
  simp only []
  rw [if_pos hp]

/-- C21, at the input of `TestNewMainFlagsPortOverride`: with no command-line arguments and
PORT=3, HTTP_PORT=1, HTTPS_PORT=2, VERSION_FILE="?", `newMainFlags` returns versionFile "?",
httpsPort 3 and httpPort 3, the override, and so not the httpPort -1 of the test. -/
theorem C21_port_override_code :
    (∀ parseInt, newMainFlags parseInt [] portOverrideEnv = .ok ⟨str "?", 3, 3, [], []⟩) ∧
    (∀ parseInt, newMainFlags parseInt [] portOverrideEnv ≠ .ok ⟨str "?", -1, 3, [], []⟩) := by
  have h : ∀ parseInt, newMainFlags parseInt [] portOverrideEnv = .ok ⟨str "?", 3, 3, [], []⟩ := by
    intro parseInt
    have hv : parseFlags parseInt ((if ([] : List (List Byte)).length = 0 then [[]] else []).drop 1)
        (newFlagSet portOverrideEnv) = .ok (newFlagSet portOverrideEnv) := rfl
    rw [newMainFlags_override parseInt [] portOverrideEnv _ hv (by decide)]
    decide
  refine ⟨h, ?_⟩
  intro parseInt e
  rw [h parseInt] at e
  exact absurd e (by decide)

/-- C22. For a message `m` and bytes `x` with `len(m) <= len(x)`, a key `k` makes
`Encrypt(m, encode(k))` succeed with a cipher text that decodes to `x` exactly when `k` is
`m[i] XOR x[i]` for `i < len(m)` followed by the bytes of `x` from `len(m)` on: there is one
such key and only one. `"CAT"` under the key 01 02 03 04 05 and `"BET"` under the key
00 06 03 04 05 give the same cipher text, of the bytes 42 43 57 04 05. -/
theorem C22_cipher_consistent (m x : List Byte) (h : m.length ≤ x.length) :
    (∀ k : List Byte,
      (∃ K t, encode k = .ok K ∧ Encrypt m K = .ok t ∧ decode t = .ok x) ↔
        k = List.zipWith bxor m x ++ x.drop m.length) ∧
    (∃! k : List Byte, ∃ K t, encode k = .ok K ∧ Encrypt m K = .ok t ∧ decode t = .ok x) ∧
    (∃ K1 K2 t, encode [1, 2, 3, 4, 5] = .ok K1 ∧ encode [0, 6, 3, 4, 5] = .ok K2 ∧
      Encrypt (str "CAT") K1 = .ok t ∧ Encrypt (str "BET") K2 = .ok t ∧
      decode t = .ok [0x42, 0x43, 0x57, 0x04, 0x05]) := by
  have key : ∀ k : List Byte,
      (∃ K t, encode k = .ok K ∧ Encrypt m K = .ok t ∧ decode t = .ok x) ↔
        k = List.zipWith bxor m x ++ x.drop m.length := by
    intro k
    rw [← xor_of_le m x h]
    constructor
    · rintro ⟨K, t, hK, ht, hx⟩
      obtain ⟨k1, hk1, hle, het⟩ := Encrypt_ok m K t ht
      rw [decode_encode k K hK] at hk1
      cases hk1
      rw [decode_encode _ t het] at hx
      cases hx
      rw [xor_xor_left m k hle]
    · intro hk
      subst hk
      have hle : m.length ≤ (xor m x).length := by
        rw [xor_length]
        omega
      obtain ⟨K, hK⟩ := encode_ok (xor m x)
      obtain ⟨t, ht⟩ := encode_ok (xor m (xor m x))
      refine ⟨K, t, hK, ?_, ?_⟩
      · rw [Encrypt_encode m _ K hK hle, ht]
      · rw [decode_encode _ t ht, xor_xor_left m x h]
  refine ⟨key, ⟨_, (key _).mpr rfl, fun k hk => (key k).mp hk⟩, ?_⟩
  obtain ⟨K1, hK1⟩ := encode_ok [1, 2, 3, 4, 5]
  obtain ⟨K2, hK2⟩ := encode_ok [0, 6, 3, 4, 5]
  obtain ⟨t, ht⟩ := encode_ok [0x42, 0x43, 0x57, 0x04, 0x05]
  refine ⟨K1, K2, t, hK1, hK2, ?_, ?_, decode_encode _ t ht⟩
  · rw [Encrypt_encode _ _ K1 hK1 (by decide), ← ht]
    exact congrArg encode (by decide)
  · rw [Encrypt_encode _ _ K2 hK2 (by decide), ← ht]
    exact congrArg encode (by decide)

/-- Instance of C22: the message `"BET"` and the bytes 42 43 57 04 05, with the key
00 06 03 04 05. -/
theorem C22_cipher_consistent_witness :
    (str "BET").length ≤ ([0x42, 0x43, 0x57, 0x04, 0x05] : List Byte).length ∧
    ∃ K t, encode [0, 6, 3, 4, 5] = .ok K ∧ Encrypt (str "BET") K = .ok t ∧
      decode t = .ok [0x42, 0x43, 0x57, 0x04, 0x05] :=
  ⟨by decide,
    ((C22_cipher_consistent (str "BET") [0x42, 0x43, 0x57, 0x04, 0x05] (by decide)).1
      [0, 6, 3, 4, 5]).mpr (by decide)⟩

/-- C23. For a message `m` and a key `k` with `len(m) <= len(k)`, `Decrypt(Encrypt(m,
encode(k)), encode(k))` without its trailing 0x00 bytes is `m` without its trailing 0x00
bytes; that is the value `decryptCipher` shows, and it is `m` itself exactly when `m` does
not end with a 0x00 byte. -/
theorem C23_caller_trim (m k : List Byte) (h : m.length ≤ k.length) :
    ∃ K t d, encode k = .ok K ∧ Encrypt m K = .ok t ∧ Decrypt t K = .ok d ∧
      trimRightByte d 0 = trimRightByte m 0 ∧
      decryptCipher t K = .ok (trimRightByte m 0) ∧
      (decryptCipher t K = .ok m ↔ m.getLast? ≠ some 0) := by
  obtain ⟨K, hK⟩ := encode_ok k
  obtain ⟨t, ht⟩ := encode_ok (xor m k)
  have hd : Decrypt t K = .ok (m ++ List.replicate (k.length - m.length) 0) := by
    unfold Decrypt
    rw [decode_encode _ t ht, decode_encode k K hK]
    simp only []
    rw [if_neg (by rw [xor_length]; omega), xor_xor_cancel m k h]
  have hc : decryptCipher t K = .ok (trimRightByte m 0) := by
    unfold decryptCipher
    rw [hd]
    simp only []
    rw [trimRightByte_append_replicate]
  refine ⟨K, t, _, hK, ?_, hd, trimRightByte_append_replicate m 0 _, hc, ?_⟩
  · rw [Encrypt_encode m k K hK h, ht]
  · rw [hc, Except.ok.injEq, trimRightByte_eq_self]

/-- Instance of C23: the message `"CAT"` followed by a 0x00 byte, under the key bytes
1, 2, 3, 4, 5. -/
theorem C23_caller_trim_witness :
    ∃ K t d, encode [1, 2, 3, 4, 5] = .ok K ∧ Encrypt (str "CAT" ++ [0]) K = .ok t ∧
      Decrypt t K = .ok d ∧
      trimRightByte d 0 = trimRightByte (str "CAT" ++ [0]) 0 ∧
      decryptCipher t K = .ok (trimRightByte (str "CAT" ++ [0]) 0) ∧
      (decryptCipher t K = .ok (str "CAT" ++ [0]) ↔ (str "CAT" ++ [0]).getLast? ≠ some 0) :=
  C23_caller_trim (str "CAT" ++ [0]) [1, 2, 3, 4, 5] (by decide)

/-- C24. For every byte sequence `b`, `decode` of `encode(b)` followed by one newline, and
by any other non-empty text, fails with `"extra text after PEM data"`; `Encrypt` with such a
key fails with `"decoding key: extra text after PEM data"`, `Decrypt` with such a cipher text
fails with `"decoding cipher text: extra text after PEM data"`, and `Decrypt` of a cipher
text that decodes with such a key fails with `"decoding key: extra text after PEM data"`. -/
theorem C24_trailing_newline (b : List Byte) :
    ∃ t, encode b = .ok t ∧
      decode (t ++ str "\n") = .error "extra text after PEM data" ∧
      (∀ tail : List Byte, tail ≠ [] →
        decode (t ++ tail) = .error "extra text after PEM data") ∧
      (∀ m, Encrypt m (t ++ str "\n") = .error "decoding key: extra text after PEM data") ∧
      (∀ K, Decrypt (t ++ str "\n") K =
        .error "decoding cipher text: extra text after PEM data") ∧
      (∀ C x, decode C = .ok x →
        Decrypt C (t ++ str "\n") = .error "decoding key: extra text after PEM data") := by
  obtain ⟨t, ht⟩ := encode_ok b
  have htail : ∀ tail : List Byte, tail ≠ [] →
      decode (t ++ tail) = .error "extra text after PEM data" := by
    intro tail hne
    rw [decode_pemEncode_append (str "OTP") b tail t (by decide) (Or.inl (by decide))
      (by rw [← encode_eq_pemEncode]; exact ht)]
    rw [if_pos (by
      intro e
      exact hne (List.length_eq_zero.mp e))]
  have hnl : decode (t ++ str "\n") = .error "extra text after PEM data" :=
    htail _ (by decide)
  refine ⟨t, ht, hnl, htail, ?_, ?_, ?_⟩
  · intro m
    unfold Encrypt
    rw [hnl]
    rfl
  · intro K
    unfold Decrypt
    rw [hnl]
    rfl
  · intro C x hC
    unfold Decrypt
    rw [hC, hnl]
    rfl

/-- Instance of C24: a cipher text that decodes, with the key of the bytes 1, 2, 3, 4, 5
followed by a newline. -/
theorem C24_trailing_newline_witness :
    ∃ t, encode [1, 2, 3, 4, 5] = .ok t ∧
      Decrypt (str "-----BEGIN OTP-----\n-----END OTP-----\n") (t ++ str "\n") =
        .error "decoding key: extra text after PEM data" := by
  obtain ⟨t, ht, _, _, _, _, h⟩ := C24_trailing_newline [1, 2, 3, 4, 5]
  exact ⟨t, ht, h _ [] (by
    have e := encode_eq ([] : List Byte)
    rw [if_pos rfl] at e
    exact decode_encode _ _ e)⟩


end Otp
